import Mathlib

/-!
Verification development for the dataflex-lsp repository.

The document model (`LineMap`, from src/dataflex_document/line_map.rs) is
embedded at the byte level: a document is a `List Byte` where the line feed
is byte 10.  Rust `String` columns in this code are byte offsets, and the
only byte the code ever inspects is the line feed, so a byte-list model is
exact (multi-byte UTF-8 boundary panics of `String::replace_range` are the
one Rust behaviour the model does not track; every input considered here is
ASCII).  Fallible operations (Rust index/`split_off`/`splice` panics) are
modelled by returning `none`.

The workspace index (src/index.rs, src/index/{index_symbol,index_file,
symbols_diff,lookup_tables,indexer}.rs) is embedded with hash maps modelled
as functions from keys, multimaps as functions into lists (the source
removes a multimap key as soon as its bucket empties, so an absent key and
an empty bucket are observationally identical), and the symbol-diff table
as an association list with overwrite-on-insert semantics.
-/

set_option maxHeartbeats 1600000

/-- A byte of the document text.  Line feed is 10. -/
abbrev Byte := Nat

/-- The line-feed byte. -/
def nl : Byte := 10

/-- `tree_sitter::Point`: zero-based row and byte column. -/
structure Point where
  row : Nat
  column : Nat
deriving DecidableEq

/-- Rust `Line::has_line_ending`: the stored text ends with a line feed. -/
def hasLineEnding (l : List Byte) : Bool := l.getLast? = some nl

/-- The `line_span` crate's `line_spans` iterator, keeping endings
(`as_str_with_ending`): split the text into segments, each ending right
after a line feed, with a final segment (if any) lacking one. -/
def lineSpans : List Byte → List (List Byte)
  | [] => []
  | b :: t =>
    if b = nl then [nl] :: lineSpans t
    else
      match lineSpans t with
      | [] => [[b]]
      | l :: ls => (b :: l) :: ls

/-- `LineMap` (line_map.rs): the document as a list of lines, each line
retaining its ending bytes. -/
structure LineMap where
  lines : List (List Byte)
deriving DecidableEq

/-- `LineMap::new`: split the text into lines with endings. -/
def LineMap.new (text : List Byte) : LineMap := ⟨lineSpans text⟩

/-- `LineMap::line_count`. -/
def LineMap.lineCount (lm : LineMap) : Nat := lm.lines.length

/-- `LineMap::text` (test helper): concatenation of all stored line texts. -/
def LineMap.text (lm : LineMap) : List Byte := lm.lines.flatten

/-- `LineMap::line_text_with_ending`. -/
def LineMap.lineTextWithEnding (lm : LineMap) (line : Nat) : Option (List Byte) :=
  lm.lines[line]?

/-- `LineMap::offset_at_point`: sum of the byte lengths of the rows before
`p.row`, plus the column.  The Rust code slices `self.lines[..point.row]`,
which panics when `p.row` exceeds the line count; that is the `none` case. -/
def LineMap.offsetAtPoint (lm : LineMap) (p : Point) : Option Nat :=
  if p.row ≤ lm.lines.length then
    some (((lm.lines.take p.row).map List.length).sum + p.column)
  else none

/-- Loop of `LineMap::point_at_offset`: scan the lines, returning the first
row whose byte span contains the offset. -/
def pointAtOffsetGo : List (List Byte) → Nat → Nat → Point
  | [], _, row => ⟨row, 0⟩
  | l :: rest, offset, row =>
    if offset < l.length then ⟨row, offset⟩
    else pointAtOffsetGo rest (offset - l.length) (row + 1)

/-- `LineMap::point_at_offset`; past-the-end offsets fall through the loop
and yield `Point { row: line_count, column: 0 }`. -/
def LineMap.pointAtOffset (lm : LineMap) (offset : Nat) : Point :=
  pointAtOffsetGo lm.lines offset 0

/-- Result of `Line::replace_range`: the rewritten line text and the
optional split-off tail. -/
structure LineReplaceResult where
  newText : List Byte
  tail : Option (List Byte)
deriving DecidableEq

/-- A span produced by `line_spans` has a nonempty `ending_str` exactly when
it ends with a line feed. -/
def spanHasEnding (span : List Byte) : Bool := span.getLast? = some nl

/-- `Line::replace_range` (line_map.rs).  `b?` is `some b` for a range
`a..b` and `none` for an unbounded range `a..` (the only two shapes the
call sites use, so the `Bound::Included` arm of the source is unreachable).
`span?` is the optional inserted `line_spans` span, with its ending.
Out-of-bounds ranges make `String::replace_range`/`split_off` panic, which
is the `none` result here. -/
def lineReplaceRange (text : List Byte) (a : Nat) (b? : Option Nat)
    (span? : Option (List Byte)) : Option LineReplaceResult :=
  match span? with
  | none =>
    match b? with
    | some b =>
      if a ≤ b ∧ b ≤ text.length then some ⟨text.take a ++ text.drop b, none⟩ else none
    | none => if a ≤ text.length then some ⟨text.take a, none⟩ else none
  | some span =>
    if spanHasEnding span then
      match b? with
      | some b =>
        if a ≤ b ∧ b ≤ text.length then
          let tail := text.drop b
          some ⟨text.take a ++ span, if tail = [] then none else some tail⟩
        else none
      | none => if a ≤ text.length then some ⟨text.take a ++ span, none⟩ else none
    else
      match b? with
      | some b =>
        if a ≤ b ∧ b ≤ text.length then
          some ⟨text.take a ++ span ++ text.drop b, none⟩
        else none
      | none => if a ≤ text.length then some ⟨text.take a ++ span, none⟩ else none

/-- `LineMap::fixup_line_ending_if_needed`: if line `i` lacks an ending and
a following line exists, remove that line and append its text to line `i`.
Indexing a missing line `i` is a Rust panic, hence `none`. -/
def fixupLineEnding (lines : List (List Byte)) (i : Nat) : Option (List (List Byte)) :=
  match lines[i]? with
  | none => none
  | some l =>
    if ¬ hasLineEnding l ∧ i + 1 < lines.length then
      match lines[i + 1]? with
      | none => none
      | some l2 => some ((lines.set i (l ++ l2)).eraseIdx (i + 1))
    else some lines

/-- `LineMap::splice_lines`: replace `lines[startIdx..endIdx]` with the
remaining inserted spans, then reconcile the line at `current_line` with the
split-off tail.  The source indexes `self.lines[current_line]` without a
bounds check; an out-of-range `current_line` (or an invalid splice range)
is a Rust panic, hence `none`. -/
def spliceCore (spliced : List (List Byte)) (currentLine : Nat)
    (tail? : Option (List Byte)) : Option (List (List Byte)) :=
  match spliced[currentLine]? with
  | none => none
  | some cur =>
    if ¬ hasLineEnding cur then
      match tail? with
      | some tail => some (spliced.set currentLine (cur ++ tail))
      | none => fixupLineEnding spliced currentLine
    else
      match tail? with
      | some tail => some (spliced.insertIdx currentLine tail)
      | none => some spliced

def spliceLines (lines : List (List Byte)) (startIdx endIdx : Nat)
    (its : List (List Byte)) (tail? : Option (List Byte)) :
    Option (List (List Byte)) :=
  if startIdx ≤ endIdx ∧ endIdx ≤ lines.length then
    spliceCore (lines.take startIdx ++ its ++ lines.drop endIdx)
      (if its.length > 0 then startIdx + (its.length - 1) else startIdx) tail?
  else none

/-- `LineMap::replace_range` (line_map.rs, lines 49-67): splice-edit the
line map between two points. -/
def LineMap.replaceRange (lm : LineMap) (start stop : Point) (text : List Byte) :
    Option LineMap :=
  if start.row = stop.row then
    match lineSpans text with
    | [] =>
      match lm.lines[start.row]? with
      | none => none
      | some l =>
        match lineReplaceRange l start.column (some stop.column) none with
        | none => none
        | some res => some ⟨lm.lines.set start.row res.newText⟩
    | span :: restSpans =>
      match lm.lines[start.row]? with
      | none => none
      | some l =>
        match lineReplaceRange l start.column (some stop.column) (some span) with
        | none => none
        | some res =>
          (spliceLines (lm.lines.set start.row res.newText) (start.row + 1)
              (start.row + 1) restSpans res.tail).map (⟨·⟩)
  else
    match lm.lines[start.row]? with
    | none => none
    | some l1 =>
      match lineReplaceRange l1 start.column none (lineSpans text).head? with
      | none => none
      | some res1 =>
        let lines1 := lm.lines.set start.row res1.newText
        match lines1[stop.row]? with
        | none => none
        | some l2 =>
          match lineReplaceRange l2 0 (some stop.column) none with
          | none => none
          | some res2 =>
            let lines2 := lines1.set stop.row res2.newText
            match spliceLines lines2 (start.row + 1) stop.row (lineSpans text).tail
                res1.tail with
            | none => none
            | some lines3 => (fixupLineEnding lines3 start.row).map (⟨·⟩)

/-- The direct byte splice that §4.1 of the spec says `replace_range`
implements: prefix up to `a`, then the inserted text, then the suffix
from `b`. -/
def spliceBytes (t : List Byte) (a b : Nat) (ins : List Byte) : List Byte :=
  t.take a ++ ins ++ t.drop b

/-- A line may contain a line feed only as its final byte. -/
def isLineShape (l : List Byte) : Bool := l.dropLast.all (fun b => b != nl)

/-- A "full" line: line-feed-free content followed by a line feed. -/
def isFullLine (l : List Byte) : Bool := isLineShape l && hasLineEnding l

/-- The line-structure invariant of claim C9: every stored line except
possibly the last ends with a line feed, and no line has an interior one. -/
def wfLines : List (List Byte) → Bool
  | [] => true
  | [l] => isLineShape l
  | l :: rest => isFullLine l && wfLines rest

/-- Content length of a line: its byte length not counting the ending. -/
def contentLen (l : List Byte) : Nat :=
  if hasLineEnding l then l.length - 1 else l.length

/-- An edit considered by the amended claim C9: both points on stored rows,
start not after stop, columns within the content of their lines, and no
edit on the final stored row whose text contains a line feed. -/
def validEdit (lm : LineMap) (s e : Point) (t : List Byte) : Bool :=
  match lm.lines[s.row]?, lm.lines[e.row]? with
  | some ls, some le =>
    (decide (s.row < e.row) || (s.row == e.row && s.column ≤ e.column))
      && s.column ≤ contentLen ls && e.column ≤ contentLen le
      && !(s.row + 1 == lm.lines.length && t.contains nl)
  | _, _ => false

/-- Apply a list of `replace_range` edits in order, stopping at a panic. -/
def applyEdits (lm : LineMap) : List (Point × Point × List Byte) → Option LineMap
  | [] => some lm
  | (s, e, t) :: rest =>
    match lm.replaceRange s e t with
    | none => none
    | some lm' => applyEdits lm' rest

/-- Every edit of the list is valid for the state it applies to. -/
def goodEdits (lm : LineMap) : List (Point × Point × List Byte) → Bool
  | [] => true
  | (s, e, t) :: rest =>
    validEdit lm s e t &&
      (match lm.replaceRange s e t with
       | none => true
       | some lm' => goodEdits lm' rest)

/-! ## Workspace index model

Symbol model from src/index/index_symbol.rs.  The snapshot stores class
members in two per-kind lists (`methods`, `properties`), the shape that
src/index/lookup_tables.rs and src/index/symbols_diff.rs operate on; the
`members` view used by the path-descent resolution of index_symbol.rs is
their concatenation. -/

/-- `SymbolName`: a string wrapper with case-sensitive equality. -/
abbrev SymbolName := String

/-- `SymbolPath`: ordered component list; the source asserts nonemptiness
at construction and every path built here is nonempty. -/
abbrev SymbolPath := List SymbolName

/-- `SymbolPath::name`: the last component (`unwrap` in the source; all
paths in play are nonempty, so the default is never returned). -/
def SymbolPath.name (p : SymbolPath) : SymbolName := p.getLastD ""

/-- `MethodKind`. -/
inductive MethodKind where
  | procedure
  | function
  | set
deriving DecidableEq

/-- `IndexSymbol`: tagged class / method / property symbol. -/
inductive IndexSymbol where
  | classSym (location : Point) (name : SymbolName)
      (methods : List IndexSymbol) (properties : List IndexSymbol)
  | methodSym (location : Point) (symbolPath : SymbolPath) (kind : MethodKind)
  | propertySym (location : Point) (symbolPath : SymbolPath)

/-- `IndexSymbol::name`. -/
def IndexSymbol.name : IndexSymbol → SymbolName
  | .classSym _ n _ _ => n
  | .methodSym _ p _ => p.name
  | .propertySym _ p => p.name

/-- `IndexSymbol::location`. -/
def IndexSymbol.location : IndexSymbol → Point
  | .classSym l _ _ _ => l
  | .methodSym l _ _ => l
  | .propertySym l _ => l

/-- `IndexSymbol::is_matching` (index_symbol.rs, lines 78-88): classes match
on name, methods on symbol path, everything else (including two property
symbols) falls to the wildcard arm and is `false`. -/
def IndexSymbol.isMatching : IndexSymbol → IndexSymbol → Bool
  | .classSym _ n _ _, .classSym _ n' _ _ => n = n'
  | .methodSym _ p _, .methodSym _ p' _ => p = p'
  | _, _ => false

/-- The `members` list of a class symbol (index_symbol.rs stores one list;
this snapshot's diff/lookup code stores methods and properties separately,
so the member view is their concatenation), empty for other variants. -/
def IndexSymbol.members : IndexSymbol → List IndexSymbol
  | .classSym _ _ ms ps => ms ++ ps
  | _ => []

/-- `IndexSymbol::child`: first member with the given name (classes only). -/
def IndexSymbol.child (s : IndexSymbol) (n : SymbolName) : Option IndexSymbol :=
  match s with
  | .classSym _ _ ms ps => (ms ++ ps).find? (fun c => c.name = n)
  | _ => none

/-- `IndexSymbol::resolve`: descend through the remaining path components. -/
def IndexSymbol.resolve (s : IndexSymbol) : List SymbolName → Option IndexSymbol
  | [] => some s
  | n :: rest =>
    match s.child n with
    | some c => c.resolve rest
    | none => none

/-- `IndexFileRef`: identity wrapper over a file name. -/
abbrev IndexFileRef := String

/-- `IndexFile` (index_file.rs). -/
structure IndexFile where
  path : String
  dependencies : List IndexFileRef
  symbols : List IndexSymbol

/-- `IndexFile::new`. -/
def IndexFile.new (path : String) : IndexFile := ⟨path, [], []⟩

/-- `IndexFile::child`: first top-level symbol with the given name. -/
def IndexFile.child (f : IndexFile) (n : SymbolName) : Option IndexSymbol :=
  f.symbols.find? (fun s => s.name = n)

/-- `IndexFile::resolve` (index_file.rs, lines 26-33): descend along a
symbol path; the empty path resolves to nothing. -/
def IndexFile.resolve (f : IndexFile) (p : SymbolPath) : Option IndexSymbol :=
  match p with
  | [] => none
  | n :: rest =>
    match f.child n with
    | some s => s.resolve rest
    | none => none

/-- `IndexSymbolRef` (index_symbol.rs): file reference plus symbol path. -/
structure IndexSymbolRef where
  fileRef : IndexFileRef
  symbolPath : SymbolPath
deriving DecidableEq

/-- `SymbolsDiff` (symbols_diff.rs): symbols added and removed between two
per-file symbol trees. -/
structure SymbolsDiff where
  addedSymbols : List IndexSymbol
  removedSymbols : List IndexSymbol

/-- The `existing_symbols` table of `diff_symbols`: a name-keyed map built
by insertion with overwrite, modelled as an association list whose key
order is insertion order. -/
def symTableInsert (t : List (SymbolName × IndexSymbol)) (s : IndexSymbol) :
    List (SymbolName × IndexSymbol) :=
  t.filter (fun e => e.1 ≠ s.name) ++ [(s.name, s)]

/-- Build the `existing_symbols` table from the old symbol list. -/
def buildSymTable (syms : List IndexSymbol) : List (SymbolName × IndexSymbol) :=
  syms.foldl symTableInsert []

mutual

/-- The fold of `diff_symbols` (symbols_diff.rs, lines 57-104) over the new
symbol list: returns the accumulated diff and the table of still-unmatched
old symbols.  (`HashMap::into_values` iterates in unspecified order; here
the leftover table keeps insertion order, which is observationally
equivalent because the removal operations of `LookupTables::update` all
commute.) -/
def diffAux : List (SymbolName × IndexSymbol) → List IndexSymbol →
    SymbolsDiff × List (SymbolName × IndexSymbol)
  | table, [] => (⟨[], []⟩, table)
  | table, s :: rest =>
    match table.find? (fun e => e.1 = s.name) with
    | some ex =>
      if ex.2.isMatching s then
        let inner : SymbolsDiff :=
          match ex.2, s with
          | .classSym _ _ oldM oldP, .classSym _ _ newM newP =>
            let md := diffSymbols oldM newM
            let pd := diffSymbols oldP newP
            ⟨md.addedSymbols ++ pd.addedSymbols,
             md.removedSymbols ++ pd.removedSymbols⟩
          | _, _ => ⟨[], []⟩
        let r := diffAux (table.filter (fun e => e.1 ≠ s.name)) rest
        (⟨inner.addedSymbols ++ r.1.addedSymbols,
          inner.removedSymbols ++ r.1.removedSymbols⟩, r.2)
      else
        let r := diffAux table rest
        (⟨s :: r.1.addedSymbols, r.1.removedSymbols⟩, r.2)
    | none =>
      let r := diffAux table rest
      (⟨s :: r.1.addedSymbols, r.1.removedSymbols⟩, r.2)
termination_by _ l => (sizeOf l, 0)

/-- `diff_symbols` (symbols_diff.rs, lines 46-110): table the old symbols by
name, walk the new symbols, and record everything left in the table as
removed. -/
def diffSymbols (oldSyms newSyms : List IndexSymbol) : SymbolsDiff :=
  let r := diffAux (buildSymTable oldSyms) newSyms
  ⟨r.1.addedSymbols, r.1.removedSymbols ++ r.2.map (fun e => e.2)⟩
termination_by (sizeOf newSyms, 1)

end

/-- `SymbolsDiff::diff_index_files` (symbols_diff.rs, lines 9-37). -/
def diffIndexFiles : Option IndexFile → Option IndexFile → SymbolsDiff
  | some oldF, some newF => diffSymbols oldF.symbols newF.symbols
  | some oldF, none => ⟨[], oldF.symbols⟩
  | none, some newF => ⟨newF.symbols, []⟩
  | none, none => ⟨[], []⟩

/-- `LookupTables` (lookup_tables.rs): the class map, the three per-kind
method multimaps, and the property multimap.  Maps are modelled as
functions; a multimap key whose bucket empties is removed by the source,
so absence and the empty bucket coincide. -/
structure LookupTables where
  classLookupTable : SymbolName → Option IndexSymbolRef
  methodLookupTables : MethodKind → SymbolName → List IndexSymbolRef
  propertyLookupTable : SymbolName → List IndexSymbolRef

/-- `LookupTables::new`. -/
def LookupTables.new : LookupTables :=
  ⟨fun _ => none, fun _ _ => [], fun _ => []⟩

/-- Removal of one method occurrence: retain the bucket entries whose
symbol path differs (lookup_tables.rs, lines 66-79 and 99-110). -/
def removeMethodPath (t : LookupTables) (kind : MethodKind) (path : SymbolPath) :
    LookupTables :=
  { t with
    methodLookupTables := fun k n =>
      if k = kind ∧ n = path.name then
        (t.methodLookupTables k n).filter (fun s => s.symbolPath ≠ path)
      else t.methodLookupTables k n }

/-- Removal of one property occurrence (lookup_tables.rs, lines 81-95 and
111-122). -/
def removePropertyPath (t : LookupTables) (path : SymbolPath) : LookupTables :=
  { t with
    propertyLookupTable := fun n =>
      if n = path.name then
        (t.propertyLookupTable n).filter (fun s => s.symbolPath ≠ path)
      else t.propertyLookupTable n }

/-- Processing one removed symbol of the diff (lookup_tables.rs,
lines 63-124): a removed class removes the method and property occurrences
of its member lists and then its own class entry; removed methods and
properties remove their occurrence. -/
def removeSymbol (t : LookupTables) (s : IndexSymbol) : LookupTables :=
  match s with
  | .classSym _ name methods properties =>
    let t1 := methods.foldl
      (fun acc m =>
        match m with
        | .methodSym _ p k => removeMethodPath acc k p
        | _ => acc) t
    let t2 := properties.foldl
      (fun acc m =>
        match m with
        | .propertySym _ p => removePropertyPath acc p
        | _ => acc) t1
    { t2 with
      classLookupTable := fun n =>
        if n = name then none else t2.classLookupTable n }
  | .methodSym _ p k => removeMethodPath t k p
  | .propertySym _ p => removePropertyPath t p

/-- Multimap insertion appends to the bucket (the `multimap` crate keeps a
`Vec` per key and `insert` pushes). -/
def insertMethodRef (t : LookupTables) (kind : MethodKind) (n : SymbolName)
    (x : IndexSymbolRef) : LookupTables :=
  { t with
    methodLookupTables := fun k n' =>
      if k = kind ∧ n' = n then t.methodLookupTables k n' ++ [x]
      else t.methodLookupTables k n' }

/-- Property multimap insertion. -/
def insertPropertyRef (t : LookupTables) (n : SymbolName) (x : IndexSymbolRef) :
    LookupTables :=
  { t with
    propertyLookupTable := fun n' =>
      if n' = n then t.propertyLookupTable n' ++ [x] else t.propertyLookupTable n' }

/-- Processing one added symbol of the diff (lookup_tables.rs,
lines 125-177): an added class inserts its class entry with path
`[class.name]` and then its member occurrences; added methods and
properties insert their occurrence keyed by unqualified name. -/
def addSymbol (fileRef : IndexFileRef) (t : LookupTables) (s : IndexSymbol) :
    LookupTables :=
  match s with
  | .classSym _ name methods properties =>
    let t0 := { t with
      classLookupTable := fun n =>
        if n = name then some ⟨fileRef, [name]⟩ else t.classLookupTable n }
    let t1 := methods.foldl
      (fun acc m =>
        match m with
        | .methodSym _ p k => insertMethodRef acc k p.name ⟨fileRef, p⟩
        | _ => acc) t0
    properties.foldl
      (fun acc m =>
        match m with
        | .propertySym _ p => insertPropertyRef acc p.name ⟨fileRef, p⟩
        | _ => acc) t1
  | .methodSym _ p k => insertMethodRef t k p.name ⟨fileRef, p⟩
  | .propertySym _ p => insertPropertyRef t p.name ⟨fileRef, p⟩

/-- `LookupTables::update` (lookup_tables.rs, lines 62-178): process every
removed symbol, then every added symbol.  `Index::update_lookup_tables`
(indexer.rs, lines 372-454) is the same algorithm inlined, minus the
property handling of this module version. -/
def LookupTables.update (t : LookupTables) (d : SymbolsDiff)
    (fileRef : IndexFileRef) : LookupTables :=
  (d.addedSymbols.foldl (addSymbol fileRef) (d.removedSymbols.foldl removeSymbol t))

/-- `Index` (index.rs): the files map and the lookup tables (the workspace
descriptor plays no part in the claims). -/
structure Index where
  files : IndexFileRef → Option IndexFile
  lookupTables : LookupTables

/-- A fresh index over an empty workspace. -/
def Index.emptyIndex : Index := ⟨fun _ => none, LookupTables.new⟩

/-- `Index::update_file` (indexer.rs, lines 366-370): insert the new
`IndexFile` under the file reference, then update the lookup tables with
the diff between the displaced file and the inserted one. -/
def Index.updateFile (idx : Index) (fileName : String) (indexFile : IndexFile) :
    Index :=
  let oldIndexFile := idx.files fileName
  let files' := fun r => if r = fileName then some indexFile else idx.files r
  ⟨files', idx.lookupTables.update (diffIndexFiles oldIndexFile (some indexFile)) fileName⟩

/-- Commit a sequence of files to an index, each under its file name. -/
def commitAll (idx : Index) (ops : List (String × IndexFile)) : Index :=
  ops.foldl (fun i op => i.updateFile op.1 op.2) idx

/-- `Index::find_symbol_ref` specialised to classes, composed with the
class-lookup access of `Index::find_class` (index.rs, lines 45-51 and
85-105): look the name up in the class table, fetch the referenced file,
and return the first top-level class symbol carrying the unqualified name
of the stored path, together with the file's path. -/
def Index.findClassSnapshot (idx : Index) (name : SymbolName) :
    Option (String × IndexSymbol) :=
  match idx.lookupTables.classLookupTable name with
  | none => none
  | some symbolRef =>
    match idx.files symbolRef.fileRef with
    | none => none
    | some f =>
      match f.symbols.find? (fun s =>
          s.name = symbolRef.symbolPath.name &&
          match s with | .classSym _ _ _ _ => true | _ => false) with
      | some s => some (f.path, s)
      | none => none

/-- `DataFlexDocument::find_definition` after the tree descent
(dataflex_document.rs, lines 107-140): the text of the leaf node under the
point is looked up with `Index::find_class` alone, and the location of the
resulting class symbol is returned as a degenerate range.  The tree
descent itself is the parser's black box; `leafText` is the text of the
leaf under the requested point. -/
def findDefinitionByLeafText (idx : Index) (leafText : String) :
    Option (String × Point) :=
  match idx.findClassSnapshot leafText with
  | none => none
  | some (path, s) => some (path, s.location)

/-- `TagsQueryIndexElement` (indexer.rs, lines 319-326): the pattern kinds
the indexer dispatch recognises.  There is no property variant. -/
inductive TagsQueryIndexElement where
  | fileDependency
  | classDefinition
  | methodProcedureDefinition
  | methodFunctionDefinition
deriving DecidableEq

/-- `EnumString` parsing with `serialize_all = "snake_case"`: any other
value, including `"property_definition"`, parses to nothing. -/
def TagsQueryIndexElement.fromStr (s : String) : Option TagsQueryIndexElement :=
  if s = "file_dependency" then some .fileDependency
  else if s = "class_definition" then some .classDefinition
  else if s = "method_procedure_definition" then some .methodProcedureDefinition
  else if s = "method_function_definition" then some .methodFunctionDefinition
  else none

/-- One indexer query match, abstracted from tree-sitter: the value of the
`index.element` property set on its pattern (if any), and the first node
captured as `name` (its start position and UTF-8 text, if any). -/
structure QueryMatch where
  indexElement : Option String
  nameCapture : Option (Point × String)

/-- The `symbols.last_mut().and_then(ClassSymbol::from_index_symbol_mut)`
attachment (indexer.rs, lines 174-225): append a method with path
`[class.name, name]` to the most recently emitted class, if the last
top-level symbol is a class; otherwise drop the match.  (This indexer
version builds classes with empty member lists and appends only methods;
nothing ever populates the property list.) -/
def pushMethodToLastClass (f : IndexFile) (pos : Point) (nm : String)
    (kind : MethodKind) : IndexFile :=
  match f.symbols.getLast? with
  | some (.classSym loc cname ms ps) =>
    { f with
      symbols := f.symbols.dropLast ++
        [.classSym loc cname (ms ++ [.methodSym pos [cname, nm] kind]) ps] }
  | _ => f

/-- The fold of `Indexer::index_parse_tree` (indexer.rs, lines 115-232)
over the query matches: dispatch on the parsed `index.element` value of
each match's pattern.  A value that fails to parse — `property_definition`
included — falls to the wildcard arm and contributes nothing. -/
def indexParseTree (qms : List QueryMatch) (path : String) : IndexFile :=
  qms.foldl
    (fun indexFile qm =>
      match qm.indexElement.bind TagsQueryIndexElement.fromStr with
      | some .fileDependency =>
        match qm.nameCapture with
        | some (_, txt) =>
          { indexFile with dependencies := indexFile.dependencies ++ [txt] }
        | none => indexFile
      | some .classDefinition =>
        match qm.nameCapture with
        | some (pos, txt) =>
          { indexFile with symbols := indexFile.symbols ++ [.classSym pos txt [] []] }
        | none => indexFile
      | some .methodProcedureDefinition =>
        match qm.nameCapture with
        | some (pos, txt) => pushMethodToLastClass indexFile pos txt .procedure
        | none => indexFile
      | some .methodFunctionDefinition =>
        match qm.nameCapture with
        | some (pos, txt) => pushMethodToLastClass indexFile pos txt .function
        | none => indexFile
      | none => indexFile)
    (IndexFile.new path)

/-! ## Predicates used by the claims -/

/-- An in-range point of claim C8: the row is stored and the column indexes
a byte of that line (its ending included). -/
def LineMap.inRangePoint (lm : LineMap) (p : Point) : Bool :=
  match lm.lines[p.row]? with
  | some l => decide (p.column < l.length)
  | none => false

/-- All strings of the list distinct. -/
def distinctStrings : List String → Bool
  | [] => true
  | x :: r => !(r.contains x) && distinctStrings r

/-- A member of class `a` in method position: a method symbol whose path is
`[a, method_name]`. -/
def isMethodOfClassB (a : SymbolName) : IndexSymbol → Bool
  | .methodSym _ [a', _] _ => a' = a
  | _ => false

/-- A member of class `a` in property position: a property symbol whose
path is `[a, property_name]`. -/
def isPropOfClassB (a : SymbolName) : IndexSymbol → Bool
  | .propertySym _ [a', _] => a' = a
  | _ => false

/-- Well-formedness of one top-level symbol as the indexer produces it: a
class whose methods are method symbols with path `[class.name, method]`
and whose properties are property symbols with path `[class.name, prop]`,
member names distinct per list. -/
def WFClassSym : IndexSymbol → Bool
  | .classSym _ n ms ps =>
    ms.all (isMethodOfClassB n)
      && ps.all (isPropOfClassB n)
      && distinctStrings (ms.map IndexSymbol.name)
      && distinctStrings (ps.map IndexSymbol.name)
  | _ => false

/-- Well-formed `IndexFile` (the data-model invariants of §3 of the spec):
top-level symbols are well-formed classes with distinct names. -/
def WFFile (f : IndexFile) : Bool :=
  f.symbols.all WFClassSym && distinctStrings (f.symbols.map IndexSymbol.name)

/-- All `(symbol_path, kind)` pairs of the methods of a file's classes. -/
def fileMethodEntries (f : IndexFile) : List (SymbolPath × MethodKind) :=
  f.symbols.flatMap
    (fun s =>
      match s with
      | .classSym _ _ ms _ =>
        ms.filterMap (fun m =>
          match m with
          | .methodSym _ p k => some (p, k)
          | _ => none)
      | _ => [])

/-- A replacement file keeps the kind of every method (by symbol path) it
shares with the file it replaces. -/
def KindAgree (oldF newF : IndexFile) : Bool :=
  (fileMethodEntries oldF).all (fun e =>
    (fileMethodEntries newF).all (fun e' => !(e.1 == e'.1) || e.2 == e'.2))

/-- Validity of a file sequence committed under one reference: every file
well-formed and kind-agreeing with its predecessor. -/
def WFChain : Option IndexFile → List IndexFile → Bool
  | _, [] => true
  | prev?, f :: rest =>
    WFFile f
      && (match prev? with
          | some p => KindAgree p f
          | none => true)
      && WFChain (some f) rest

/-- Validity of a list of per-file commits against an evolving index:
each committed file is well-formed and kind-agrees with the file it
replaces in the files map, if any. -/
def ValidOps (idx : Index) : List (String × IndexFile) → Bool
  | [] => true
  | (nm, f) :: rest =>
    WFFile f
      && (match idx.files nm with
          | some old => KindAgree old f
          | none => true)
      && ValidOps (idx.updateFile nm f) rest

/-- Extensional equality of lookup tables: identical class entries, and the
same entry sets per method-kind/name and per property name (the contents a
name-keyed lookup serves). -/
def LookupTables.Eqv (t t' : LookupTables) : Prop :=
  (∀ n, t.classLookupTable n = t'.classLookupTable n) ∧
  (∀ k n x, x ∈ t.methodLookupTables k n ↔ x ∈ t'.methodLookupTables k n) ∧
  (∀ n x, x ∈ t.propertyLookupTable n ↔ x ∈ t'.propertyLookupTable n)

/-- A lookup entry is live: its file reference names a present `IndexFile`
and path descent inside that file reaches a symbol. -/
def EntryLive (idx : Index) (x : IndexSymbolRef) : Prop :=
  ∃ f, idx.files x.fileRef = some f ∧ (f.resolve x.symbolPath).isSome

/-- Claim C2's invariant: every entry of every lookup table is live. -/
def IndexResolves (idx : Index) : Prop :=
  (∀ n x, idx.lookupTables.classLookupTable n = some x → EntryLive idx x) ∧
  (∀ k n x, x ∈ idx.lookupTables.methodLookupTables k n → EntryLive idx x) ∧
  (∀ n x, x ∈ idx.lookupTables.propertyLookupTable n → EntryLive idx x)

/-- Scenario of claims C4: an index holding `Class cMyClass` with
`Procedure testIt`, as `update_file` commits it. -/
def c4ScenarioFile : IndexFile :=
  ⟨"test.pkg", [],
   [.classSym ⟨0, 6⟩ "cMyClass" [.methodSym ⟨1, 14⟩ ["cMyClass", "testIt"] .procedure] []]⟩

/-- The scenario index for claim C4. -/
def c4ScenarioIndex : Index := Index.emptyIndex.updateFile "test.pkg" c4ScenarioFile


/-- Is this symbol a class with the given name? -/
def isClassNamedB (n : SymbolName) : IndexSymbol → Bool
  | .classSym _ n' _ _ => n' = n
  | _ => false

/-- Names of the top-level class symbols of a list. -/
def classNames (syms : List IndexSymbol) : List SymbolName :=
  syms.filterMap (fun s =>
    match s with
    | .classSym _ n _ _ => some n
    | _ => none)

/-- Does the removal list hold a class with this name? -/
def remHasClass (rem : List IndexSymbol) (n : SymbolName) : Bool :=
  rem.any (isClassNamedB n)

/-- Does the addition list hold a class with this name? -/
def addHasClass (add : List IndexSymbol) (n : SymbolName) : Bool :=
  add.any (isClassNamedB n)

/-- The method-bucket removals (paths filtered out at kind `k`, name `n`)
contributed by one removed symbol of `LookupTables::update`. -/
def remMethodPathsOf (k : MethodKind) (n : SymbolName) : IndexSymbol → List SymbolPath
  | .methodSym _ p k' => if k' = k ∧ SymbolPath.name p = n then [p] else []
  | .classSym _ _ ms _ =>
    ms.flatMap (fun m =>
      match m with
      | .methodSym _ p k' => if k' = k ∧ SymbolPath.name p = n then [p] else []
      | _ => [])
  | _ => []

/-- All method-bucket removals of a removal list. -/
def remMethodPaths (rem : List IndexSymbol) (k : MethodKind) (n : SymbolName) :
    List SymbolPath :=
  rem.flatMap (remMethodPathsOf k n)

/-- The property-bucket removals contributed by one removed symbol. -/
def remPropPathsOf (n : SymbolName) : IndexSymbol → List SymbolPath
  | .propertySym _ p => if SymbolPath.name p = n then [p] else []
  | .classSym _ _ _ ps =>
    ps.flatMap (fun m =>
      match m with
      | .propertySym _ p => if SymbolPath.name p = n then [p] else []
      | _ => [])
  | _ => []

/-- All property-bucket removals of a removal list. -/
def remPropPaths (rem : List IndexSymbol) (n : SymbolName) : List SymbolPath :=
  rem.flatMap (remPropPathsOf n)

/-- The method-bucket insertions at kind `k`, name `n` contributed by one
added symbol of `LookupTables::update`. -/
def addMethodRefsOf (r : IndexFileRef) (k : MethodKind) (n : SymbolName) :
    IndexSymbol → List IndexSymbolRef
  | .methodSym _ p k' => if k' = k ∧ SymbolPath.name p = n then [⟨r, p⟩] else []
  | .classSym _ _ ms _ =>
    ms.flatMap (fun m =>
      match m with
      | .methodSym _ p k' => if k' = k ∧ SymbolPath.name p = n then [⟨r, p⟩] else []
      | _ => [])
  | _ => []

/-- All method-bucket insertions of an addition list, in order. -/
def addMethodRefs (add : List IndexSymbol) (r : IndexFileRef) (k : MethodKind)
    (n : SymbolName) : List IndexSymbolRef :=
  add.flatMap (addMethodRefsOf r k n)

/-- The property-bucket insertions contributed by one added symbol. -/
def addPropRefsOf (r : IndexFileRef) (n : SymbolName) :
    IndexSymbol → List IndexSymbolRef
  | .propertySym _ p => if SymbolPath.name p = n then [⟨r, p⟩] else []
  | .classSym _ _ _ ps =>
    ps.flatMap (fun m =>
      match m with
      | .propertySym _ p => if SymbolPath.name p = n then [⟨r, p⟩] else []
      | _ => [])
  | _ => []

/-- All property-bucket insertions of an addition list, in order. -/
def addPropRefs (add : List IndexSymbol) (r : IndexFileRef) (n : SymbolName) :
    List IndexSymbolRef :=
  add.flatMap (addPropRefsOf r n)

/-- The lookup tables of a fresh commit of one file: updating empty tables
with the all-added diff `diff_index_files(None, Some f)`. -/
def canonicalTables (f : IndexFile) (r : IndexFileRef) : LookupTables :=
  LookupTables.new.update ⟨f.symbols, []⟩ r

/-- A symbol list holds a class named `a` carrying the method `[a, m]` of
kind `k`. -/
def HasMethod (syms : List IndexSymbol) (a m : SymbolName) (k : MethodKind) : Prop :=
  ∃ loc ms ps loc', IndexSymbol.classSym loc a ms ps ∈ syms ∧
    IndexSymbol.methodSym loc' [a, m] k ∈ ms

/-- A symbol list holds a class named `a` with a method member named `m`
(of any kind). -/
def HasMethodNamed (syms : List IndexSymbol) (a m : SymbolName) : Prop :=
  ∃ loc ms ps mem, IndexSymbol.classSym loc a ms ps ∈ syms ∧ mem ∈ ms ∧
    IndexSymbol.name mem = m

/-- A symbol list holds a class named `a` carrying the property `[a, m]`. -/
def HasProp (syms : List IndexSymbol) (a m : SymbolName) : Prop :=
  ∃ loc ms ps loc', IndexSymbol.classSym loc a ms ps ∈ syms ∧
    IndexSymbol.propertySym loc' [a, m] ∈ ps

/-- Model of one new symbol's contribution to the added list of the
top-level `diff_symbols` between two well-formed files: a class matched by
name contributes its fresh methods and all its properties; an unmatched
class contributes itself. -/
def topDiffAdded (oldL : List IndexSymbol) : IndexSymbol → List IndexSymbol
  | .classSym loc b newM newP =>
    match oldL.find? (fun s => IndexSymbol.name s = b) with
    | some (.classSym _ _ oldM _) =>
      newM.filter (fun m =>
        !((oldM.map IndexSymbol.name).contains (IndexSymbol.name m))) ++ newP
    | _ => [.classSym loc b newM newP]
  | s => [s]

/-- Model of one new symbol's contribution to the removed list: a class
matched by name removes the old class's vanished methods and all its old
properties. -/
def topDiffRemovedInner (oldL : List IndexSymbol) : IndexSymbol → List IndexSymbol
  | .classSym _ b newM _ =>
    match oldL.find? (fun s => IndexSymbol.name s = b) with
    | some (.classSym _ _ oldM oldP) =>
      oldM.filter (fun m =>
        !((newM.map IndexSymbol.name).contains (IndexSymbol.name m))) ++ oldP
    | _ => []
  | _ => []

/-- Scenario file of claim C1: `Class cMyClass`. -/
def c1FileA : IndexFile :=
  ⟨"test.pkg", [], [.classSym ⟨0, 6⟩ "cMyClass" [] []]⟩

/-- Scenario file of claim C1: the class renamed to `cMyRenamedClass`. -/
def c1FileB : IndexFile :=
  ⟨"test.pkg", [], [.classSym ⟨0, 6⟩ "cMyRenamedClass" [] []]⟩

/-- Counterexample file of claim C1: `Class cA` with `Procedure testIt`. -/
def c1KindFileP : IndexFile :=
  ⟨"test.pkg", [],
   [.classSym ⟨0, 6⟩ "cA" [.methodSym ⟨1, 14⟩ ["cA", "testIt"] .procedure] []]⟩

/-- Counterexample file of claim C1: the same method as a `Function`. -/
def c1KindFileF : IndexFile :=
  ⟨"test.pkg", [],
   [.classSym ⟨0, 6⟩ "cA" [.methodSym ⟨1, 13⟩ ["cA", "testIt"] .function] []]⟩

/-- Counterexample file of claim C2: two classes both named `cA`, the first
with method `m1` and the second with method `m2`. -/
def c2DupFile : IndexFile :=
  ⟨"a.pkg", [],
   [.classSym ⟨0, 6⟩ "cA" [.methodSym ⟨1, 14⟩ ["cA", "m1"] .procedure] [],
    .classSym ⟨3, 6⟩ "cA" [.methodSym ⟨4, 14⟩ ["cA", "m2"] .procedure] []]⟩

/-- The C2 counterexample index: the duplicate-name file committed to a
fresh index. -/
def c2DupIndex : Index := Index.emptyIndex.updateFile "a.pkg" c2DupFile

/-- Witness file for the resolution claims: `Class cW` with a procedure and
a property. -/
def c2WitnessFile : IndexFile :=
  ⟨"w.pkg", [],
   [.classSym ⟨0, 6⟩ "cW"
      [.methodSym ⟨1, 14⟩ ["cW", "doIt"] .procedure]
      [.propertySym ⟨2, 13⟩ ["cW", "piX"]]]⟩

/-- The strong induction invariant behind claim C2: every file of the index
is well-formed, and every lookup entry names a present file whose symbols
carry a matching declaration (class entries store path `[n]` for a class
named `n`; method entries store `[A, n]` for kind-`k` methods of a class
named `A`; property entries likewise). -/
def StrongInv (idx : Index) : Prop :=
  (∀ r f, idx.files r = some f → WFFile f = true) ∧
  (∀ n x, idx.lookupTables.classLookupTable n = some x →
    x.symbolPath = [n] ∧ ∃ f, idx.files x.fileRef = some f ∧
      addHasClass f.symbols n = true) ∧
  (∀ k n x, x ∈ idx.lookupTables.methodLookupTables k n →
    ∃ A, x.symbolPath = [A, n] ∧ ∃ f, idx.files x.fileRef = some f ∧
      HasMethod f.symbols A n k) ∧
  (∀ n x, x ∈ idx.lookupTables.propertyLookupTable n →
    ∃ A, x.symbolPath = [A, n] ∧ ∃ f, idx.files x.fileRef = some f ∧
      HasProp f.symbols A n)

/-! ## Theorems -/

/-- C5 counterexample: two property symbols with the same symbol path fall
to the wildcard arm of `is_matching` and do not match, although the claim
says symbols of the same variant with equal symbol paths match. -/
theorem c5_counterexample :
    IndexSymbol.isMatching (.propertySym ⟨0, 0⟩ ["cA", "piX"])
      (.propertySym ⟨0, 0⟩ ["cA", "piX"]) = false := rfl

/-- C5 amended: `is_matching` is true exactly for two classes with equal
names or two methods with equal symbol paths; property symbols (and mixed
variants) never match. -/
theorem c5_is_matching_amended (a b : IndexSymbol) :
    a.isMatching b = true ↔
      ((∃ l n ms ps l' ms' ps',
          a = .classSym l n ms ps ∧ b = .classSym l' n ms' ps') ∨
       (∃ l p k l' k', a = .methodSym l p k ∧ b = .methodSym l' p k')) := by
  cases a <;> cases b <;> simp [IndexSymbol.isMatching]

/-- C6: the indexer dispatch has no `property_definition` pattern kind, so
a query match annotated `index.element = property_definition` contributes
nothing: indexing a class followed by a property match yields the class
with no members, and nothing can ever reach the property lookup table.
This contradicts the spec and the repository's own
`test_property_lookup_table` tests. -/
theorem c6_property_definition_ignored :
    TagsQueryIndexElement.fromStr "property_definition" = none ∧
    indexParseTree
        [⟨some "class_definition", some (⟨0, 6⟩, "cMyClass")⟩,
         ⟨some "property_definition", some (⟨2, 25⟩, "piTest")⟩] "test.pkg" =
      ⟨"test.pkg", [], [.classSym ⟨0, 6⟩ "cMyClass" [] []]⟩ := by
  constructor
  · rfl
  · rfl

/-- C4 counterexample: with `cMyClass`'s `Procedure testIt` committed to
the index (its method-lookup entry present), `find_definition` on the leaf
text `testIt` returns nothing, not the method's location: the code consults
only `Index::find_class`. -/
theorem c4_counterexample :
    c4ScenarioIndex.lookupTables.methodLookupTables .procedure "testIt" =
        [⟨"test.pkg", ["cMyClass", "testIt"]⟩] ∧
    findDefinitionByLeafText c4ScenarioIndex "testIt" = none := by
  constructor
  · simp [c4ScenarioIndex, Index.updateFile, Index.emptyIndex, diffIndexFiles,
      diffSymbols, diffAux, buildSymTable, c4ScenarioFile, LookupTables.update,
      addSymbol, insertMethodRef, LookupTables.new, SymbolPath.name]
  · simp [c4ScenarioIndex, Index.updateFile, Index.emptyIndex, diffIndexFiles,
      diffSymbols, diffAux, buildSymTable, c4ScenarioFile, LookupTables.update,
      addSymbol, insertMethodRef, insertPropertyRef, LookupTables.new,
      SymbolPath.name, findDefinitionByLeafText, Index.findClassSnapshot]

/-- C4 amended: `find_definition` resolves the leaf text only through the
class lookup: on the method name `testIt` it returns nothing, while on the
class name `cMyClass` it returns the class's definition location. -/
theorem c4_find_definition_amended :
    findDefinitionByLeafText c4ScenarioIndex "testIt" = none ∧
    findDefinitionByLeafText c4ScenarioIndex "cMyClass" =
      some ("test.pkg", ⟨0, 6⟩) := by
  constructor <;>
    simp [c4ScenarioIndex, Index.updateFile, Index.emptyIndex, diffIndexFiles,
      diffSymbols, diffAux, buildSymTable, c4ScenarioFile, LookupTables.update,
      addSymbol, insertMethodRef, LookupTables.new, SymbolPath.name,
      findDefinitionByLeafText, Index.findClassSnapshot, IndexSymbol.name,
      IndexSymbol.location]

/-- C3: `replace_range` does not implement the byte-splice contract: the
in-range single-row insertion of `"X"` at `(0,1)` into the document
`"abc"` indexes `lines[1]` out of bounds in `splice_lines` (a Rust panic,
`none` here) instead of producing the spliced document `"aXbc"`. -/
theorem c3_replace_range_code_bug :
    (LineMap.new [97, 98, 99]).replaceRange ⟨0, 1⟩ ⟨0, 1⟩ [88] = none ∧
    spliceBytes [97, 98, 99] 1 1 [88] = [97, 88, 98, 99] := by decide

/-- C7 counterexample: applying `LookupTables::update` twice with the
identical diff (one added method) and file reference duplicates the
method-lookup entry, so the second application changes the tables again. -/
theorem c7_counterexample :
    ((LookupTables.new.update ⟨[.methodSym ⟨0, 0⟩ ["cA", "m"] .procedure], []⟩
          "f.pkg").update ⟨[.methodSym ⟨0, 0⟩ ["cA", "m"] .procedure], []⟩
        "f.pkg").methodLookupTables .procedure "m" ≠
      (LookupTables.new.update ⟨[.methodSym ⟨0, 0⟩ ["cA", "m"] .procedure], []⟩
          "f.pkg").methodLookupTables .procedure "m" := by
  simp [LookupTables.update, addSymbol, insertMethodRef, LookupTables.new,
    SymbolPath.name]

/-- The scan of `point_at_offset` falls through once the offset reaches the
total remaining byte length. -/
theorem pointAtOffsetGo_past (ls : List (List Byte)) :
    ∀ o row, (ls.map List.length).sum ≤ o →
      pointAtOffsetGo ls o row = ⟨row + ls.length, 0⟩ := by
  induction ls with
  | nil => intro o row _; simp [pointAtOffsetGo]
  | cons l rest ih =>
    intro o row h
    simp only [List.map_cons, List.sum_cons] at h
    rw [pointAtOffsetGo, if_neg (by omega)]
    rw [ih (o - l.length) (row + 1) (by omega)]
    simp only [List.length_cons]
    congr 1
    omega

/-- Shifting the row accumulator of the scan shifts the resulting row. -/
theorem pointAtOffsetGo_shift (ls : List (List Byte)) :
    ∀ o row, pointAtOffsetGo ls o (row + 1) =
      ⟨(pointAtOffsetGo ls o row).row + 1, (pointAtOffsetGo ls o row).column⟩ := by
  induction ls with
  | nil => intro o row; simp [pointAtOffsetGo]
  | cons l rest ih =>
    intro o row
    by_cases h : o < l.length
    · simp [pointAtOffsetGo, h]
    · rw [pointAtOffsetGo, if_neg h, pointAtOffsetGo, if_neg h, ih]

/-- The scan recovers the row and column of an in-range point from its
byte offset. -/
theorem pointAtOffsetGo_of_lt (ls : List (List Byte)) :
    ∀ r l c, ls[r]? = some l → c < l.length →
      pointAtOffsetGo ls (((ls.take r).map List.length).sum + c) 0 = ⟨r, c⟩ := by
  induction ls with
  | nil => intro r l c h; simp at h
  | cons a rest ih =>
    intro r l c h hc
    cases r with
    | zero =>
      simp only [List.getElem?_cons_zero, Option.some.injEq] at h
      subst h
      simp [pointAtOffsetGo, hc]
    | succ r =>
      simp only [List.getElem?_cons_succ] at h
      rw [List.take_succ_cons]
      simp only [List.map_cons, List.sum_cons]
      rw [pointAtOffsetGo, if_neg (by omega)]
      have : a.length + ((rest.take r).map List.length).sum + c - a.length =
          ((rest.take r).map List.length).sum + c := by omega
      rw [this, pointAtOffsetGo_shift, ih r l c h hc]

/-- The scan of an in-range offset lands on a stored row, and the offset of
the resulting point is the original offset. -/
theorem pointAtOffsetGo_sum (ls : List (List Byte)) :
    ∀ o, o < (ls.map List.length).sum →
      (pointAtOffsetGo ls o 0).row ≤ ls.length ∧
      ((ls.take (pointAtOffsetGo ls o 0).row).map List.length).sum +
          (pointAtOffsetGo ls o 0).column = o := by
  induction ls with
  | nil => intro o h; simp at h
  | cons a rest ih =>
    intro o h
    by_cases hlt : o < a.length
    · simp [pointAtOffsetGo, hlt]
    · rw [pointAtOffsetGo, if_neg hlt, pointAtOffsetGo_shift]
      simp only [List.map_cons, List.sum_cons] at h
      obtain ⟨h1, h2⟩ := ih (o - a.length) (by omega)
      constructor
      · simp only [List.length_cons]; omega
      · rw [List.take_succ_cons]
        simp only [List.map_cons, List.sum_cons]
        omega

/-- C10: `point_at_offset` is total — the model returns a value for every
offset, and every offset at or past the document's total byte length falls
through the scan to the virtual point `(line_count, 0)`. -/
theorem c10_point_at_offset_total (lm : LineMap) (offset : Nat)
    (h : lm.text.length ≤ offset) :
    lm.pointAtOffset offset = ⟨lm.lineCount, 0⟩ := by
  have : (lm.lines.map List.length).sum ≤ offset := by
    rw [← List.length_flatten]; exact h
  rw [LineMap.pointAtOffset, pointAtOffsetGo_past lm.lines offset 0 this]
  simp [LineMap.lineCount]

/-- Witness for C10 at a concrete input. -/
theorem c10_witness :
    (LineMap.new [97, 10]).text.length ≤ 5 ∧
    (LineMap.new [97, 10]).pointAtOffset 5 = ⟨(LineMap.new [97, 10]).lineCount, 0⟩ :=
  ⟨by decide, c10_point_at_offset_total (LineMap.new [97, 10]) 5 (by decide)⟩

/-- C8: `offset_at_point` and `point_at_offset` are mutually inverse — for
every in-range point the offset is defined and maps back to the point, and
for every in-range byte offset the point maps back to the offset. -/
theorem c8_point_offset_roundtrip (lm : LineMap) :
    (∀ p : Point, lm.inRangePoint p = true →
      ∃ o, lm.offsetAtPoint p = some o ∧ lm.pointAtOffset o = p) ∧
    (∀ o, o < lm.text.length →
      lm.offsetAtPoint (lm.pointAtOffset o) = some o) := by
  constructor
  · intro p hp
    rw [LineMap.inRangePoint] at hp
    split at hp
    case h_2 => exact absurd hp (by simp)
    case h_1 l hl =>
      have hrow : p.row < lm.lines.length := by
        by_contra hge
        rw [List.getElem?_eq_none (by omega)] at hl
        exact Option.noConfusion hl
      have hc : p.column < l.length := of_decide_eq_true hp
      refine ⟨((lm.lines.take p.row).map List.length).sum + p.column, ?_, ?_⟩
      · rw [LineMap.offsetAtPoint, if_pos (by omega)]
      · rw [LineMap.pointAtOffset, pointAtOffsetGo_of_lt lm.lines p.row l p.column hl hc]
  · intro o ho
    have ho' : o < (lm.lines.map List.length).sum := by
      rw [← List.length_flatten]; exact ho
    obtain ⟨h1, h2⟩ := pointAtOffsetGo_sum lm.lines o ho'
    rw [LineMap.pointAtOffset, LineMap.offsetAtPoint, if_pos h1, h2]

/-- Witness for C8 at a concrete line map, point and offset. -/
theorem c8_witness :
    ((LineMap.new [97, 98, 10, 99]).inRangePoint ⟨1, 0⟩ = true ∧
      ∃ o, (LineMap.new [97, 98, 10, 99]).offsetAtPoint ⟨1, 0⟩ = some o ∧
        (LineMap.new [97, 98, 10, 99]).pointAtOffset o = ⟨1, 0⟩) ∧
    (1 < (LineMap.new [97, 98, 10, 99]).text.length ∧
      (LineMap.new [97, 98, 10, 99]).offsetAtPoint
          ((LineMap.new [97, 98, 10, 99]).pointAtOffset 1) = some 1) :=
  ⟨⟨by decide, (c8_point_offset_roundtrip (LineMap.new [97, 98, 10, 99])).1 ⟨1, 0⟩ (by decide)⟩,
   ⟨by decide, (c8_point_offset_roundtrip (LineMap.new [97, 98, 10, 99])).2 1 (by decide)⟩⟩

/-! ### List surgery at a decomposed index -/

/-- Element lookup at the junction of a decomposition. -/
theorem getElem?_append_cons (A : List α) (x : α) (R : List α) :
    (A ++ x :: R)[A.length]? = some x := by
  induction A with
  | nil => simp
  | cons a A ih => simpa using ih

/-- `set` at the junction of a decomposition. -/
theorem set_append_cons (A : List α) (x y : α) (R : List α) :
    (A ++ x :: R).set A.length y = A ++ y :: R := by
  induction A with
  | nil => rfl
  | cons a A ih => simpa using ih

/-- `take` up to the junction. -/
theorem take_append_cons (A : List α) (x : α) (R : List α) :
    (A ++ x :: R).take A.length = A := by
  induction A with
  | nil => rfl
  | cons a A ih => simpa using ih

/-- `drop` from the junction. -/
theorem drop_append_cons (A : List α) (x : α) (R : List α) :
    (A ++ x :: R).drop A.length = x :: R := by
  induction A with
  | nil => rfl
  | cons a A ih => simpa using ih

/-- `insertIdx` at the junction. -/
theorem insertIdx_append (A : List α) (y : α) (R : List α) :
    (A ++ R).insertIdx A.length y = A ++ y :: R := by
  induction A with
  | nil => rfl
  | cons a A ih => simpa [List.insertIdx] using ih

/-- `eraseIdx` at the junction. -/
theorem eraseIdx_append_cons (A : List α) (x : α) (R : List α) :
    (A ++ x :: R).eraseIdx A.length = A ++ R := by
  induction A with
  | nil => rfl
  | cons a A ih => simpa using ih

/-- Any list whose given index holds an element decomposes around it. -/
theorem exists_decomp {ls : List α} {r : Nat} {x : α} (h : ls[r]? = some x) :
    ∃ A R, ls = A ++ x :: R ∧ A.length = r := by
  induction ls generalizing r with
  | nil => simp at h
  | cons a rest ih =>
    cases r with
    | zero =>
      simp only [List.getElem?_cons_zero, Option.some.injEq] at h
      exact ⟨[], rest, by simp [h]⟩
    | succ r =>
      simp only [List.getElem?_cons_succ] at h
      obtain ⟨A, R, hAR, hlen⟩ := ih h
      exact ⟨a :: A, R, by simp [hAR], by simp [hlen]⟩

/-! ### Byte-line shape lemmas -/

/-- Line-feed-free byte list. -/
def nlFree (l : List Byte) : Bool := l.all (fun b => b != nl)

theorem nlFree_append {p q : List Byte} :
    nlFree (p ++ q) = (nlFree p && nlFree q) := by
  simp [nlFree]

theorem isLineShape_of_nlFree {l : List Byte} (h : nlFree l = true) :
    isLineShape l = true := by
  simp only [nlFree, List.all_eq_true] at h
  simp only [isLineShape, List.all_eq_true]
  intro b hb
  exact h b (List.dropLast_subset l hb)

/-- A full line is line-feed-free content followed by one line feed. -/
theorem isFullLine_iff {l : List Byte} :
    isFullLine l = true ↔ ∃ C, l = C ++ [nl] ∧ nlFree C = true := by
  constructor
  · intro h
    simp only [isFullLine, Bool.and_eq_true] at h
    obtain ⟨hshape, hend⟩ := h
    have hne : l ≠ [] := by
      intro he; rw [he] at hend; simp [hasLineEnding] at hend
    refine ⟨l.dropLast, ?_, ?_⟩
    · have := List.dropLast_append_getLast hne
      rw [hasLineEnding, decide_eq_true_eq] at hend
      rw [List.getLast?_eq_getLast l hne] at hend
      simp only [Option.some.injEq] at hend
      rw [← hend]
      exact this.symm
    · simp only [isLineShape] at hshape
      simp only [nlFree]
      exact hshape
  · rintro ⟨C, rfl, hC⟩
    simp only [isFullLine, Bool.and_eq_true]
    constructor
    · simp only [isLineShape, List.all_eq_true]
      intro b hb
      rw [List.dropLast_concat] at hb
      simp only [nlFree, List.all_eq_true] at hC
      exact hC b hb
    · simp [hasLineEnding]

/-- A line shape with no ending has no line feed at all. -/
theorem nlFree_of_shape_no_ending {l : List Byte} (hs : isLineShape l = true)
    (he : hasLineEnding l = false) : nlFree l = true := by
  cases hl : l.getLast? with
  | none =>
    rw [List.getLast?_eq_none_iff] at hl
    subst hl; rfl
  | some b =>
    have hne : l ≠ [] := by
      intro he'; rw [he'] at hl; simp at hl
    have hb : b ≠ nl := by
      intro hbe
      rw [hasLineEnding, hl, hbe] at he
      simp at he
    have hdec := List.dropLast_append_getLast hne
    rw [List.getLast?_eq_getLast l hne] at hl
    simp only [Option.some.injEq] at hl
    simp only [isLineShape, List.all_eq_true] at hs
    rw [← hdec]
    rw [nlFree_append, Bool.and_eq_true]
    refine ⟨by simp only [nlFree, List.all_eq_true]; exact hs, ?_⟩
    simp [nlFree, hl, hb]

theorem nlFree_take {l : List Byte} (h : nlFree l = true) (a : Nat) :
    nlFree (l.take a) = true := by
  simp only [nlFree, List.all_eq_true] at h ⊢
  exact fun b hb => h b (List.take_subset a l hb)

theorem nlFree_drop {l : List Byte} (h : nlFree l = true) (a : Nat) :
    nlFree (l.drop a) = true := by
  simp only [nlFree, List.all_eq_true] at h ⊢
  exact fun b hb => h b (List.drop_subset a l hb)

/-- Prepending line-feed-free content to a full line keeps it full. -/
theorem isFullLine_append {p q : List Byte} (hp : nlFree p = true)
    (hq : isFullLine q = true) : isFullLine (p ++ q) = true := by
  rw [isFullLine_iff] at hq ⊢
  obtain ⟨C, rfl, hC⟩ := hq
  exact ⟨p ++ C, by simp, by rw [nlFree_append, hp, hC]; rfl⟩

/-- Prepending line-feed-free content to a line shape keeps the shape. -/
theorem isLineShape_append {p q : List Byte} (hp : nlFree p = true)
    (hq : isLineShape q = true) : isLineShape (p ++ q) = true := by
  cases he : hasLineEnding q with
  | false =>
    have := nlFree_of_shape_no_ending hq he
    exact isLineShape_of_nlFree (by rw [nlFree_append, hp, this]; rfl)
  | true =>
    have hfull : isFullLine (p ++ q) = true :=
      isFullLine_append hp (by simp [isFullLine, hq, he])
    simp only [isFullLine, Bool.and_eq_true] at hfull
    exact hfull.1

/-- Taking within the content of a full line yields line-feed-free bytes. -/
theorem nlFree_take_contentLen {l : List Byte} (hs : isLineShape l = true)
    {a : Nat} (ha : a ≤ contentLen l) : nlFree (l.take a) = true := by
  cases he : hasLineEnding l with
  | false => exact nlFree_take (nlFree_of_shape_no_ending hs he) a
  | true =>
    have hfull : isFullLine l = true := by simp [isFullLine, hs, he]
    rw [isFullLine_iff] at hfull
    obtain ⟨C, rfl, hC⟩ := hfull
    have hcl : contentLen (C ++ [nl]) = C.length := by
      simp [contentLen, hasLineEnding]
    rw [hcl] at ha
    rw [List.take_append_of_le_length ha]
    exact nlFree_take hC a

/-- Dropping within the content of a full line keeps it full. -/
theorem isFullLine_drop_contentLen {l : List Byte} (hf : isFullLine l = true)
    {b : Nat} (hb : b ≤ contentLen l) : isFullLine (l.drop b) = true := by
  rw [isFullLine_iff] at hf
  obtain ⟨C, rfl, hC⟩ := hf
  have hcl : contentLen (C ++ [nl]) = C.length := by
    simp [contentLen, hasLineEnding]
  rw [hcl] at hb
  rw [List.drop_append_of_le_length hb]
  rw [isFullLine_iff]
  exact ⟨C.drop b, rfl, nlFree_drop hC b⟩

/-! ### `wfLines` structure lemmas -/

theorem wfLines_nil : wfLines [] = true := rfl

theorem wfLines_singleton {l : List Byte} : wfLines [l] = isLineShape l := rfl

theorem wfLines_cons_cons {l m : List Byte} {r : List (List Byte)} :
    wfLines (l :: m :: r) = (isFullLine l && wfLines (m :: r)) := rfl

theorem wfLines_cons_of_full {l : List Byte} {r : List (List Byte)}
    (hl : isFullLine l = true) (hr : wfLines r = true) :
    wfLines (l :: r) = true := by
  cases r with
  | nil =>
    rw [wfLines_singleton]
    simp only [isFullLine, Bool.and_eq_true] at hl
    exact hl.1
  | cons m r => rw [wfLines_cons_cons, hl, hr]; rfl

theorem wfLines_of_allFull {ls : List (List Byte)}
    (h : ls.all isFullLine = true) : wfLines ls = true := by
  induction ls with
  | nil => rfl
  | cons l r ih =>
    simp only [List.all_cons, Bool.and_eq_true] at h
    exact wfLines_cons_of_full h.1 (ih h.2)

/-- Splitting the invariant across an append with a nonempty suffix. -/
theorem wfLines_append {xs ys : List (List Byte)} (hy : ys ≠ []) :
    wfLines (xs ++ ys) = true ↔
      (xs.all isFullLine = true ∧ wfLines ys = true) := by
  induction xs with
  | nil => simp
  | cons l xs ih =>
    have hne : xs ++ ys ≠ [] := by
      intro h
      rcases List.append_eq_nil.mp h with ⟨-, h2⟩
      exact hy h2
    obtain ⟨m, r, hmr⟩ : ∃ m r, xs ++ ys = m :: r := by
      cases h : xs ++ ys with
      | nil => exact absurd h hne
      | cons m r => exact ⟨m, r, rfl⟩
    constructor
    · intro h
      rw [List.cons_append, hmr, wfLines_cons_cons, Bool.and_eq_true] at h
      rw [← hmr] at h
      obtain ⟨h1, h2⟩ := h
      obtain ⟨h3, h4⟩ := ih.mp h2
      exact ⟨by simp [h1, h3], h4⟩
    · intro ⟨h1, h2⟩
      simp only [List.all_cons, Bool.and_eq_true] at h1
      rw [List.cons_append, hmr, wfLines_cons_cons, ← hmr]
      rw [ih.mpr ⟨h1.2, h2⟩, h1.1]
      rfl

/-- Every stored line of a well-formed list is a line shape. -/
theorem wfLines_shape {ls : List (List Byte)} (h : wfLines ls = true)
    {i : Nat} {l : List Byte} (hl : ls[i]? = some l) : isLineShape l = true := by
  induction ls generalizing i with
  | nil => simp at hl
  | cons a r ih =>
    cases i with
    | zero =>
      simp only [List.getElem?_cons_zero, Option.some.injEq] at hl
      subst hl
      cases r with
      | nil => exact h
      | cons m r' =>
        rw [wfLines_cons_cons, Bool.and_eq_true] at h
        simp only [isFullLine, Bool.and_eq_true] at h
        exact h.1.1
    | succ i =>
      simp only [List.getElem?_cons_succ] at hl
      cases r with
      | nil => simp at hl
      | cons m r' =>
        rw [wfLines_cons_cons, Bool.and_eq_true] at h
        exact ih h.2 hl

/-- Every non-final stored line of a well-formed list is full. -/
theorem wfLines_full {ls : List (List Byte)} (h : wfLines ls = true)
    {i : Nat} {l : List Byte} (hl : ls[i]? = some l) (hi : i + 1 < ls.length) :
    isFullLine l = true := by
  induction ls generalizing i with
  | nil => simp at hl
  | cons a r ih =>
    cases i with
    | zero =>
      simp only [List.getElem?_cons_zero, Option.some.injEq] at hl
      subst hl
      cases r with
      | nil => simp at hi
      | cons m r' =>
        rw [wfLines_cons_cons, Bool.and_eq_true] at h
        exact h.1
    | succ i =>
      simp only [List.getElem?_cons_succ] at hl
      cases r with
      | nil => simp at hl
      | cons m r' =>
        rw [wfLines_cons_cons, Bool.and_eq_true] at h
        exact ih h.2 hl (by simpa using Nat.lt_of_succ_lt_succ hi)

/-- A non-full line of a well-formed list is its last line. -/
theorem wfLines_last_of_not_full {A : List (List Byte)} {l : List Byte}
    {R : List (List Byte)} (h : wfLines (A ++ l :: R) = true)
    (hl : hasLineEnding l = false) : R = [] := by
  cases R with
  | nil => rfl
  | cons m r =>
    exfalso
    rw [wfLines_append (by simp)] at h
    obtain ⟨-, h2⟩ := h
    rw [wfLines_cons_cons, Bool.and_eq_true] at h2
    simp only [isFullLine, Bool.and_eq_true] at h2
    rw [h2.1.2] at hl
    exact Bool.noConfusion hl

/-! ### `lineSpans` lemmas -/

/-- Concatenating the spans gives back the text. -/
theorem lineSpans_flatten (t : List Byte) : (lineSpans t).flatten = t := by
  induction t with
  | nil => rfl
  | cons b t ih =>
    rw [lineSpans]
    by_cases hb : b = nl
    · rw [if_pos hb, List.flatten_cons, hb]
      simpa using ih
    · rw [if_neg hb]
      cases h : lineSpans t with
      | nil =>
        rw [h] at ih
        simp only [List.flatten_nil] at ih
        simp [← ih]
      | cons l ls =>
        rw [h] at ih
        simp only [List.flatten_cons] at ih ⊢
        simpa using ih

/-- The spans of any text satisfy the line-structure invariant. -/
theorem lineSpans_wf (t : List Byte) : wfLines (lineSpans t) = true := by
  induction t with
  | nil => rfl
  | cons b t ih =>
    rw [lineSpans]
    by_cases hb : b = nl
    · rw [if_pos hb]
      exact wfLines_cons_of_full (by rfl) ih
    · rw [if_neg hb]
      cases h : lineSpans t with
      | nil => simp [wfLines_singleton, isLineShape]
      | cons l ls =>
        rw [h] at ih
        cases ls with
        | nil =>
          rw [wfLines_singleton] at ih ⊢
          simp only [isLineShape] at ih ⊢
          cases l with
          | nil => simp [hb]
          | cons c l' => simpa [hb] using ih
        | cons m ls' =>
          rw [wfLines_cons_cons, Bool.and_eq_true] at ih ⊢
          refine ⟨?_, ih.2⟩
          obtain ⟨C, hC, hCf⟩ := isFullLine_iff.mp ih.1
          rw [hC]
          rw [show b :: (C ++ [nl]) = (b :: C) ++ [nl] from rfl]
          rw [isFullLine_iff]
          exact ⟨b :: C, rfl, by simp [nlFree, hb] at hCf ⊢; exact hCf⟩

/-! ### Auxiliary facts for the edit-preservation proof -/

theorem contentLen_le (l : List Byte) : contentLen l ≤ l.length := by
  rw [contentLen]; split <;> omega

theorem wfLines_of_cons {l : List Byte} {R : List (List Byte)}
    (h : wfLines (l :: R) = true) : wfLines R = true := by
  cases R with
  | nil => rfl
  | cons m r =>
    rw [wfLines_cons_cons, Bool.and_eq_true] at h
    exact h.2

theorem isFullLine_ne_nil {l : List Byte} (h : isFullLine l = true) : l ≠ [] := by
  rw [isFullLine_iff] at h
  obtain ⟨C, rfl, -⟩ := h
  simp

theorem hasLineEnding_of_full {l : List Byte} (h : isFullLine l = true) :
    hasLineEnding l = true := by
  rw [isFullLine, Bool.and_eq_true] at h
  exact h.2

theorem isLineShape_of_full {l : List Byte} (h : isFullLine l = true) :
    isLineShape l = true := by
  rw [isFullLine, Bool.and_eq_true] at h
  exact h.1

theorem take_append_cons_succ (A : List α) (x : α) (R : List α) :
    (A ++ x :: R).take (A.length + 1) = A ++ [x] := by
  induction A with
  | nil => rfl
  | cons a A ih => simpa using ih

theorem drop_append_cons_succ (A : List α) (x : α) (R : List α) :
    (A ++ x :: R).drop (A.length + 1) = R := by
  induction A with
  | nil => rfl
  | cons a A ih => simpa using ih

theorem nl_mem_of_ending {l : List Byte} (h : hasLineEnding l = true) :
    nl ∈ l := by
  rw [hasLineEnding, decide_eq_true_eq] at h
  exact List.mem_of_mem_getLast? h

/-- If some span of the text ends with a line feed, the text contains one. -/
theorem contains_nl_of_span_ending {t span : List Byte} {rest : List (List Byte)}
    (hsp : lineSpans t = span :: rest) (he : hasLineEnding span = true) :
    t.contains nl = true := by
  have : nl ∈ t := by
    rw [← lineSpans_flatten t, hsp]
    exact List.mem_flatten.mpr ⟨span, by simp, nl_mem_of_ending he⟩
  exact List.elem_eq_true_of_mem this

/-- Assemble the invariant from a full prefix and a well-formed suffix. -/
theorem wfLines_append_of {P S : List (List Byte)}
    (hP : P.all isFullLine = true) (hS : wfLines S = true) :
    wfLines (P ++ S) = true := by
  cases S with
  | nil => rw [List.append_nil]; exact wfLines_of_allFull hP
  | cons m r => exact (wfLines_append (by simp)).mpr ⟨hP, hS⟩

/-- A nonempty list splits off its last element. -/
theorem exists_concat {l : List α} (h : l ≠ []) :
    ∃ I x, l = I ++ [x] := by
  induction l with
  | nil => exact absurd rfl h
  | cons a r ih =>
    cases r with
    | nil => exact ⟨[], a, rfl⟩
    | cons b r' =>
      obtain ⟨I, x, hIx⟩ := ih (by simp)
      exact ⟨a :: I, x, by simp [hIx]⟩


/-- `fixup_line_ending_if_needed` at a decomposed index: merge the line
with its successor exactly when it lacks an ending and a successor exists. -/
theorem fixupLineEnding_at (P : List (List Byte)) (x : List Byte)
    (R : List (List Byte)) :
    fixupLineEnding (P ++ x :: R) P.length =
      if hasLineEnding x then some (P ++ x :: R)
      else
        match R with
        | [] => some (P ++ x :: R)
        | hd :: R' => some (P ++ (x ++ hd) :: R') := by
  rw [fixupLineEnding]
  simp only [getElem?_append_cons]
  cases he : hasLineEnding x with
  | true =>
    rw [if_neg (by simp [he])]
    rw [if_pos rfl]
  | false =>
    cases R with
    | nil =>
      rw [if_neg (by simp)]
      rfl
    | cons hd R' =>
      rw [if_pos ⟨by simp [he], by simp only [List.length_append, List.length_cons]; omega⟩]
      have h1 : (P ++ x :: hd :: R')[P.length + 1]? = some hd := by
        rw [show P ++ x :: hd :: R' = (P ++ [x]) ++ hd :: R' by simp,
          show P.length + 1 = (P ++ [x]).length by simp]
        exact getElem?_append_cons (P ++ [x]) hd R'
      simp only [h1, set_append_cons]
      rw [show P ++ (x ++ hd) :: hd :: R' = (P ++ [x ++ hd]) ++ hd :: R' by simp,
        show P.length + 1 = (P ++ [x ++ hd]).length by simp,
        eraseIdx_append_cons]
      simp

/-- `splice_lines`'s core at a decomposed current line. -/
theorem spliceCore_at (P : List (List Byte)) (x : List Byte)
    (R : List (List Byte)) (tail? : Option (List Byte)) :
    spliceCore (P ++ x :: R) P.length tail? =
      if hasLineEnding x then
        match tail? with
        | some tl => some (P ++ tl :: x :: R)
        | none => some (P ++ x :: R)
      else
        match tail? with
        | some tl => some (P ++ (x ++ tl) :: R)
        | none => fixupLineEnding (P ++ x :: R) P.length := by
  rw [spliceCore.eq_def]
  simp only [getElem?_append_cons]
  cases he : hasLineEnding x with
  | true =>
    rw [if_neg (by simp [he]), if_pos rfl]
    cases tail? with
    | some tl => simp only [insertIdx_append P tl (x :: R)]
    | none => rfl
  | false =>
    rw [if_pos (by simp [he]), if_neg (by simp)]
    cases tail? with
    | some tl => simp only [set_append_cons]
    | none => rfl

/-- Unpack a valid edit into its component facts. -/
theorem validEdit_elim {lm : LineMap} {s e : Point} {t : List Byte}
    (hv : validEdit lm s e t = true) :
    ∃ ls le_, lm.lines[s.row]? = some ls ∧ lm.lines[e.row]? = some le_ ∧
      (s.row < e.row ∨ (s.row = e.row ∧ s.column ≤ e.column)) ∧
      s.column ≤ contentLen ls ∧ e.column ≤ contentLen le_ ∧
      ¬(s.row + 1 = lm.lines.length ∧ t.contains nl = true) := by
  rw [validEdit] at hv
  split at hv
  case h_2 => exact Bool.noConfusion hv
  case h_1 ls le_ hls hle =>
    simp only [Bool.and_eq_true, Bool.or_eq_true, Bool.not_eq_true',
      Bool.and_eq_false_iff, decide_eq_true_eq, Nat.beq_eq_true_eq,
      Nat.le_iff_lt_or_eq] at hv
    refine ⟨ls, le_, hls, hle, ?_, ?_, ?_, ?_⟩
    · rcases hv.1.1.1 with h | h
      · exact Or.inl h
      · rcases h with ⟨h1, h2⟩
        exact Or.inr ⟨h1, by omega⟩
    · omega
    · omega
    · intro ⟨h1, h2⟩
      rcases hv.2 with h | h
      · rw [h1] at h; simp at h
      · rw [h2] at h; exact Bool.noConfusion h

/-- `splice_lines` at the single-row call with no remaining spans. -/
theorem spliceLines_single_nil (A : List (List Byte)) (X : List Byte)
    (R : List (List Byte)) (tail? : Option (List Byte)) :
    spliceLines (A ++ X :: R) (A.length + 1) (A.length + 1) [] tail? =
      match R with
      | [] => none
      | hd :: R' =>
        if hasLineEnding hd then
          match tail? with
          | some tl => some (A ++ X :: tl :: hd :: R')
          | none => some (A ++ X :: hd :: R')
        else
          match tail? with
          | some tl => some (A ++ X :: (hd ++ tl) :: R')
          | none => fixupLineEnding (A ++ X :: hd :: R') (A.length + 1) := by
  rw [spliceLines,
    if_pos ⟨le_refl _, by simp only [List.length_append, List.length_cons]; omega⟩,
    take_append_cons_succ, drop_append_cons_succ]
  rw [if_neg (by simp)]
  cases R with
  | nil =>
    rw [spliceCore.eq_def]
    rw [show (((A ++ [X]) ++ [] ++ []) : List (List Byte))[A.length + 1]? = none by simp]
  | cons hd R' =>
    rw [show (A ++ [X]) ++ ([] : List (List Byte)) ++ hd :: R' =
      (A ++ [X]) ++ hd :: R' from by simp]
    rw [show A.length + 1 = (A ++ [X]).length from by simp]
    rw [spliceCore_at]
    simp only [List.append_assoc, List.singleton_append, List.length_append,
      List.length_cons, List.length_nil]

/-- `splice_lines` at the single-row call with remaining spans. -/
theorem spliceLines_single_its (A : List (List Byte)) (X : List Byte)
    (R : List (List Byte)) (I : List (List Byte)) (li : List Byte)
    (tail? : Option (List Byte)) :
    spliceLines (A ++ X :: R) (A.length + 1) (A.length + 1) (I ++ [li]) tail? =
      if hasLineEnding li then
        match tail? with
        | some tl => some (A ++ X :: (I ++ tl :: li :: R))
        | none => some (A ++ X :: (I ++ li :: R))
      else
        match tail? with
        | some tl => some (A ++ X :: (I ++ (li ++ tl) :: R))
        | none => fixupLineEnding (A ++ X :: (I ++ li :: R)) (A.length + 1 + I.length) := by
  rw [show A.length + 1 + I.length = A.length + (I.length + 1) from by omega]
  rw [spliceLines,
    if_pos ⟨le_refl _, by simp only [List.length_append, List.length_cons]; omega⟩,
    take_append_cons_succ, drop_append_cons_succ]
  rw [if_pos (by simp)]
  rw [show A.length + 1 + ((I ++ [li]).length - 1) = (A ++ X :: I).length from by
    simp only [List.length_append, List.length_cons, List.length_nil]; omega]
  rw [show (A ++ [X]) ++ (I ++ [li]) ++ R = (A ++ X :: I) ++ li :: R from by simp]
  rw [spliceCore_at]
  simp only [List.append_assoc, List.cons_append, List.singleton_append,
    List.length_append, List.length_cons, List.length_nil]

/-- `splice_lines` at the multi-row call with no remaining spans. -/
theorem spliceLines_multi_nil (A : List (List Byte)) (x1 : List Byte)
    (M : List (List Byte)) (x2 : List Byte) (R : List (List Byte)) :
    spliceLines (A ++ x1 :: (M ++ x2 :: R)) (A.length + 1) (A.length + 1 + M.length)
        [] none =
      if hasLineEnding x2 then some (A ++ x1 :: x2 :: R)
      else fixupLineEnding (A ++ x1 :: x2 :: R) (A.length + 1) := by
  rw [spliceLines,
    if_pos ⟨by omega, by simp only [List.length_append, List.length_cons]; omega⟩,
    take_append_cons_succ]
  rw [show (A ++ x1 :: (M ++ x2 :: R)).drop (A.length + 1 + M.length) = x2 :: R from by
    rw [show A ++ x1 :: (M ++ x2 :: R) = (A ++ x1 :: M) ++ x2 :: R from by simp,
      show A.length + 1 + M.length = (A ++ x1 :: M).length from by
        simp only [List.length_append, List.length_cons]; omega]
    exact drop_append_cons (A ++ x1 :: M) x2 R]
  rw [if_neg (by simp)]
  rw [show (A ++ [x1]) ++ ([] : List (List Byte)) ++ x2 :: R =
    (A ++ [x1]) ++ x2 :: R from by simp]
  rw [show A.length + 1 = (A ++ [x1]).length from by simp]
  rw [spliceCore_at]
  simp only [List.append_assoc, List.singleton_append, List.length_append,
    List.length_cons, List.length_nil]

/-- `splice_lines` at the multi-row call with remaining spans. -/
theorem spliceLines_multi_its (A : List (List Byte)) (x1 : List Byte)
    (M : List (List Byte)) (x2 : List Byte) (R : List (List Byte))
    (I : List (List Byte)) (li : List Byte) :
    spliceLines (A ++ x1 :: (M ++ x2 :: R)) (A.length + 1) (A.length + 1 + M.length)
        (I ++ [li]) none =
      if hasLineEnding li then some (A ++ x1 :: (I ++ li :: x2 :: R))
      else fixupLineEnding (A ++ x1 :: (I ++ li :: x2 :: R)) (A.length + 1 + I.length) := by
  rw [show A.length + 1 + I.length = A.length + (I.length + 1) from by omega]
  rw [spliceLines,
    if_pos ⟨by omega, by simp only [List.length_append, List.length_cons]; omega⟩,
    take_append_cons_succ]
  rw [show (A ++ x1 :: (M ++ x2 :: R)).drop (A.length + 1 + M.length) = x2 :: R from by
    rw [show A ++ x1 :: (M ++ x2 :: R) = (A ++ x1 :: M) ++ x2 :: R from by simp,
      show A.length + 1 + M.length = (A ++ x1 :: M).length from by
        simp only [List.length_append, List.length_cons]; omega]
    exact drop_append_cons (A ++ x1 :: M) x2 R]
  rw [if_pos (by simp)]
  rw [show A.length + 1 + ((I ++ [li]).length - 1) = (A ++ x1 :: I).length from by
    simp only [List.length_append, List.length_cons, List.length_nil]; omega]
  rw [show (A ++ [x1]) ++ (I ++ [li]) ++ x2 :: R = (A ++ x1 :: I) ++ li :: x2 :: R from by
    simp]
  rw [spliceCore_at]
  simp only [List.append_assoc, List.cons_append, List.singleton_append,
    List.length_append, List.length_cons, List.length_nil]

/-- A successful valid single-row edit preserves the line structure. -/
theorem replaceRange_wf_single {lm : LineMap} {s e : Point} {t : List Byte}
    {lm' : LineMap} (hwf : wfLines lm.lines = true)
    (hv : validEdit lm s e t = true) (hsr : s.row = e.row)
    (h : lm.replaceRange s e t = some lm') : wfLines lm'.lines = true := by
  obtain ⟨l, l2, hl, hl2, hrow, ha, hb2, hlast⟩ := validEdit_elim hv
  rw [← hsr] at hl2
  rw [hl] at hl2
  obtain rfl : l = l2 := Option.some.inj hl2
  have hab : s.column ≤ e.column := by
    rcases hrow with hlt | ⟨-, hle⟩
    · omega
    · exact hle
  obtain ⟨A, R, hdec, hA⟩ := exists_decomp hl
  have hwfd : wfLines (A ++ l :: R) = true := hdec ▸ hwf
  have hAfull : A.all isFullLine = true := ((wfLines_append (by simp)).mp hwfd).1
  have hwflR : wfLines (l :: R) = true := ((wfLines_append (by simp)).mp hwfd).2
  have hshape : isLineShape l = true := wfLines_shape hwf hl
  have hlen : lm.lines.length = A.length + 1 + R.length := by
    rw [hdec]; simp only [List.length_append, List.length_cons]; omega
  have hguard : s.column ≤ e.column ∧ e.column ≤ l.length :=
    ⟨hab, le_trans hb2 (contentLen_le l)⟩
  rw [LineMap.replaceRange, if_pos hsr] at h
  cases hspans : lineSpans t with
  | nil =>
    simp only [hspans, hl] at h
    have hrr : lineReplaceRange l s.column (some e.column) none =
        some ⟨l.take s.column ++ l.drop e.column, none⟩ := by
      rw [lineReplaceRange.eq_def]
      simp only [if_pos hguard]
    simp only [hrr] at h
    obtain rfl : (⟨lm.lines.set s.row (l.take s.column ++ l.drop e.column)⟩ : LineMap) = lm' :=
      Option.some.inj h
    show wfLines (lm.lines.set s.row (l.take s.column ++ l.drop e.column)) = true
    rw [hdec, ← hA, set_append_cons]
    cases hend : hasLineEnding l with
    | true =>
      have hfull : isFullLine l = true := by rw [isFullLine, hshape, hend]; rfl
      exact wfLines_append_of hAfull (wfLines_cons_of_full
        (isFullLine_append (nlFree_take_contentLen hshape ha)
          (isFullLine_drop_contentLen hfull hb2))
        (wfLines_of_cons hwflR))
    | false =>
      have hR : R = [] := wfLines_last_of_not_full hwfd hend
      subst hR
      have hfree : nlFree l = true := nlFree_of_shape_no_ending hshape hend
      refine wfLines_append_of hAfull ?_
      rw [wfLines_singleton]
      refine isLineShape_of_nlFree ?_
      rw [nlFree_append, nlFree_take hfree, nlFree_drop hfree]
      rfl
  | cons span rest =>
    have hwfsp : wfLines (span :: rest) = true := hspans ▸ lineSpans_wf t
    have hspshape : isLineShape span = true := wfLines_shape hwfsp (i := 0) (by simp)
    simp only [hspans, hl] at h
    cases hspe : spanHasEnding span with
    | false =>
      have hspe' : hasLineEnding span = false := hspe
      have hrest : rest = [] :=
        wfLines_last_of_not_full (A := []) (by simpa using hwfsp) hspe'
      subst hrest
      have hspfree : nlFree span = true := nlFree_of_shape_no_ending hspshape hspe'
      have hrr : lineReplaceRange l s.column (some e.column) (some span) =
          some ⟨l.take s.column ++ span ++ l.drop e.column, none⟩ := by
        rw [lineReplaceRange.eq_def]
        simp only [hspe, Bool.false_eq_true, if_false, if_pos hguard]
      simp only [hrr] at h
      rw [show lm.lines.set s.row (l.take s.column ++ span ++ l.drop e.column) =
          A ++ (l.take s.column ++ span ++ l.drop e.column) :: R from by
        rw [hdec, ← hA, set_append_cons], ← hA] at h
      rw [spliceLines_single_nil] at h
      cases R with
      | nil => exact Option.noConfusion h
      | cons hd R' =>
        have hlfull : isFullLine l = true :=
          wfLines_full hwf hl (by rw [hlen]; simp; omega)
        have hXfull : isFullLine (l.take s.column ++ span ++ l.drop e.column) = true := by
          refine isFullLine_append ?_ (isFullLine_drop_contentLen hlfull hb2)
          rw [nlFree_append, nlFree_take_contentLen hshape ha, hspfree]
          rfl
        have hwfhd : wfLines (hd :: R') = true := wfLines_of_cons hwflR
        cases hhd : hasLineEnding hd with
        | false =>
          have hR' : R' = [] :=
            wfLines_last_of_not_full (A := []) (by simpa using hwfhd) hhd
          subst hR'
          simp only [hhd, Bool.false_eq_true, if_false] at h
          rw [show A.length + 1 = (A ++ [l.take s.column ++ span ++ l.drop e.column]).length
              from by simp] at h
          rw [show A ++ (l.take s.column ++ span ++ l.drop e.column) :: [hd] =
              (A ++ [l.take s.column ++ span ++ l.drop e.column]) ++ hd :: [] from by simp,
            fixupLineEnding_at, hhd] at h
          simp only [Bool.false_eq_true, if_false] at h
          obtain rfl := Option.some.inj h
          show wfLines ((A ++ [l.take s.column ++ span ++ l.drop e.column]) ++ [hd]) = true
          refine wfLines_append_of ?_ ?_
          · rw [List.all_append, hAfull]
            simpa using hXfull
          · rw [wfLines_singleton]
            exact wfLines_shape hwfhd (i := 0) (by simp)
        | true =>
          simp only [hhd, if_true] at h
          obtain rfl := Option.some.inj h
          show wfLines (A ++ (l.take s.column ++ span ++ l.drop e.column) :: hd :: R') = true
          exact wfLines_append_of hAfull (wfLines_cons_of_full hXfull hwfhd)
    | true =>
      have hspe' : hasLineEnding span = true := hspe
      have hspfull : isFullLine span = true := by rw [isFullLine, hspshape, hspe']; rfl
      have hcont : t.contains nl = true := contains_nl_of_span_ending hspans hspe'
      have hRne : R ≠ [] := by
        intro hR0
        exact hlast ⟨by rw [hlen, hR0]; simp only [List.length_nil]; omega, hcont⟩
      have hlfull : isFullLine l = true := by
        cases R with
        | nil => exact absurd rfl hRne
        | cons hd R' => exact wfLines_full hwf hl (by rw [hlen]; simp; omega)
      have htlfull : isFullLine (l.drop e.column) = true :=
        isFullLine_drop_contentLen hlfull hb2
      have htlne : l.drop e.column ≠ [] := isFullLine_ne_nil htlfull
      have hrr : lineReplaceRange l s.column (some e.column) (some span) =
          some ⟨l.take s.column ++ span, some (l.drop e.column)⟩ := by
        rw [lineReplaceRange.eq_def]
        simp only [hspe, if_true, if_pos hguard, if_neg htlne]
      simp only [hrr] at h
      have hXfull : isFullLine (l.take s.column ++ span) = true :=
        isFullLine_append (nlFree_take_contentLen hshape ha) hspfull
      rw [show lm.lines.set s.row (l.take s.column ++ span) =
          A ++ (l.take s.column ++ span) :: R from by
        rw [hdec, ← hA, set_append_cons], ← hA] at h
      cases rest with
      | nil =>
        rw [spliceLines_single_nil] at h
        cases R with
        | nil => exact absurd rfl hRne
        | cons hd R' =>
          have hwfhd : wfLines (hd :: R') = true := wfLines_of_cons hwflR
          cases hhd : hasLineEnding hd with
          | false =>
            have hR' : R' = [] :=
              wfLines_last_of_not_full (A := []) (by simpa using hwfhd) hhd
            subst hR'
            simp only [hhd, Bool.false_eq_true, if_false] at h
            obtain rfl := Option.some.inj h
            show wfLines (A ++ (l.take s.column ++ span) ::
              (hd ++ l.drop e.column) :: []) = true
            refine wfLines_append_of hAfull (wfLines_cons_of_full hXfull ?_)
            rw [wfLines_singleton]
            refine isLineShape_of_full (isFullLine_append ?_ htlfull)
            exact nlFree_of_shape_no_ending (wfLines_shape hwfhd (i := 0) (by simp)) hhd
          | true =>
            simp only [hhd, if_true] at h
            obtain rfl := Option.some.inj h
            show wfLines (A ++ (l.take s.column ++ span) ::
              (l.drop e.column) :: hd :: R') = true
            exact wfLines_append_of hAfull (wfLines_cons_of_full hXfull
              (wfLines_cons_of_full htlfull hwfhd))
      | cons ri rest' =>
        obtain ⟨I, li, hIli⟩ := exists_concat (l := ri :: rest') (by simp)
        rw [hIli] at h
        rw [spliceLines_single_its] at h
        have hwfrest : wfLines (I ++ [li]) = true := by
          rw [← hIli]
          exact wfLines_of_cons hwfsp
        have hIfull : I.all isFullLine = true :=
          ((wfLines_append (by simp)).mp hwfrest).1
        have hlishape : isLineShape li = true := by
          have := ((wfLines_append (by simp)).mp hwfrest).2
          rw [wfLines_singleton] at this
          exact this
        cases hli : hasLineEnding li with
        | false =>
          simp only [hli, Bool.false_eq_true, if_false] at h
          obtain rfl := Option.some.inj h
          show wfLines (A ++ (l.take s.column ++ span) ::
            (I ++ (li ++ l.drop e.column) :: R)) = true
          refine wfLines_append_of hAfull (wfLines_cons_of_full hXfull ?_)
          refine wfLines_append_of hIfull (wfLines_cons_of_full ?_ (wfLines_of_cons hwflR))
          exact isFullLine_append (nlFree_of_shape_no_ending hlishape hli) htlfull
        | true =>
          simp only [hli, if_true] at h
          obtain rfl := Option.some.inj h
          show wfLines (A ++ (l.take s.column ++ span) ::
            (I ++ (l.drop e.column) :: li :: R)) = true
          have hlifull : isFullLine li = true := by rw [isFullLine, hlishape, hli]; rfl
          refine wfLines_append_of hAfull (wfLines_cons_of_full hXfull ?_)
          refine wfLines_append_of hIfull (wfLines_cons_of_full htlfull ?_)
          exact wfLines_cons_of_full hlifull (wfLines_of_cons hwflR)

/-- A line-feed-free line has no ending. -/
theorem hasLineEnding_false_of_nlFree {l : List Byte} (h : nlFree l = true) :
    hasLineEnding l = false := by
  cases hl : l.getLast? with
  | none => simp [hasLineEnding, hl]
  | some b =>
    have hb : b ≠ nl := by
      simp only [nlFree, List.all_eq_true, bne_iff_ne, ne_eq] at h
      exact h b (List.mem_of_mem_getLast? hl)
    simp [hasLineEnding, hl, hb]

/-- Dropping within the content of a line shape keeps the shape. -/
theorem isLineShape_drop_contentLen {l : List Byte} (hs : isLineShape l = true)
    {b : Nat} (hb : b ≤ contentLen l) : isLineShape (l.drop b) = true := by
  cases he : hasLineEnding l with
  | true =>
    exact isLineShape_of_full
      (isFullLine_drop_contentLen (by rw [isFullLine, hs, he]; rfl) hb)
  | false =>
    exact isLineShape_of_nlFree (nlFree_drop (nlFree_of_shape_no_ending hs he) b)

/-- A successful valid multi-row edit preserves the line structure. -/
theorem replaceRange_wf_multi {lm : LineMap} {s e : Point} {t : List Byte}
    {lm' : LineMap} (hwf : wfLines lm.lines = true)
    (hv : validEdit lm s e t = true) (hsr : ¬ s.row = e.row)
    (h : lm.replaceRange s e t = some lm') : wfLines lm'.lines = true := by
  obtain ⟨l1, l2, hl1, hl2, hrow, ha, hb2, hlast⟩ := validEdit_elim hv
  have hlt : s.row < e.row := by
    rcases hrow with hlt | ⟨heq, -⟩
    · exact hlt
    · exact absurd heq hsr
  obtain ⟨A, T1, hdec1, hA⟩ := exists_decomp hl1
  have hT1get : T1[e.row - A.length - 1]? = some l2 := by
    rw [hdec1] at hl2
    rw [List.getElem?_append_right (by omega)] at hl2
    rw [show e.row - A.length = (e.row - A.length - 1) + 1 by omega] at hl2
    simpa using hl2
  obtain ⟨M, R, hdec2, hM⟩ := exists_decomp hT1get
  have hdec : lm.lines = A ++ l1 :: (M ++ l2 :: R) := by rw [hdec1, hdec2]
  have herow : e.row = A.length + 1 + M.length := by omega
  have hwfd : wfLines (A ++ l1 :: (M ++ l2 :: R)) = true := hdec ▸ hwf
  have hAfull : A.all isFullLine = true := ((wfLines_append (by simp)).mp hwfd).1
  have hwftail : wfLines (l1 :: (M ++ l2 :: R)) = true :=
    ((wfLines_append (by simp)).mp hwfd).2
  have hsrowlt : s.row + 1 < lm.lines.length := by
    rw [hdec]
    simp only [List.length_append, List.length_cons]
    omega
  have hl1full : isFullLine l1 = true := wfLines_full hwf hl1 hsrowlt
  have hl1shape : isLineShape l1 = true := isLineShape_of_full hl1full
  have hwfM2 : wfLines (M ++ l2 :: R) = true := wfLines_of_cons hwftail
  have hMfull : M.all isFullLine = true := ((wfLines_append (by simp)).mp hwfM2).1
  have hwf2R : wfLines (l2 :: R) = true := ((wfLines_append (by simp)).mp hwfM2).2
  have hl2shape : isLineShape l2 = true := wfLines_shape hwf2R (i := 0) (by simp)
  have hwfR : wfLines R = true := wfLines_of_cons hwf2R
  have hX2shape : isLineShape (l2.drop e.column) = true :=
    isLineShape_drop_contentLen hl2shape hb2
  have hwfX2R : wfLines (l2.drop e.column :: R) = true := by
    cases hl2e : hasLineEnding l2 with
    | true =>
      exact wfLines_cons_of_full
        (isFullLine_drop_contentLen (by rw [isFullLine, hl2shape, hl2e]; rfl) hb2) hwfR
    | false =>
      have hR : R = [] :=
        wfLines_last_of_not_full (A := []) (by simpa using hwf2R) hl2e
      rw [hR, wfLines_singleton]
      exact hX2shape
  have hrr2 : lineReplaceRange l2 0 (some e.column) none =
      some ⟨l2.drop e.column, none⟩ := by
    have hcond : 0 ≤ e.column ∧ e.column ≤ l2.length :=
      ⟨Nat.zero_le _, le_trans hb2 (contentLen_le l2)⟩
    rw [lineReplaceRange.eq_def]
    simp only [if_pos hcond]
    simp
  rw [LineMap.replaceRange, if_neg hsr] at h
  simp only [hl1] at h
  cases hspans : lineSpans t with
  | nil =>
    simp only [hspans, List.head?_nil, List.tail_nil] at h
    have hrr1 : lineReplaceRange l1 s.column none none =
        some ⟨l1.take s.column, none⟩ := by
      rw [lineReplaceRange.eq_def]
      simp only [if_pos (le_trans ha (contentLen_le l1))]
    simp only [hrr1] at h
    have hX1free : nlFree (l1.take s.column) = true :=
      nlFree_take_contentLen hl1shape ha
    have hX1e : hasLineEnding (l1.take s.column) = false :=
      hasLineEnding_false_of_nlFree hX1free
    rw [show lm.lines.set s.row (l1.take s.column) =
        A ++ (l1.take s.column) :: (M ++ l2 :: R) from by
      rw [hdec, ← hA, set_append_cons]] at h
    rw [show ((A ++ (l1.take s.column) :: (M ++ l2 :: R)) : List (List Byte))[e.row]? =
        some l2 from by
      rw [show A ++ (l1.take s.column) :: (M ++ l2 :: R) =
        (A ++ (l1.take s.column) :: M) ++ l2 :: R from by simp,
        show e.row = (A ++ (l1.take s.column) :: M).length from by
          simp only [List.length_append, List.length_cons]; omega]
      exact getElem?_append_cons _ l2 R] at h
    simp only [hrr2] at h
    rw [show (A ++ (l1.take s.column) :: (M ++ l2 :: R)).set e.row (l2.drop e.column) =
        A ++ (l1.take s.column) :: (M ++ (l2.drop e.column) :: R) from by
      rw [show A ++ (l1.take s.column) :: (M ++ l2 :: R) =
        (A ++ (l1.take s.column) :: M) ++ l2 :: R from by simp,
        show e.row = (A ++ (l1.take s.column) :: M).length from by
          simp only [List.length_append, List.length_cons]; omega,
        set_append_cons]
      simp] at h
    rw [← hA, herow, spliceLines_multi_nil] at h
    cases hX2e : hasLineEnding (l2.drop e.column) with
    | true =>
      simp only [hX2e, if_true] at h
      rw [show A ++ (l1.take s.column) :: (l2.drop e.column) :: R =
        A ++ (l1.take s.column) :: (l2.drop e.column) :: R from rfl,
        fixupLineEnding_at, hX1e] at h
      simp only [Bool.false_eq_true, if_false] at h
      obtain rfl := Option.some.inj h
      show wfLines (A ++ (l1.take s.column ++ l2.drop e.column) :: R) = true
      refine wfLines_append_of hAfull (wfLines_cons_of_full ?_ hwfR)
      exact isFullLine_append hX1free (by rw [isFullLine, hX2shape, hX2e]; rfl)
    | false =>
      simp only [hX2e, Bool.false_eq_true, if_false] at h
      have hR : R = [] := by
        cases hl2e : hasLineEnding l2 with
        | true =>
          exfalso
          have : isFullLine (l2.drop e.column) = true :=
            isFullLine_drop_contentLen (by rw [isFullLine, hl2shape, hl2e]; rfl) hb2
          rw [hasLineEnding_of_full this] at hX2e
          exact Bool.noConfusion hX2e
        | false =>
          exact wfLines_last_of_not_full (A := []) (by simpa using hwf2R) hl2e
      subst hR
      rw [show A ++ (l1.take s.column) :: (l2.drop e.column) :: ([] : List (List Byte)) =
        (A ++ [l1.take s.column]) ++ (l2.drop e.column) :: [] from by simp,
        show A.length + 1 = (A ++ [l1.take s.column]).length from by simp,
        fixupLineEnding_at, hX2e] at h
      simp only [Bool.false_eq_true, if_false] at h
      rw [show (A ++ [l1.take s.column]) ++ (l2.drop e.column) :: ([] : List (List Byte)) =
        A ++ (l1.take s.column) :: [l2.drop e.column] from by simp,
        fixupLineEnding_at, hX1e] at h
      simp only [Bool.false_eq_true, if_false] at h
      obtain rfl := Option.some.inj h
      show wfLines (A ++ (l1.take s.column ++ l2.drop e.column) :: []) = true
      refine wfLines_append_of hAfull ?_
      rw [wfLines_singleton]
      refine isLineShape_of_nlFree ?_
      rw [nlFree_append, hX1free]
      have : nlFree l2 = true := nlFree_of_shape_no_ending hl2shape (by
        cases hl2e : hasLineEnding l2 with
        | false => rfl
        | true =>
          exfalso
          have : isFullLine (l2.drop e.column) = true :=
            isFullLine_drop_contentLen (by rw [isFullLine, hl2shape, hl2e]; rfl) hb2
          rw [hasLineEnding_of_full this] at hX2e
          exact Bool.noConfusion hX2e)
      rw [nlFree_drop this]
      rfl
  | cons span rest =>
    have hwfsp : wfLines (span :: rest) = true := hspans ▸ lineSpans_wf t
    have hspshape : isLineShape span = true := wfLines_shape hwfsp (i := 0) (by simp)
    simp only [hspans, List.head?_cons, List.tail_cons] at h
    have hrr1 : lineReplaceRange l1 s.column none (some span) =
        some ⟨l1.take s.column ++ span, none⟩ := by
      rw [lineReplaceRange.eq_def]
      cases hspanEnd : spanHasEnding span <;>
        simp only [hspanEnd, Bool.false_eq_true, if_false, if_true] <;>
        rw [if_pos (le_trans ha (contentLen_le l1))]
    simp only [hrr1] at h
    have hX1free : nlFree (l1.take s.column) = true :=
      nlFree_take_contentLen hl1shape ha
    rw [show lm.lines.set s.row (l1.take s.column ++ span) =
        A ++ (l1.take s.column ++ span) :: (M ++ l2 :: R) from by
      rw [hdec, ← hA, set_append_cons]] at h
    rw [show ((A ++ (l1.take s.column ++ span) :: (M ++ l2 :: R)) :
        List (List Byte))[e.row]? = some l2 from by
      rw [show A ++ (l1.take s.column ++ span) :: (M ++ l2 :: R) =
        (A ++ (l1.take s.column ++ span) :: M) ++ l2 :: R from by simp,
        show e.row = (A ++ (l1.take s.column ++ span) :: M).length from by
          simp only [List.length_append, List.length_cons]; omega]
      exact getElem?_append_cons _ l2 R] at h
    simp only [hrr2] at h
    rw [show (A ++ (l1.take s.column ++ span) :: (M ++ l2 :: R)).set e.row
        (l2.drop e.column) =
        A ++ (l1.take s.column ++ span) :: (M ++ (l2.drop e.column) :: R) from by
      rw [show A ++ (l1.take s.column ++ span) :: (M ++ l2 :: R) =
        (A ++ (l1.take s.column ++ span) :: M) ++ l2 :: R from by simp,
        show e.row = (A ++ (l1.take s.column ++ span) :: M).length from by
          simp only [List.length_append, List.length_cons]; omega,
        set_append_cons]
      simp] at h
    rw [← hA, herow] at h
    cases rest with
    | nil =>
      rw [spliceLines_multi_nil] at h
      cases hspanEnd : hasLineEnding span with
      | true =>
        have hX1full : isFullLine (l1.take s.column ++ span) = true :=
          isFullLine_append hX1free (by rw [isFullLine, hspshape, hspanEnd]; rfl)
        have hX1e : hasLineEnding (l1.take s.column ++ span) = true :=
          hasLineEnding_of_full hX1full
        cases hX2e : hasLineEnding (l2.drop e.column) with
        | true =>
          simp only [hX2e, if_true] at h
          rw [fixupLineEnding_at, hX1e] at h
          simp only [if_true] at h
          obtain rfl := Option.some.inj h
          show wfLines (A ++ (l1.take s.column ++ span) ::
            (l2.drop e.column) :: R) = true
          exact wfLines_append_of hAfull (wfLines_cons_of_full hX1full hwfX2R)
        | false =>
          simp only [hX2e, Bool.false_eq_true, if_false] at h
          rw [show A ++ (l1.take s.column ++ span) :: (l2.drop e.column) :: R =
            (A ++ [l1.take s.column ++ span]) ++ (l2.drop e.column) :: R from by simp,
            show A.length + 1 = (A ++ [l1.take s.column ++ span]).length from by simp,
            fixupLineEnding_at, hX2e] at h
          simp only [Bool.false_eq_true, if_false] at h
          have hR : R = [] := by
            cases hl2e : hasLineEnding l2 with
            | true =>
              exfalso
              have : isFullLine (l2.drop e.column) = true :=
                isFullLine_drop_contentLen (by rw [isFullLine, hl2shape, hl2e]; rfl) hb2
              rw [hasLineEnding_of_full this] at hX2e
              exact Bool.noConfusion hX2e
            | false =>
              exact wfLines_last_of_not_full (A := []) (by simpa using hwf2R) hl2e
          subst hR
          simp only [] at h
          rw [show (A ++ [l1.take s.column ++ span]) ++ (l2.drop e.column) ::
              ([] : List (List Byte)) =
            A ++ (l1.take s.column ++ span) :: [l2.drop e.column] from by simp,
            fixupLineEnding_at, hX1e] at h
          simp only [if_true] at h
          obtain rfl := Option.some.inj h
          show wfLines (A ++ (l1.take s.column ++ span) :: [l2.drop e.column]) = true
          refine wfLines_append_of hAfull (wfLines_cons_of_full hX1full ?_)
          rw [wfLines_singleton]
          exact hX2shape
      | false =>
        have hrest0 : ([] : List (List Byte)) = [] := rfl
        have hX1e : hasLineEnding (l1.take s.column ++ span) = false := by
          refine hasLineEnding_false_of_nlFree ?_
          rw [nlFree_append, hX1free,
            nlFree_of_shape_no_ending hspshape hspanEnd]
          rfl
        have hX1shape : isLineShape (l1.take s.column ++ span) = true := by
          refine isLineShape_of_nlFree ?_
          rw [nlFree_append, hX1free,
            nlFree_of_shape_no_ending hspshape hspanEnd]
          rfl
        have hX1free2 : nlFree (l1.take s.column ++ span) = true := by
          rw [nlFree_append, hX1free,
            nlFree_of_shape_no_ending hspshape hspanEnd]
          rfl
        cases hX2e : hasLineEnding (l2.drop e.column) with
        | true =>
          simp only [hX2e, if_true] at h
          rw [fixupLineEnding_at, hX1e] at h
          simp only [Bool.false_eq_true, if_false] at h
          obtain rfl := Option.some.inj h
          show wfLines (A ++ ((l1.take s.column ++ span) ++ l2.drop e.column) :: R) = true
          refine wfLines_append_of hAfull (wfLines_cons_of_full ?_ hwfR)
          exact isFullLine_append hX1free2 (by rw [isFullLine, hX2shape, hX2e]; rfl)
        | false =>
          simp only [hX2e, Bool.false_eq_true, if_false] at h
          have hR : R = [] := by
            cases hl2e : hasLineEnding l2 with
            | true =>
              exfalso
              have : isFullLine (l2.drop e.column) = true :=
                isFullLine_drop_contentLen (by rw [isFullLine, hl2shape, hl2e]; rfl) hb2
              rw [hasLineEnding_of_full this] at hX2e
              exact Bool.noConfusion hX2e
            | false =>
              exact wfLines_last_of_not_full (A := []) (by simpa using hwf2R) hl2e
          subst hR
          rw [show A ++ (l1.take s.column ++ span) :: (l2.drop e.column) ::
              ([] : List (List Byte)) =
            (A ++ [l1.take s.column ++ span]) ++ (l2.drop e.column) :: [] from by simp,
            show A.length + 1 = (A ++ [l1.take s.column ++ span]).length from by simp,
            fixupLineEnding_at, hX2e] at h
          simp only [Bool.false_eq_true, if_false] at h
          rw [show (A ++ [l1.take s.column ++ span]) ++ (l2.drop e.column) ::
              ([] : List (List Byte)) =
            A ++ (l1.take s.column ++ span) :: [l2.drop e.column] from by simp,
            fixupLineEnding_at, hX1e] at h
          simp only [Bool.false_eq_true, if_false] at h
          obtain rfl := Option.some.inj h
          show wfLines (A ++ ((l1.take s.column ++ span) ++ l2.drop e.column) :: []) = true
          refine wfLines_append_of hAfull ?_
          rw [wfLines_singleton]
          refine isLineShape_of_nlFree ?_
          rw [nlFree_append, hX1free2]
          have hl2e : hasLineEnding l2 = false := by
            cases hl2e : hasLineEnding l2 with
            | false => rfl
            | true =>
              exfalso
              have : isFullLine (l2.drop e.column) = true :=
                isFullLine_drop_contentLen (by rw [isFullLine, hl2shape, hl2e]; rfl) hb2
              rw [hasLineEnding_of_full this] at hX2e
              exact Bool.noConfusion hX2e
          rw [nlFree_drop (nlFree_of_shape_no_ending hl2shape hl2e)]
          rfl
    | cons ri rest' =>
      have hspfull : isFullLine span = true := by
        rw [wfLines_cons_cons, Bool.and_eq_true] at hwfsp
        exact hwfsp.1
      have hX1full : isFullLine (l1.take s.column ++ span) = true :=
        isFullLine_append hX1free hspfull
      have hX1e : hasLineEnding (l1.take s.column ++ span) = true :=
        hasLineEnding_of_full hX1full
      have hwfrest : wfLines (ri :: rest') = true := by
        rw [wfLines_cons_cons, Bool.and_eq_true] at hwfsp
        exact hwfsp.2
      obtain ⟨I, li, hIli⟩ := exists_concat (l := ri :: rest') (by simp)
      rw [hIli] at h
      have hwfIli : wfLines (I ++ [li]) = true := hIli ▸ hwfrest
      have hIfull : I.all isFullLine = true := ((wfLines_append (by simp)).mp hwfIli).1
      have hlishape : isLineShape li = true := by
        have := ((wfLines_append (by simp)).mp hwfIli).2
        rw [wfLines_singleton] at this
        exact this
      rw [spliceLines_multi_its] at h
      cases hli : hasLineEnding li with
      | true =>
        simp only [hli, if_true] at h
        rw [fixupLineEnding_at, hX1e] at h
        simp only [if_true] at h
        obtain rfl := Option.some.inj h
        show wfLines (A ++ (l1.take s.column ++ span) ::
          (I ++ li :: (l2.drop e.column) :: R)) = true
        refine wfLines_append_of hAfull (wfLines_cons_of_full hX1full ?_)
        refine wfLines_append_of hIfull ?_
        exact wfLines_cons_of_full (by rw [isFullLine, hlishape, hli]; rfl) hwfX2R
      | false =>
        simp only [hli, Bool.false_eq_true, if_false] at h
        rw [show A ++ (l1.take s.column ++ span) :: (I ++ li :: (l2.drop e.column) :: R) =
          (A ++ (l1.take s.column ++ span) :: I) ++ li :: (l2.drop e.column) :: R from by
            simp,
          show A.length + 1 + I.length = (A ++ (l1.take s.column ++ span) :: I).length
            from by simp only [List.length_append, List.length_cons]; omega,
          fixupLineEnding_at, hli] at h
        simp only [Bool.false_eq_true, if_false] at h
        rw [show (A ++ (l1.take s.column ++ span) :: I) ++
            (li ++ l2.drop e.column) :: R =
          A ++ (l1.take s.column ++ span) :: (I ++ (li ++ l2.drop e.column) :: R) from by
            simp,
          fixupLineEnding_at, hX1e] at h
        simp only [if_true] at h
        obtain rfl := Option.some.inj h
        show wfLines (A ++ (l1.take s.column ++ span) ::
          (I ++ (li ++ l2.drop e.column) :: R)) = true
        refine wfLines_append_of hAfull (wfLines_cons_of_full hX1full ?_)
        refine wfLines_append_of hIfull ?_
        have hlifree : nlFree li = true := nlFree_of_shape_no_ending hlishape hli
        cases hl2e : hasLineEnding l2 with
        | true =>
          refine wfLines_cons_of_full (isFullLine_append hlifree ?_) hwfR
          exact isFullLine_drop_contentLen (by rw [isFullLine, hl2shape, hl2e]; rfl) hb2
        | false =>
          have hR : R = [] :=
            wfLines_last_of_not_full (A := []) (by simpa using hwf2R) hl2e
          rw [hR, wfLines_singleton]
          refine isLineShape_of_nlFree ?_
          rw [nlFree_append, hlifree,
            nlFree_drop (nlFree_of_shape_no_ending hl2shape hl2e)]
          rfl

/-- Any successful valid edit preserves the line structure. -/
theorem replaceRange_wf {lm : LineMap} {s e : Point} {t : List Byte}
    {lm' : LineMap} (hwf : wfLines lm.lines = true)
    (hv : validEdit lm s e t = true)
    (h : lm.replaceRange s e t = some lm') : wfLines lm'.lines = true := by
  by_cases hsr : s.row = e.row
  · exact replaceRange_wf_single hwf hv hsr h
  · exact replaceRange_wf_multi hwf hv hsr h

/-- Good edit sequences preserve the line structure from any well-formed
starting state. -/
theorem applyEdits_wf {edits : List (Point × Point × List Byte)} :
    ∀ {lm lm' : LineMap}, wfLines lm.lines = true →
      goodEdits lm edits = true → applyEdits lm edits = some lm' →
      wfLines lm'.lines = true := by
  induction edits with
  | nil =>
    intro lm lm' hwf _ h
    rw [applyEdits] at h
    obtain rfl := Option.some.inj h
    exact hwf
  | cons ed rest ih =>
    intro lm lm' hwf hg h
    obtain ⟨s, e, t⟩ := ed
    rw [goodEdits, Bool.and_eq_true] at hg
    rw [applyEdits] at h
    cases hrepl : lm.replaceRange s e t with
    | none => rw [hrepl] at h; exact Option.noConfusion h
    | some lm1 =>
      rw [hrepl] at h
      have hg2 := hg.2
      rw [hrepl] at hg2
      exact ih (replaceRange_wf hwf hg.1 hrepl) hg2 h

/-- C9 counterexample: a successful in-content-range edit whose text has a
newline and whose start row is the last stored row leaves the split-off
tail `"bc"` stranded without a line ending in the middle of the list,
violating the invariant as claimed. -/
theorem c9_counterexample :
    (LineMap.new [97, 98, 99]).replaceRange ⟨0, 1⟩ ⟨0, 1⟩ [88, 10, 89, 10] =
        some ⟨[[97, 88, 10], [98, 99], [89, 10]]⟩ ∧
    wfLines [[97, 88, 10], [98, 99], [89, 10]] = false := by decide

/-- C9 amended: after construction from any text and any sequence of
successful `replace_range` edits whose columns stay within the content of
their lines and which never apply text containing a line feed to the last
stored row, every stored line except possibly the last ends with a line
feed and no line holds an interior one. -/
theorem c9_line_structure_invariant_amended (text : List Byte)
    (edits : List (Point × Point × List Byte)) (lm' : LineMap)
    (hg : goodEdits (LineMap.new text) edits = true)
    (h : applyEdits (LineMap.new text) edits = some lm') :
    wfLines lm'.lines = true :=
  applyEdits_wf (lineSpans_wf text) hg h

/-- Witness for the amended C9 at a concrete text and edit list. -/
theorem c9_witness :
    goodEdits (LineMap.new [97, 98, 10, 99]) [(⟨0, 1⟩, ⟨0, 2⟩, [88])] = true ∧
    applyEdits (LineMap.new [97, 98, 10, 99]) [(⟨0, 1⟩, ⟨0, 2⟩, [88])] =
      some ⟨[[97, 88, 10], [99]]⟩ ∧
    wfLines [[97, 88, 10], [99]] = true :=
  ⟨by decide, by decide,
   c9_line_structure_invariant_amended [97, 98, 10, 99] [(⟨0, 1⟩, ⟨0, 2⟩, [88])]
     ⟨[[97, 88, 10], [99]]⟩ (by decide) (by decide)⟩

/-! ### Effect of `LookupTables::update` on each table -/

theorem mem_foldRemoveMethods {ms : List IndexSymbol} {t : LookupTables}
    {k : MethodKind} {n : SymbolName} {x : IndexSymbolRef} :
    x ∈ (ms.foldl
        (fun acc m =>
          match m with
          | .methodSym _ p k' => removeMethodPath acc k' p
          | _ => acc) t).methodLookupTables k n ↔
      x ∈ t.methodLookupTables k n ∧
        ¬ x.symbolPath ∈ ms.flatMap (fun m =>
          match m with
          | .methodSym _ p k' => if k' = k ∧ SymbolPath.name p = n then [p] else []
          | _ => []) := by
  induction ms generalizing t with
  | nil => simp
  | cons m ms ih =>
    rw [List.foldl_cons, List.flatMap_cons]
    cases m with
    | classSym loc nm cms cps => simpa using ih
    | propertySym loc p => simpa using ih
    | methodSym loc p k' =>
      dsimp only
      rw [ih]
      simp only [removeMethodPath]
      by_cases hc : k' = k ∧ SymbolPath.name p = n
      · have hc2 : k = k' ∧ n = SymbolPath.name p := ⟨hc.1.symm, hc.2.symm⟩
        rw [if_pos hc, if_pos hc2]
        simp only [List.mem_filter, List.mem_append, List.mem_singleton, decide_eq_true_eq]
        constructor
        · rintro ⟨⟨h1, h2⟩, h3⟩
          exact ⟨h1, by simp [h2, h3]⟩
        · rintro ⟨h1, h2⟩
          simp only [not_or] at h2
          exact ⟨⟨h1, by simpa using h2.1⟩, h2.2⟩
      · have hc2 : ¬ (k = k' ∧ n = SymbolPath.name p) := fun h => hc ⟨h.1.symm, h.2.symm⟩
        rw [if_neg hc, if_neg hc2]
        simp

/-- `distinctStrings` agrees with `List.Nodup`. -/
theorem distinctStrings_iff_nodup {l : List String} :
    distinctStrings l = true ↔ l.Nodup := by
  induction l with
  | nil => simp [distinctStrings]
  | cons x r ih =>
    simp [distinctStrings, ih, List.nodup_cons]

/-- The methods-removal fold of `removeSymbol` leaves the class table
alone. -/
theorem foldRemoveMethods_classTable (ms : List IndexSymbol) (t : LookupTables) :
    (ms.foldl
        (fun acc m =>
          match m with
          | .methodSym _ p k => removeMethodPath acc k p
          | _ => acc) t).classLookupTable = t.classLookupTable := by
  induction ms generalizing t with
  | nil => rfl
  | cons m ms ih =>
    rw [List.foldl_cons]
    cases m <;> dsimp only <;> rw [ih] <;> rfl

/-- The methods-removal fold of `removeSymbol` leaves the property table
alone. -/
theorem foldRemoveMethods_propTable (ms : List IndexSymbol) (t : LookupTables) :
    (ms.foldl
        (fun acc m =>
          match m with
          | .methodSym _ p k => removeMethodPath acc k p
          | _ => acc) t).propertyLookupTable = t.propertyLookupTable := by
  induction ms generalizing t with
  | nil => rfl
  | cons m ms ih =>
    rw [List.foldl_cons]
    cases m <;> dsimp only <;> rw [ih] <;> rfl

/-- The properties-removal fold of `removeSymbol` leaves the class table
alone. -/
theorem foldRemoveProps_classTable (ps : List IndexSymbol) (t : LookupTables) :
    (ps.foldl
        (fun acc m =>
          match m with
          | .propertySym _ p => removePropertyPath acc p
          | _ => acc) t).classLookupTable = t.classLookupTable := by
  induction ps generalizing t with
  | nil => rfl
  | cons m ps ih =>
    rw [List.foldl_cons]
    cases m <;> dsimp only <;> rw [ih] <;> rfl

/-- The properties-removal fold of `removeSymbol` leaves the method tables
alone. -/
theorem foldRemoveProps_methodTable (ps : List IndexSymbol) (t : LookupTables) :
    (ps.foldl
        (fun acc m =>
          match m with
          | .propertySym _ p => removePropertyPath acc p
          | _ => acc) t).methodLookupTables = t.methodLookupTables := by
  induction ps generalizing t with
  | nil => rfl
  | cons m ps ih =>
    rw [List.foldl_cons]
    cases m <;> dsimp only <;> rw [ih] <;> rfl

/-- Membership after the properties-removal fold of `removeSymbol`:
retained iff present before and the symbol path is not among the removed
property paths. -/
theorem mem_foldRemoveProps {ps : List IndexSymbol} {t : LookupTables}
    {n : SymbolName} {x : IndexSymbolRef} :
    x ∈ (ps.foldl
        (fun acc m =>
          match m with
          | .propertySym _ p => removePropertyPath acc p
          | _ => acc) t).propertyLookupTable n ↔
      x ∈ t.propertyLookupTable n ∧
        ¬ x.symbolPath ∈ ps.flatMap (fun m =>
          match m with
          | .propertySym _ p => if SymbolPath.name p = n then [p] else []
          | _ => []) := by
  induction ps generalizing t with
  | nil => simp
  | cons m ps ih =>
    rw [List.foldl_cons, List.flatMap_cons]
    cases m with
    | classSym loc nm cms cps => simpa using ih
    | methodSym loc p k' => simpa using ih
    | propertySym loc p =>
      dsimp only
      rw [ih]
      simp only [removePropertyPath]
      by_cases hc : SymbolPath.name p = n
      · have hc2 : n = SymbolPath.name p := hc.symm
        rw [if_pos hc, if_pos hc2]
        simp only [List.mem_filter, List.mem_append, List.mem_singleton, decide_eq_true_eq]
        constructor
        · rintro ⟨⟨h1, h2⟩, h3⟩
          exact ⟨h1, by simp [h2, h3]⟩
        · rintro ⟨h1, h2⟩
          simp only [not_or] at h2
          exact ⟨⟨h1, by simpa using h2.1⟩, h2.2⟩
      · have hc2 : ¬ n = SymbolPath.name p := fun h => hc h.symm
        rw [if_neg hc, if_neg hc2]
        simp

/-- The class-table effect of removing one symbol of the diff. -/
theorem removeSymbol_classTable (t : LookupTables) (s : IndexSymbol) (n : SymbolName) :
    (removeSymbol t s).classLookupTable n =
      if isClassNamedB n s then none else t.classLookupTable n := by
  cases s with
  | classSym loc nm ms ps =>
    simp only [removeSymbol, isClassNamedB]
    rw [foldRemoveProps_classTable, foldRemoveMethods_classTable]
    rcases eq_or_ne n nm with h | h
    · subst h; simp
    · simp [h, Ne.symm h]
  | methodSym loc p k => simp [removeSymbol, isClassNamedB, removeMethodPath]
  | propertySym loc p => simp [removeSymbol, isClassNamedB, removePropertyPath]

/-- The method-table effect of removing one symbol of the diff. -/
theorem mem_removeSymbol_method {t : LookupTables} {s : IndexSymbol}
    {k : MethodKind} {n : SymbolName} {x : IndexSymbolRef} :
    x ∈ (removeSymbol t s).methodLookupTables k n ↔
      x ∈ t.methodLookupTables k n ∧
        ¬ x.symbolPath ∈ remMethodPathsOf k n s := by
  cases s with
  | classSym loc nm ms ps =>
    simp only [removeSymbol]
    rw [foldRemoveProps_methodTable, mem_foldRemoveMethods]
    simp [remMethodPathsOf]
  | methodSym loc p k' =>
    simp only [removeSymbol, removeMethodPath, remMethodPathsOf]
    by_cases hc : k' = k ∧ SymbolPath.name p = n
    · have hc2 : k = k' ∧ n = SymbolPath.name p := ⟨hc.1.symm, hc.2.symm⟩
      rw [if_pos hc, if_pos hc2]
      simp [List.mem_filter]
    · have hc2 : ¬ (k = k' ∧ n = SymbolPath.name p) := fun h => hc ⟨h.1.symm, h.2.symm⟩
      rw [if_neg hc, if_neg hc2]
      simp
  | propertySym loc p =>
    simp [removeSymbol, removePropertyPath, remMethodPathsOf]

/-- The property-table effect of removing one symbol of the diff. -/
theorem mem_removeSymbol_prop {t : LookupTables} {s : IndexSymbol}
    {n : SymbolName} {x : IndexSymbolRef} :
    x ∈ (removeSymbol t s).propertyLookupTable n ↔
      x ∈ t.propertyLookupTable n ∧
        ¬ x.symbolPath ∈ remPropPathsOf n s := by
  cases s with
  | classSym loc nm ms ps =>
    simp only [removeSymbol]
    rw [mem_foldRemoveProps, foldRemoveMethods_propTable]
    simp [remPropPathsOf]
  | methodSym loc p k' =>
    simp [removeSymbol, removeMethodPath, remPropPathsOf]
  | propertySym loc p =>
    simp only [removeSymbol, removePropertyPath, remPropPathsOf]
    by_cases hc : SymbolPath.name p = n
    · have hc2 : n = SymbolPath.name p := hc.symm
      rw [if_pos hc, if_pos hc2]
      simp [List.mem_filter]
    · have hc2 : ¬ n = SymbolPath.name p := fun h => hc h.symm
      rw [if_neg hc, if_neg hc2]
      simp

/-- Class table after the whole removal pass of `LookupTables::update`. -/
theorem foldl_removeSymbol_classTable (rem : List IndexSymbol) (t : LookupTables)
    (n : SymbolName) :
    (rem.foldl removeSymbol t).classLookupTable n =
      if remHasClass rem n then none else t.classLookupTable n := by
  induction rem generalizing t with
  | nil => simp [remHasClass]
  | cons s rem ih =>
    rw [List.foldl_cons, ih]
    by_cases h : isClassNamedB n s
    · simp [remHasClass, List.any_cons, h, removeSymbol_classTable]
    · simp [remHasClass, List.any_cons, h, removeSymbol_classTable]

/-- Method tables after the whole removal pass of `LookupTables::update`. -/
theorem mem_foldl_removeSymbol_method {rem : List IndexSymbol} {t : LookupTables}
    {k : MethodKind} {n : SymbolName} {x : IndexSymbolRef} :
    x ∈ (rem.foldl removeSymbol t).methodLookupTables k n ↔
      x ∈ t.methodLookupTables k n ∧
        ¬ x.symbolPath ∈ remMethodPaths rem k n := by
  induction rem generalizing t with
  | nil => simp [remMethodPaths]
  | cons s rem ih =>
    rw [List.foldl_cons, ih, mem_removeSymbol_method]
    simp only [remMethodPaths, List.flatMap_cons, List.mem_append, not_or]
    tauto

/-- Property table after the whole removal pass of `LookupTables::update`. -/
theorem mem_foldl_removeSymbol_prop {rem : List IndexSymbol} {t : LookupTables}
    {n : SymbolName} {x : IndexSymbolRef} :
    x ∈ (rem.foldl removeSymbol t).propertyLookupTable n ↔
      x ∈ t.propertyLookupTable n ∧
        ¬ x.symbolPath ∈ remPropPaths rem n := by
  induction rem generalizing t with
  | nil => simp [remPropPaths]
  | cons s rem ih =>
    rw [List.foldl_cons, ih, mem_removeSymbol_prop]
    simp only [remPropPaths, List.flatMap_cons, List.mem_append, not_or]
    tauto

/-- The method-insertion fold of `addSymbol` leaves the class table
alone. -/
theorem foldAddMethods_classTable (ms : List IndexSymbol) (r : IndexFileRef)
    (t : LookupTables) :
    (ms.foldl
        (fun acc m =>
          match m with
          | .methodSym _ p k => insertMethodRef acc k p.name ⟨r, p⟩
          | _ => acc) t).classLookupTable = t.classLookupTable := by
  induction ms generalizing t with
  | nil => rfl
  | cons m ms ih =>
    rw [List.foldl_cons]
    cases m <;> dsimp only <;> rw [ih] <;> rfl

/-- The method-insertion fold of `addSymbol` leaves the property table
alone. -/
theorem foldAddMethods_propTable (ms : List IndexSymbol) (r : IndexFileRef)
    (t : LookupTables) :
    (ms.foldl
        (fun acc m =>
          match m with
          | .methodSym _ p k => insertMethodRef acc k p.name ⟨r, p⟩
          | _ => acc) t).propertyLookupTable = t.propertyLookupTable := by
  induction ms generalizing t with
  | nil => rfl
  | cons m ms ih =>
    rw [List.foldl_cons]
    cases m <;> dsimp only <;> rw [ih] <;> rfl

/-- The property-insertion fold of `addSymbol` leaves the class table
alone. -/
theorem foldAddProps_classTable (ps : List IndexSymbol) (r : IndexFileRef)
    (t : LookupTables) :
    (ps.foldl
        (fun acc m =>
          match m with
          | .propertySym _ p => insertPropertyRef acc p.name ⟨r, p⟩
          | _ => acc) t).classLookupTable = t.classLookupTable := by
  induction ps generalizing t with
  | nil => rfl
  | cons m ps ih =>
    rw [List.foldl_cons]
    cases m <;> dsimp only <;> rw [ih] <;> rfl

/-- The property-insertion fold of `addSymbol` leaves the method tables
alone. -/
theorem foldAddProps_methodTable (ps : List IndexSymbol) (r : IndexFileRef)
    (t : LookupTables) :
    (ps.foldl
        (fun acc m =>
          match m with
          | .propertySym _ p => insertPropertyRef acc p.name ⟨r, p⟩
          | _ => acc) t).methodLookupTables = t.methodLookupTables := by
  induction ps generalizing t with
  | nil => rfl
  | cons m ps ih =>
    rw [List.foldl_cons]
    cases m <;> dsimp only <;> rw [ih] <;> rfl

/-- Value of a method bucket after the method-insertion fold of
`addSymbol`: the new references are appended in order. -/
theorem foldAddMethods_methodTable (ms : List IndexSymbol) (r : IndexFileRef)
    (t : LookupTables) (k : MethodKind) (n : SymbolName) :
    (ms.foldl
        (fun acc m =>
          match m with
          | .methodSym _ p k => insertMethodRef acc k p.name ⟨r, p⟩
          | _ => acc) t).methodLookupTables k n =
      t.methodLookupTables k n ++
        ms.flatMap (fun m =>
          match m with
          | .methodSym _ p k' => if k' = k ∧ SymbolPath.name p = n then [(⟨r, p⟩ : IndexSymbolRef)] else []
          | _ => []) := by
  induction ms generalizing t with
  | nil => simp
  | cons m ms ih =>
    rw [List.foldl_cons, List.flatMap_cons]
    cases m with
    | classSym loc nm cms cps => simpa using ih _
    | propertySym loc p => simpa using ih _
    | methodSym loc p k' =>
      dsimp only
      rw [ih]
      simp only [insertMethodRef]
      by_cases hc : k' = k ∧ SymbolPath.name p = n
      · have hc2 : k = k' ∧ n = SymbolPath.name p := ⟨hc.1.symm, hc.2.symm⟩
        rw [if_pos hc, if_pos hc2]
        simp
      · have hc2 : ¬ (k = k' ∧ n = SymbolPath.name p) := fun h => hc ⟨h.1.symm, h.2.symm⟩
        rw [if_neg hc, if_neg hc2]
        simp

/-- Value of a property bucket after the property-insertion fold of
`addSymbol`. -/
theorem foldAddProps_propTable (ps : List IndexSymbol) (r : IndexFileRef)
    (t : LookupTables) (n : SymbolName) :
    (ps.foldl
        (fun acc m =>
          match m with
          | .propertySym _ p => insertPropertyRef acc p.name ⟨r, p⟩
          | _ => acc) t).propertyLookupTable n =
      t.propertyLookupTable n ++
        ps.flatMap (fun m =>
          match m with
          | .propertySym _ p => if SymbolPath.name p = n then [(⟨r, p⟩ : IndexSymbolRef)] else []
          | _ => []) := by
  induction ps generalizing t with
  | nil => simp
  | cons m ps ih =>
    rw [List.foldl_cons, List.flatMap_cons]
    cases m with
    | classSym loc nm cms cps => simpa using ih _
    | methodSym loc p k' => simpa using ih _
    | propertySym loc p =>
      dsimp only
      rw [ih]
      simp only [insertPropertyRef]
      by_cases hc : SymbolPath.name p = n
      · rw [if_pos hc, if_pos hc.symm]
        simp
      · rw [if_neg hc, if_neg (fun h => hc h.symm)]
        simp

/-- The class-table effect of adding one symbol of the diff. -/
theorem addSymbol_classTable (r : IndexFileRef) (t : LookupTables)
    (s : IndexSymbol) (n : SymbolName) :
    (addSymbol r t s).classLookupTable n =
      if isClassNamedB n s then some ⟨r, [n]⟩ else t.classLookupTable n := by
  cases s with
  | classSym loc nm ms ps =>
    simp only [addSymbol, isClassNamedB]
    rw [foldAddProps_classTable, foldAddMethods_classTable]
    rcases eq_or_ne n nm with h | h
    · subst h; simp
    · simp [h, Ne.symm h]
  | methodSym loc p k => simp [addSymbol, isClassNamedB, insertMethodRef]
  | propertySym loc p => simp [addSymbol, isClassNamedB, insertPropertyRef]

/-- The method-table effect of adding one symbol of the diff. -/
theorem addSymbol_methodTable (r : IndexFileRef) (t : LookupTables)
    (s : IndexSymbol) (k : MethodKind) (n : SymbolName) :
    (addSymbol r t s).methodLookupTables k n =
      t.methodLookupTables k n ++ addMethodRefsOf r k n s := by
  cases s with
  | classSym loc nm ms ps =>
    simp only [addSymbol]
    rw [foldAddProps_methodTable, foldAddMethods_methodTable]
    simp [addMethodRefsOf]
  | methodSym loc p k' =>
    simp only [addSymbol, insertMethodRef, addMethodRefsOf]
    by_cases hc : k' = k ∧ SymbolPath.name p = n
    · have hc2 : k = k' ∧ n = SymbolPath.name p := ⟨hc.1.symm, hc.2.symm⟩
      rw [if_pos hc, if_pos hc2]
    · have hc2 : ¬ (k = k' ∧ n = SymbolPath.name p) := fun h => hc ⟨h.1.symm, h.2.symm⟩
      rw [if_neg hc, if_neg hc2]
      simp
  | propertySym loc p =>
    simp [addSymbol, insertPropertyRef, addMethodRefsOf]

/-- The property-table effect of adding one symbol of the diff. -/
theorem addSymbol_propTable (r : IndexFileRef) (t : LookupTables)
    (s : IndexSymbol) (n : SymbolName) :
    (addSymbol r t s).propertyLookupTable n =
      t.propertyLookupTable n ++ addPropRefsOf r n s := by
  cases s with
  | classSym loc nm ms ps =>
    simp only [addSymbol]
    rw [foldAddProps_propTable, foldAddMethods_propTable]
    simp [addPropRefsOf]
  | methodSym loc p k' =>
    simp [addSymbol, insertMethodRef, addPropRefsOf]
  | propertySym loc p =>
    simp only [addSymbol, insertPropertyRef, addPropRefsOf]
    by_cases hc : SymbolPath.name p = n
    · rw [if_pos hc, if_pos hc.symm]
    · rw [if_neg hc, if_neg (fun h => hc h.symm)]
      simp

/-- Class table after the whole addition pass of `LookupTables::update`. -/
theorem foldl_addSymbol_classTable (add : List IndexSymbol) (r : IndexFileRef)
    (t : LookupTables) (n : SymbolName) :
    (add.foldl (addSymbol r) t).classLookupTable n =
      if addHasClass add n then some ⟨r, [n]⟩ else t.classLookupTable n := by
  induction add generalizing t with
  | nil => simp [addHasClass]
  | cons s add ih =>
    rw [List.foldl_cons, ih]
    by_cases h : isClassNamedB n s
    · simp [addHasClass, List.any_cons, h, addSymbol_classTable]
    · simp [addHasClass, List.any_cons, h, addSymbol_classTable]

/-- Method buckets after the whole addition pass of
`LookupTables::update`: appended in order. -/
theorem foldl_addSymbol_methodTable (add : List IndexSymbol) (r : IndexFileRef)
    (t : LookupTables) (k : MethodKind) (n : SymbolName) :
    (add.foldl (addSymbol r) t).methodLookupTables k n =
      t.methodLookupTables k n ++ addMethodRefs add r k n := by
  induction add generalizing t with
  | nil => simp [addMethodRefs]
  | cons s add ih =>
    rw [List.foldl_cons, ih, addSymbol_methodTable]
    simp [addMethodRefs, List.flatMap_cons]

/-- Property bucket after the whole addition pass of
`LookupTables::update`. -/
theorem foldl_addSymbol_propTable (add : List IndexSymbol) (r : IndexFileRef)
    (t : LookupTables) (n : SymbolName) :
    (add.foldl (addSymbol r) t).propertyLookupTable n =
      t.propertyLookupTable n ++ addPropRefs add r n := by
  induction add generalizing t with
  | nil => simp [addPropRefs]
  | cons s add ih =>
    rw [List.foldl_cons, ih, addSymbol_propTable]
    simp [addPropRefs, List.flatMap_cons]

/-- The class table after `LookupTables::update`: an added class named `n`
wins with path `[n]`, otherwise a removed class named `n` clears the
entry, otherwise the old entry stands. -/
theorem update_classTable (t : LookupTables) (d : SymbolsDiff) (r : IndexFileRef)
    (n : SymbolName) :
    ((t.update d r).classLookupTable n) =
      if addHasClass d.addedSymbols n then some ⟨r, [n]⟩
      else if remHasClass d.removedSymbols n then none
      else t.classLookupTable n := by
  simp only [LookupTables.update]
  rw [foldl_addSymbol_classTable, foldl_removeSymbol_classTable]

/-- Membership of a method bucket after `LookupTables::update`: survivors
of the removal pass plus the references of the addition pass. -/
theorem mem_update_method {t : LookupTables} {d : SymbolsDiff} {r : IndexFileRef}
    {k : MethodKind} {n : SymbolName} {x : IndexSymbolRef} :
    x ∈ (t.update d r).methodLookupTables k n ↔
      (x ∈ t.methodLookupTables k n ∧
        ¬ x.symbolPath ∈ remMethodPaths d.removedSymbols k n) ∨
      x ∈ addMethodRefs d.addedSymbols r k n := by
  simp only [LookupTables.update]
  rw [foldl_addSymbol_methodTable]
  rw [List.mem_append, mem_foldl_removeSymbol_method]

/-- Membership of the property bucket after `LookupTables::update`. -/
theorem mem_update_prop {t : LookupTables} {d : SymbolsDiff} {r : IndexFileRef}
    {n : SymbolName} {x : IndexSymbolRef} :
    x ∈ (t.update d r).propertyLookupTable n ↔
      (x ∈ t.propertyLookupTable n ∧
        ¬ x.symbolPath ∈ remPropPaths d.removedSymbols n) ∨
      x ∈ addPropRefs d.addedSymbols r n := by
  simp only [LookupTables.update]
  rw [foldl_addSymbol_propTable]
  rw [List.mem_append, mem_foldl_removeSymbol_prop]

/-- The class table of a fresh single-file commit. -/
theorem canonicalTables_classTable (f : IndexFile) (r : IndexFileRef)
    (n : SymbolName) :
    (canonicalTables f r).classLookupTable n =
      if addHasClass f.symbols n then some ⟨r, [n]⟩ else none := by
  rw [canonicalTables, update_classTable]
  rcases h : addHasClass f.symbols n with _ | _ <;>
    simp [h, remHasClass, LookupTables.new]

/-- The method buckets of a fresh single-file commit. -/
theorem mem_canonicalTables_method {f : IndexFile} {r : IndexFileRef}
    {k : MethodKind} {n : SymbolName} {x : IndexSymbolRef} :
    x ∈ (canonicalTables f r).methodLookupTables k n ↔
      x ∈ addMethodRefs f.symbols r k n := by
  rw [canonicalTables, mem_update_method]
  simp [LookupTables.new]

/-- The property bucket of a fresh single-file commit. -/
theorem mem_canonicalTables_prop {f : IndexFile} {r : IndexFileRef}
    {n : SymbolName} {x : IndexSymbolRef} :
    x ∈ (canonicalTables f r).propertyLookupTable n ↔
      x ∈ addPropRefs f.symbols r n := by
  rw [canonicalTables, mem_update_prop]
  simp [LookupTables.new]

/-- Shape of a method member: path `[a, nm]` with `nm` its unqualified
name. -/
theorem isMethodOfClassB_eq {a : SymbolName} {m : IndexSymbol}
    (h : isMethodOfClassB a m = true) :
    ∃ loc nm k, m = .methodSym loc [a, nm] k ∧ IndexSymbol.name m = nm := by
  cases m with
  | classSym loc n ms ps => simp [isMethodOfClassB] at h
  | propertySym loc p => simp [isMethodOfClassB] at h
  | methodSym loc p k =>
    rcases p with _ | ⟨a', _ | ⟨nm, _ | ⟨c, tl⟩⟩⟩
    · simp [isMethodOfClassB] at h
    · simp [isMethodOfClassB] at h
    · have ha : a' = a := by simpa [isMethodOfClassB] using h
      subst ha
      exact ⟨loc, nm, k, rfl, rfl⟩
    · simp [isMethodOfClassB] at h

/-- Shape of a property member: path `[a, nm]` with `nm` its unqualified
name. -/
theorem isPropOfClassB_eq {a : SymbolName} {m : IndexSymbol}
    (h : isPropOfClassB a m = true) :
    ∃ loc nm, m = .propertySym loc [a, nm] ∧ IndexSymbol.name m = nm := by
  cases m with
  | classSym loc n ms ps => simp [isPropOfClassB] at h
  | methodSym loc p k => simp [isPropOfClassB] at h
  | propertySym loc p =>
    rcases p with _ | ⟨a', _ | ⟨nm, _ | ⟨c, tl⟩⟩⟩
    · simp [isPropOfClassB] at h
    · simp [isPropOfClassB] at h
    · have ha : a' = a := by simpa [isPropOfClassB] using h
      subst ha
      exact ⟨loc, nm, rfl, rfl⟩
    · simp [isPropOfClassB] at h

/-- Inserting a fresh key into the `existing_symbols` table appends. -/
theorem symTableInsert_of_not_mem (acc : List (SymbolName × IndexSymbol))
    (s : IndexSymbol) (h : ∀ e ∈ acc, e.1 ≠ IndexSymbol.name s) :
    symTableInsert acc s = acc ++ [(IndexSymbol.name s, s)] := by
  rw [symTableInsert, List.filter_eq_self.2]
  intro e he
  simpa using h e he

/-- The `existing_symbols` fold over distinct names is a keyed copy of the
symbol list. -/
theorem buildSymTable_go (syms : List IndexSymbol) :
    ∀ acc : List (SymbolName × IndexSymbol),
      (acc.map Prod.fst ++ syms.map IndexSymbol.name).Nodup →
      syms.foldl symTableInsert acc =
        acc ++ syms.map (fun s => (IndexSymbol.name s, s)) := by
  induction syms with
  | nil =>
    intro acc h
    simp
  | cons s rest ih =>
    intro acc h
    have hd := List.disjoint_of_nodup_append h
    have hne : ∀ e ∈ acc, e.1 ≠ IndexSymbol.name s := by
      intro e he heq
      exact hd (List.mem_map_of_mem _ he) (by rw [heq]; exact List.mem_cons_self _ _)
    rw [List.foldl_cons, symTableInsert_of_not_mem acc s hne, ih]
    · simp
    · simpa using h

/-- `build_sym_table` under distinct names. -/
theorem buildSymTable_eq_map {syms : List IndexSymbol}
    (h : (syms.map IndexSymbol.name).Nodup) :
    buildSymTable syms = syms.map (fun s => (IndexSymbol.name s, s)) := by
  have hgo := buildSymTable_go syms [] (by simpa using h)
  simpa [buildSymTable] using hgo

/-- Key search in a keyed copy of a symbol list is name search. -/
theorem find?_map_pair (cl : List IndexSymbol) (nm : SymbolName) :
    (cl.map (fun s => (IndexSymbol.name s, s))).find? (fun e => e.1 = nm) =
      (cl.find? (fun s => IndexSymbol.name s = nm)).map
        (fun s => (IndexSymbol.name s, s)) := by
  induction cl with
  | nil => rfl
  | cons c cl ih =>
    by_cases h : IndexSymbol.name c = nm <;>
      simp [List.find?_cons, h, ih]

/-- Key filtering of a keyed copy of a symbol list is name filtering. -/
theorem filter_map_pair (cl : List IndexSymbol) (nm : SymbolName) :
    (cl.map (fun s => (IndexSymbol.name s, s))).filter (fun e => e.1 ≠ nm) =
      (cl.filter (fun s => IndexSymbol.name s ≠ nm)).map
        (fun s => (IndexSymbol.name s, s)) := by
  induction cl with
  | nil => rfl
  | cons c cl ih =>
    by_cases h : IndexSymbol.name c = nm <;>
      simp [List.filter_cons, h] <;> simpa using ih

/-- The `diff_symbols` fold over a table of property symbols: nothing ever
matches (the wildcard arm of `is_matching`), so every new symbol is added
and the table survives untouched. -/
theorem diffAux_props : ∀ (newP : List IndexSymbol)
    (table : List (SymbolName × IndexSymbol)),
    (∀ e : SymbolName × IndexSymbol, e ∈ table →
      ∃ loc p, e.2 = IndexSymbol.propertySym loc p) →
    diffAux table newP = (⟨newP, []⟩, table) := by
  intro newP
  induction newP with
  | nil => intro table _; rw [diffAux]
  | cons s rest ih =>
    intro table htab
    rw [diffAux]
    cases hfind : table.find? (fun e => e.1 = IndexSymbol.name s) with
    | none =>
      simp only [ih table htab]
    | some ex =>
      have hmem := List.find?_some hfind
      have hmem2 := List.mem_of_find?_eq_some hfind
      obtain ⟨loc, p, hp⟩ := htab ex hmem2
      have hnm : ex.2.isMatching s = false := by
        rw [hp]
        cases s <;> rfl
      simp only [hnm, Bool.false_eq_true, if_false, ih table htab]

/-- `contains` on string lists is membership. -/
theorem string_contains_eq (l : List String) (x : String) :
    l.contains x = decide (x ∈ l) := by
  induction l with
  | nil => rfl
  | cons y l ih =>
    rw [List.contains_cons, ih]
    by_cases h : x = y <;> simp [h]

/-- Names surviving a name filter: membership is unchanged away from the
filtered name. -/
theorem mem_filter_names {cl : List IndexSymbol} {b nm : SymbolName} (hne : nm ≠ b) :
    nm ∈ (cl.filter (fun c => IndexSymbol.name c ≠ b)).map IndexSymbol.name ↔
      nm ∈ cl.map IndexSymbol.name := by
  simp only [List.mem_map, List.mem_filter, decide_eq_true_eq]
  constructor
  · rintro ⟨c, ⟨hc, _⟩, rfl⟩
    exact ⟨c, hc, rfl⟩
  · rintro ⟨c, hc, rfl⟩
    exact ⟨c, ⟨hc, hne⟩, rfl⟩

/-- `diff_symbols` (symbols_diff.rs) inner diff: the property lists of a
matched class pair diff to all-new-added, all-old-removed, because two
property symbols never satisfy `is_matching`. -/
theorem diffSymbols_props {a : SymbolName} {oldP newP : List IndexSymbol}
    (hOld : ∀ m ∈ oldP, isPropOfClassB a m = true)
    (hNodup : (oldP.map IndexSymbol.name).Nodup) :
    diffSymbols oldP newP = ⟨newP, oldP⟩ := by
  have htab : ∀ e : SymbolName × IndexSymbol,
      e ∈ oldP.map (fun s => (IndexSymbol.name s, s)) →
      ∃ loc p, e.2 = IndexSymbol.propertySym loc p := by
    intro e he
    simp only [List.mem_map] at he
    obtain ⟨m, hm, rfl⟩ := he
    obtain ⟨loc, nm, hshape, _⟩ := isPropOfClassB_eq (hOld m hm)
    exact ⟨loc, [a, nm], by simp [hshape]⟩
  rw [diffSymbols, buildSymTable_eq_map hNodup, diffAux_props newP _ htab]
  simp [List.map_map, Function.comp_def]

/-- `diff_symbols` inner diff for the method lists of a matched class
pair: same-name methods always match (their paths agree component-wise),
so the added methods are exactly the fresh names and the removed methods
exactly the vanished names. -/
theorem diffAux_methods {a : SymbolName} :
    ∀ (newM cl : List IndexSymbol),
      (∀ m ∈ cl, isMethodOfClassB a m = true) →
      (∀ m ∈ newM, isMethodOfClassB a m = true) →
      (newM.map IndexSymbol.name).Nodup →
      diffAux (cl.map (fun s => (IndexSymbol.name s, s))) newM =
        (⟨newM.filter (fun m =>
            !((cl.map IndexSymbol.name).contains (IndexSymbol.name m))), []⟩,
         (cl.filter (fun m =>
            !((newM.map IndexSymbol.name).contains (IndexSymbol.name m)))).map
           (fun s => (IndexSymbol.name s, s))) := by
  intro newM
  induction newM with
  | nil =>
    intro cl hcl _ _
    rw [diffAux]
    simp
  | cons s rest ih =>
    intro cl hcl hnew hnodup
    have hs := hnew s (List.mem_cons_self _ _)
    obtain ⟨locS, nmS, kS, hsEq, hsName⟩ := isMethodOfClassB_eq hs
    have hrest : ∀ m ∈ rest, isMethodOfClassB a m = true :=
      fun m hm => hnew m (List.mem_cons_of_mem _ hm)
    have hnodupR : (rest.map IndexSymbol.name).Nodup :=
      (List.nodup_cons.1 (by simpa using hnodup)).2
    have hsNotRest : IndexSymbol.name s ∉ rest.map IndexSymbol.name :=
      (List.nodup_cons.1 (by simpa using hnodup)).1
    rw [diffAux, find?_map_pair]
    cases hfind : cl.find? (fun c => IndexSymbol.name c = IndexSymbol.name s) with
    | none =>
      have hnotin : IndexSymbol.name s ∉ cl.map IndexSymbol.name := by
        intro hmem
        obtain ⟨c, hc, hceq⟩ := List.mem_map.1 hmem
        have := List.find?_eq_none.1 hfind c hc
        simp [hceq] at this
      dsimp only [Option.map]
      rw [ih cl hcl hrest hnodupR]
      have h1 : (s :: rest).filter (fun m =>
          !((cl.map IndexSymbol.name).contains (IndexSymbol.name m))) =
          s :: rest.filter (fun m =>
          !((cl.map IndexSymbol.name).contains (IndexSymbol.name m))) := by
        rw [List.filter_cons_of_pos]
        simp [string_contains_eq, hnotin]
      have h2 : cl.filter (fun c =>
          !((rest.map IndexSymbol.name).contains (IndexSymbol.name c))) =
          cl.filter (fun c =>
          !(((s :: rest).map IndexSymbol.name).contains (IndexSymbol.name c))) := by
        apply List.filter_congr
        intro c hc
        have hne : ¬ IndexSymbol.name c = IndexSymbol.name s := by
          have := List.find?_eq_none.1 hfind c hc
          simpa using this
        simp [List.map_cons, List.contains_cons, string_contains_eq,
          List.mem_cons, hne]
      rw [h1, h2]
    | some C =>
      have hCcl : C ∈ cl := List.mem_of_find?_eq_some hfind
      have hCname : IndexSymbol.name C = IndexSymbol.name s := by
        simpa using List.find?_some hfind
      obtain ⟨locC, nmC, kC, hCEq, hCName⟩ := isMethodOfClassB_eq (hcl C hCcl)
      have hinCl : IndexSymbol.name s ∈ cl.map IndexSymbol.name := by
        rw [← hCname]
        exact List.mem_map_of_mem _ hCcl
      have hnames : nmC = nmS := by rw [← hCName, ← hsName, hCname]
      subst hCEq
      subst hsEq
      subst hnames
      dsimp only [Option.map]
      have hmatch : IndexSymbol.isMatching
          (.methodSym locC [a, nmC] kC) (.methodSym locS [a, nmC] kS) = true := by
        simp [IndexSymbol.isMatching]
      rw [hmatch, if_pos rfl]
      rw [filter_map_pair,
        ih (cl.filter (fun c => IndexSymbol.name c ≠
            IndexSymbol.name (IndexSymbol.methodSym locS [a, nmC] kS)))
          (fun m hm => hcl m (List.mem_of_mem_filter hm)) hrest hnodupR]
      have h1 : (IndexSymbol.methodSym locS [a, nmC] kS :: rest).filter (fun m =>
          !((cl.map IndexSymbol.name).contains (IndexSymbol.name m))) =
          rest.filter (fun m =>
          !((cl.map IndexSymbol.name).contains (IndexSymbol.name m))) := by
        rw [List.filter_cons_of_neg]
        simp only [string_contains_eq]
        simpa using hinCl
      have h2 : rest.filter (fun m =>
          !(((cl.filter (fun c => IndexSymbol.name c ≠
              IndexSymbol.name (IndexSymbol.methodSym locS [a, nmC] kS))).map
              IndexSymbol.name).contains (IndexSymbol.name m))) =
          rest.filter (fun m =>
          !((cl.map IndexSymbol.name).contains (IndexSymbol.name m))) := by
        apply List.filter_congr
        intro m hm
        have hne : IndexSymbol.name m ≠
            IndexSymbol.name (IndexSymbol.methodSym locS [a, nmC] kS) := by
          intro heq
          exact hsNotRest (heq ▸ List.mem_map_of_mem _ hm)
        simp only [string_contains_eq]
        simp only [mem_filter_names hne]
      have h3 : (cl.filter (fun c => IndexSymbol.name c ≠
            IndexSymbol.name (IndexSymbol.methodSym locS [a, nmC] kS))).filter
            (fun m => !((rest.map IndexSymbol.name).contains (IndexSymbol.name m))) =
          cl.filter (fun m =>
            !(((IndexSymbol.methodSym locS [a, nmC] kS :: rest).map
              IndexSymbol.name).contains (IndexSymbol.name m))) := by
        rw [List.filter_filter]
        apply List.filter_congr
        intro m hm
        simp [List.contains_cons, string_contains_eq, eq_comm, Bool.and_comm]
      rw [h2, h3, h1]
      rfl

/-- `diff_symbols` on the method lists of a matched class pair. -/
theorem diffSymbols_methods {a : SymbolName} {oldM newM : List IndexSymbol}
    (hOld : ∀ m ∈ oldM, isMethodOfClassB a m = true)
    (hNew : ∀ m ∈ newM, isMethodOfClassB a m = true)
    (hOldN : (oldM.map IndexSymbol.name).Nodup)
    (hNewN : (newM.map IndexSymbol.name).Nodup) :
    diffSymbols oldM newM =
      ⟨newM.filter (fun m =>
         !((oldM.map IndexSymbol.name).contains (IndexSymbol.name m))),
       oldM.filter (fun m =>
         !((newM.map IndexSymbol.name).contains (IndexSymbol.name m)))⟩ := by
  rw [diffSymbols, buildSymTable_eq_map hOldN,
    diffAux_methods newM oldM hOld hNew hNewN]
  simp [List.map_map, Function.comp_def]

/-- Filtering one name out of the table does not change name searches for
other names. -/
theorem find?_filter_ne (cl : List IndexSymbol) (b nm : SymbolName) (hne : nm ≠ b) :
    (cl.filter (fun c => IndexSymbol.name c ≠ b)).find?
        (fun s => IndexSymbol.name s = nm) =
      cl.find? (fun s => IndexSymbol.name s = nm) := by
  induction cl with
  | nil => rfl
  | cons c cl ih =>
    by_cases hb : IndexSymbol.name c = b
    · rw [List.filter_cons_of_neg (by simp [hb]), List.find?_cons]
      have h2 : (decide (IndexSymbol.name c = nm)) = false := by
        simp only [decide_eq_false_iff_not]
        rw [hb]
        exact fun h => hne h.symm
      simp only [h2, ih]
    · rw [List.filter_cons_of_pos (by simpa using hb), List.find?_cons,
        List.find?_cons]
      by_cases hnm : IndexSymbol.name c = nm
      · have h3 : (decide (IndexSymbol.name c = nm)) = true := by simp [hnm]
        simp only [h3]
      · have h3 : (decide (IndexSymbol.name c = nm)) = false := by simp [hnm]
        simp only [h3, ih]

/-- Pointwise-equal functions give equal flat maps. -/
theorem flatMap_congr {α β : Type} {l : List α} {f g : α → List β}
    (h : ∀ a ∈ l, f a = g a) : l.flatMap f = l.flatMap g := by
  induction l with
  | nil => rfl
  | cons x l ih =>
    rw [List.flatMap_cons, List.flatMap_cons, h x (List.mem_cons_self _ _),
      ih (fun a ha => h a (List.mem_cons_of_mem _ ha))]

/-- Canonical shape of a well-formed top-level symbol. -/
theorem WFClassSym_eq {s : IndexSymbol} (h : WFClassSym s = true) :
    ∃ loc n ms ps, s = .classSym loc n ms ps ∧ IndexSymbol.name s = n ∧
      (∀ m ∈ ms, isMethodOfClassB n m = true) ∧
      (∀ m ∈ ps, isPropOfClassB n m = true) ∧
      (ms.map IndexSymbol.name).Nodup ∧ (ps.map IndexSymbol.name).Nodup := by
  cases s with
  | classSym loc n ms ps =>
    simp only [WFClassSym, Bool.and_eq_true, List.all_eq_true] at h
    exact ⟨loc, n, ms, ps, rfl, rfl, h.1.1.1, h.1.1.2,
      distinctStrings_iff_nodup.1 h.1.2, distinctStrings_iff_nodup.1 h.2⟩
  | methodSym loc p k => simp [WFClassSym] at h
  | propertySym loc p => simp [WFClassSym] at h

/-- `topDiffAdded` is stable under filtering an unrelated name out of the
old list. -/
theorem topDiffAdded_filter {cl : List IndexSymbol} {b : SymbolName}
    {B : IndexSymbol} (hB : WFClassSym B = true)
    (hne : IndexSymbol.name B ≠ b) :
    topDiffAdded (cl.filter (fun c => IndexSymbol.name c ≠ b)) B =
      topDiffAdded cl B := by
  obtain ⟨loc, n, ms, ps, hEq, hName, _, _, _, _⟩ := WFClassSym_eq hB
  subst hEq
  have hn : n ≠ b := by simpa [IndexSymbol.name] using hne
  rw [topDiffAdded, topDiffAdded, find?_filter_ne cl b n hn]

/-- `topDiffRemovedInner` is stable under filtering an unrelated name out
of the old list. -/
theorem topDiffRemovedInner_filter {cl : List IndexSymbol} {b : SymbolName}
    {B : IndexSymbol} (hB : WFClassSym B = true)
    (hne : IndexSymbol.name B ≠ b) :
    topDiffRemovedInner (cl.filter (fun c => IndexSymbol.name c ≠ b)) B =
      topDiffRemovedInner cl B := by
  obtain ⟨loc, n, ms, ps, hEq, hName, _, _, _, _⟩ := WFClassSym_eq hB
  subst hEq
  have hn : n ≠ b := by simpa [IndexSymbol.name] using hne
  rw [topDiffRemovedInner, topDiffRemovedInner, find?_filter_ne cl b n hn]

/-- The `diff_symbols` fold at the top level of two well-formed files:
each new class contributes its model diff, and the leftover table keeps
exactly the old classes whose names vanished. -/
theorem diffAux_top :
    ∀ (newL cl : List IndexSymbol),
      (∀ s ∈ cl, WFClassSym s = true) →
      (∀ s ∈ newL, WFClassSym s = true) →
      (newL.map IndexSymbol.name).Nodup →
      diffAux (cl.map (fun s => (IndexSymbol.name s, s))) newL =
        (⟨newL.flatMap (topDiffAdded cl),
          newL.flatMap (topDiffRemovedInner cl)⟩,
         (cl.filter (fun c =>
            !((newL.map IndexSymbol.name).contains (IndexSymbol.name c)))).map
           (fun s => (IndexSymbol.name s, s))) := by
  intro newL
  induction newL with
  | nil =>
    intro cl hcl _ _
    rw [diffAux]
    simp
  | cons B rest ih =>
    intro cl hcl hnew hnodup
    obtain ⟨locB, b, msB, psB, hBEq, hBName, hBms, hBps, hBmsN, hBpsN⟩ :=
      WFClassSym_eq (hnew B (List.mem_cons_self _ _))
    subst hBEq
    have hrest : ∀ s ∈ rest, WFClassSym s = true :=
      fun s hs => hnew s (List.mem_cons_of_mem _ hs)
    have hnod : IndexSymbol.name (IndexSymbol.classSym locB b msB psB) ∉
        rest.map IndexSymbol.name ∧ (rest.map IndexSymbol.name).Nodup := by
      rw [List.map_cons] at hnodup
      exact List.nodup_cons.1 hnodup
    have hnodupR := hnod.2
    have hbNotRest : b ∉ rest.map IndexSymbol.name := hnod.1
    rw [diffAux, find?_map_pair,
      show IndexSymbol.name (IndexSymbol.classSym locB b msB psB) = b from rfl]
    cases hfind : cl.find? (fun s => IndexSymbol.name s = b) with
    | none =>
      have hbNotCl : ∀ c ∈ cl, IndexSymbol.name c ≠ b := by
        intro c hc
        have := List.find?_eq_none.1 hfind c hc
        simpa using this
      dsimp only [Option.map]
      rw [ih cl hcl hrest hnodupR]
      have hAdd : topDiffAdded cl (IndexSymbol.classSym locB b msB psB) =
          [IndexSymbol.classSym locB b msB psB] := by
        rw [topDiffAdded, hfind]
      have hRem : topDiffRemovedInner cl (IndexSymbol.classSym locB b msB psB) =
          [] := by
        rw [topDiffRemovedInner, hfind]
      have hLeft : cl.filter (fun c =>
          !((rest.map IndexSymbol.name).contains (IndexSymbol.name c))) =
          cl.filter (fun c =>
          !((((IndexSymbol.classSym locB b msB psB) :: rest).map
              IndexSymbol.name).contains (IndexSymbol.name c))) := by
        apply List.filter_congr
        intro c hc
        rw [List.map_cons,
          show IndexSymbol.name (IndexSymbol.classSym locB b msB psB) = b from rfl]
        simp [List.contains_cons, string_contains_eq, hbNotCl c hc]
      rw [List.flatMap_cons, List.flatMap_cons, hAdd, hRem, hLeft]
      rfl
    | some C =>
      have hCcl : C ∈ cl := List.mem_of_find?_eq_some hfind
      have hCb : IndexSymbol.name C = b := by simpa using List.find?_some hfind
      obtain ⟨locC, c, msC, psC, hCEq, hCName, hCms, hCps, hCmsN, hCpsN⟩ :=
        WFClassSym_eq (hcl C hCcl)
      subst hCEq
      have hcb : c = b := by
        rw [show IndexSymbol.name (IndexSymbol.classSym locC c msC psC) = c from rfl]
          at hCb
        exact hCb
      subst hcb
      dsimp only [Option.map]
      have hmatch : IndexSymbol.isMatching
          (.classSym locC c msC psC) (.classSym locB c msB psB) = true := by
        simp [IndexSymbol.isMatching]
      rw [hmatch, if_pos rfl]
      rw [diffSymbols_methods hCms hBms hCmsN hBmsN, diffSymbols_props hCps hCpsN]
      rw [filter_map_pair]
      have hclF : ∀ s ∈ cl.filter (fun s => IndexSymbol.name s ≠ c),
          WFClassSym s = true :=
        fun s hs => hcl s (List.mem_of_mem_filter hs)
      rw [ih _ hclF hrest hnodupR]
      have hAdd : topDiffAdded cl (IndexSymbol.classSym locB c msB psB) =
          msB.filter (fun m =>
            !((msC.map IndexSymbol.name).contains (IndexSymbol.name m))) ++ psB := by
        rw [topDiffAdded, hfind]
      have hRem : topDiffRemovedInner cl (IndexSymbol.classSym locB c msB psB) =
          msC.filter (fun m =>
            !((msB.map IndexSymbol.name).contains (IndexSymbol.name m))) ++ psC := by
        rw [topDiffRemovedInner, hfind]
      have hAddRest : rest.flatMap
          (topDiffAdded (cl.filter (fun s => IndexSymbol.name s ≠ c))) =
          rest.flatMap (topDiffAdded cl) := by
        apply flatMap_congr
        intro B' hB'
        apply topDiffAdded_filter (hrest B' hB')
        intro heq
        exact hbNotRest (heq ▸ List.mem_map_of_mem _ hB')
      have hRemRest : rest.flatMap
          (topDiffRemovedInner (cl.filter (fun s => IndexSymbol.name s ≠ c))) =
          rest.flatMap (topDiffRemovedInner cl) := by
        apply flatMap_congr
        intro B' hB'
        apply topDiffRemovedInner_filter (hrest B' hB')
        intro heq
        exact hbNotRest (heq ▸ List.mem_map_of_mem _ hB')
      have hLeft : (cl.filter (fun s => IndexSymbol.name s ≠ c)).filter
            (fun m => !((rest.map IndexSymbol.name).contains (IndexSymbol.name m))) =
          cl.filter (fun m =>
            !((((IndexSymbol.classSym locB c msB psB) :: rest).map
              IndexSymbol.name).contains (IndexSymbol.name m))) := by
        rw [List.filter_filter]
        apply List.filter_congr
        intro m hm
        rw [List.map_cons,
          show IndexSymbol.name (IndexSymbol.classSym locB c msB psB) = c from rfl]
        simp [List.contains_cons, string_contains_eq, eq_comm, Bool.and_comm]
      rw [List.flatMap_cons, List.flatMap_cons, hAdd, hRem, hAddRest, hRemRest,
        hLeft]

/-- `diff_symbols` between the top-level symbol lists of two well-formed
files, in model form. -/
theorem diffSymbols_top {oldL newL : List IndexSymbol}
    (hOld : ∀ s ∈ oldL, WFClassSym s = true)
    (hNew : ∀ s ∈ newL, WFClassSym s = true)
    (hOldN : (oldL.map IndexSymbol.name).Nodup)
    (hNewN : (newL.map IndexSymbol.name).Nodup) :
    diffSymbols oldL newL =
      ⟨newL.flatMap (topDiffAdded oldL),
       newL.flatMap (topDiffRemovedInner oldL) ++
         oldL.filter (fun c =>
           !((newL.map IndexSymbol.name).contains (IndexSymbol.name c)))⟩ := by
  rw [diffSymbols, buildSymTable_eq_map hOldN,
    diffAux_top newL oldL hOld hNew hNewN]
  simp [List.map_map, Function.comp_def]

/-- Two booleans agreeing as propositions are equal. -/
theorem bool_eq_of_iff {a b : Bool} (h : a = true ↔ b = true) : a = b := by
  cases a <;> cases b <;> simp_all

/-- Shape of a symbol recognised by `isClassNamedB`. -/
theorem isClassNamedB_eq {n : SymbolName} {s : IndexSymbol}
    (h : isClassNamedB n s = true) :
    ∃ loc ms ps, s = .classSym loc n ms ps := by
  cases s with
  | classSym loc n' ms ps =>
    have : n' = n := by simpa [isClassNamedB] using h
    subst this
    exact ⟨loc, ms, ps, rfl⟩
  | methodSym loc p k => simp [isClassNamedB] at h
  | propertySym loc p => simp [isClassNamedB] at h

/-- Over well-formed symbols, holding a class named `n` is name
membership. -/
theorem addHasClass_iff_mem {cl : List IndexSymbol}
    (h : ∀ s ∈ cl, WFClassSym s = true) (n : SymbolName) :
    addHasClass cl n = true ↔ n ∈ cl.map IndexSymbol.name := by
  rw [addHasClass, List.any_eq_true]
  constructor
  · rintro ⟨s, hs, hcls⟩
    obtain ⟨loc, ms, ps, hEq⟩ := isClassNamedB_eq hcls
    subst hEq
    exact List.mem_map.2 ⟨_, hs, rfl⟩
  · intro hn
    obtain ⟨s, hs, hname⟩ := List.mem_map.1 hn
    obtain ⟨loc, n', ms, ps, hEq, hName, _, _, _, _⟩ := WFClassSym_eq (h s hs)
    subst hEq
    refine ⟨_, hs, ?_⟩
    have : n' = n := by rw [← hName]; exact hname
    simp [isClassNamedB, this]

/-- Name search succeeds exactly on the unique member carrying the name. -/
theorem find?_name_eq_some {cl : List IndexSymbol} {C : IndexSymbol}
    {b : SymbolName} (hN : (cl.map IndexSymbol.name).Nodup)
    (hC : C ∈ cl) (hb : IndexSymbol.name C = b) :
    cl.find? (fun s => IndexSymbol.name s = b) = some C := by
  induction cl with
  | nil => cases hC
  | cons c cl ih =>
    rw [List.map_cons] at hN
    have hN2 := List.nodup_cons.1 hN
    rcases List.mem_cons.1 hC with rfl | hCtail
    · rw [List.find?_cons]
      have : (decide (IndexSymbol.name C = b)) = true := by simp [hb]
      simp only [this]
    · have hcb : ¬ IndexSymbol.name c = b := by
        intro hcb
        exact hN2.1 (hcb ▸ hb ▸ List.mem_map_of_mem _ hCtail)
      rw [List.find?_cons]
      have : (decide (IndexSymbol.name c = b)) = false := by simp [hcb]
      simp only [this]
      exact ih hN2.2 hCtail

/-- The added symbols of a well-formed diff hold a class named `n` exactly
when the new file holds one and the old file does not. -/
theorem addHasClass_diff {oldL newL : List IndexSymbol}
    (hOld : ∀ s ∈ oldL, WFClassSym s = true)
    (hNew : ∀ s ∈ newL, WFClassSym s = true)
    (hOldN : (oldL.map IndexSymbol.name).Nodup)
    (hNewN : (newL.map IndexSymbol.name).Nodup) (n : SymbolName) :
    addHasClass (diffSymbols oldL newL).addedSymbols n =
      (addHasClass newL n && !(addHasClass oldL n)) := by
  apply bool_eq_of_iff
  rw [diffSymbols_top hOld hNew hOldN hNewN]
  rw [Bool.and_eq_true, Bool.not_eq_true', ← Bool.not_eq_true (addHasClass oldL n)]
  rw [addHasClass_iff_mem hNew, addHasClass_iff_mem hOld]
  rw [addHasClass, List.any_eq_true]
  constructor
  · rintro ⟨s, hs, hcls⟩
    obtain ⟨B, hB, hsB⟩ := List.mem_flatMap.1 hs
    obtain ⟨locB, b, msB, psB, hBEq, hBName, hBms, hBps, _, _⟩ :=
      WFClassSym_eq (hNew B hB)
    subst hBEq
    rw [topDiffAdded] at hsB
    cases hfind : oldL.find? (fun s => IndexSymbol.name s = b) with
    | some C =>
      have hCcl := List.mem_of_find?_eq_some hfind
      obtain ⟨locC, c, msC, psC, hCEq, _, hCms, hCps, _, _⟩ :=
        WFClassSym_eq (hOld C hCcl)
      subst hCEq
      rw [hfind] at hsB
      rcases List.mem_append.1 hsB with hsM | hsP
      · obtain ⟨_, _, _, hEq, _⟩ :=
          isMethodOfClassB_eq (hBms s (List.mem_of_mem_filter hsM))
        subst hEq
        simp [isClassNamedB] at hcls
      · obtain ⟨_, _, hEq, _⟩ := isPropOfClassB_eq (hBps s hsP)
        subst hEq
        simp [isClassNamedB] at hcls
    | none =>
      rw [hfind] at hsB
      have hsEq : s = IndexSymbol.classSym locB b msB psB := by simpa using hsB
      subst hsEq
      obtain ⟨_, _, _, hEq⟩ := isClassNamedB_eq hcls
      have hbn : b = n := by
        have := congrArg IndexSymbol.name hEq
        simpa [IndexSymbol.name] using this
      subst hbn
      constructor
      · exact List.mem_map.2 ⟨_, hB, rfl⟩
      · intro hmem
        obtain ⟨C, hC, hCname⟩ := List.mem_map.1 hmem
        rw [List.find?_eq_none] at hfind
        exact absurd (by simpa using hCname) (by simpa using hfind C hC)
  · rintro ⟨hnew, hnotold⟩
    obtain ⟨B, hB, hBname⟩ := List.mem_map.1 hnew
    obtain ⟨locB, b, msB, psB, hBEq, hBName, _, _, _, _⟩ :=
      WFClassSym_eq (hNew B hB)
    subst hBEq
    have hbn : b = n := by simpa [IndexSymbol.name] using hBname
    subst hbn
    refine ⟨IndexSymbol.classSym locB b msB psB, ?_, by simp [isClassNamedB]⟩
    apply List.mem_flatMap.2
    refine ⟨IndexSymbol.classSym locB b msB psB, hB, ?_⟩
    rw [topDiffAdded]
    have hfind : oldL.find? (fun s => IndexSymbol.name s = b) = none := by
      rw [List.find?_eq_none]
      intro C hC
      simp only [decide_eq_true_eq]
      intro hCname
      exact hnotold (hCname ▸ List.mem_map_of_mem _ hC)
    rw [hfind]
    simp

/-- The removed symbols of a well-formed diff hold a class named `n`
exactly when the old file holds one and the new file does not. -/
theorem remHasClass_diff {oldL newL : List IndexSymbol}
    (hOld : ∀ s ∈ oldL, WFClassSym s = true)
    (hNew : ∀ s ∈ newL, WFClassSym s = true)
    (hOldN : (oldL.map IndexSymbol.name).Nodup)
    (hNewN : (newL.map IndexSymbol.name).Nodup) (n : SymbolName) :
    remHasClass (diffSymbols oldL newL).removedSymbols n =
      (addHasClass oldL n && !(addHasClass newL n)) := by
  apply bool_eq_of_iff
  rw [diffSymbols_top hOld hNew hOldN hNewN]
  rw [Bool.and_eq_true, Bool.not_eq_true', ← Bool.not_eq_true (addHasClass newL n)]
  rw [addHasClass_iff_mem hNew, addHasClass_iff_mem hOld]
  rw [remHasClass, List.any_eq_true]
  constructor
  · rintro ⟨s, hs, hcls⟩
    rcases List.mem_append.1 hs with hsI | hsL
    · obtain ⟨B, hB, hsB⟩ := List.mem_flatMap.1 hsI
      obtain ⟨locB, b, msB, psB, hBEq, hBName, hBms, hBps, _, _⟩ :=
        WFClassSym_eq (hNew B hB)
      subst hBEq
      rw [topDiffRemovedInner] at hsB
      cases hfind : oldL.find? (fun s => IndexSymbol.name s = b) with
      | some C =>
        have hCcl := List.mem_of_find?_eq_some hfind
        obtain ⟨locC, c, msC, psC, hCEq, _, hCms, hCps, _, _⟩ :=
          WFClassSym_eq (hOld C hCcl)
        subst hCEq
        rw [hfind] at hsB
        rcases List.mem_append.1 hsB with hsM | hsP
        · obtain ⟨_, _, _, hEq, _⟩ :=
            isMethodOfClassB_eq (hCms s (List.mem_of_mem_filter hsM))
          subst hEq
          simp [isClassNamedB] at hcls
        · obtain ⟨_, _, hEq, _⟩ := isPropOfClassB_eq (hCps s hsP)
          subst hEq
          simp [isClassNamedB] at hcls
      | none =>
        rw [hfind] at hsB
        cases hsB
    · have hsO : s ∈ oldL := List.mem_of_mem_filter hsL
      have hkeep := List.of_mem_filter hsL
      obtain ⟨loc, ms, ps, hEq⟩ := isClassNamedB_eq hcls
      subst hEq
      have hnameN : IndexSymbol.name (IndexSymbol.classSym loc n ms ps) = n := rfl
      constructor
      · exact List.mem_map.2 ⟨_, hsO, hnameN⟩
      · intro hmem
        rw [string_contains_eq] at hkeep
        simp only [hnameN] at hkeep
        simp [hmem] at hkeep
  · rintro ⟨hold, hnotnew⟩
    obtain ⟨C, hC, hCname⟩ := List.mem_map.1 hold
    obtain ⟨locC, c, msC, psC, hCEq, hCName, _, _, _, _⟩ :=
      WFClassSym_eq (hOld C hC)
    subst hCEq
    have hcn : c = n := by simpa [IndexSymbol.name] using hCname
    subst hcn
    refine ⟨IndexSymbol.classSym locC c msC psC, ?_, by simp [isClassNamedB]⟩
    apply List.mem_append.2
    right
    apply List.mem_filter.2
    refine ⟨hC, ?_⟩
    rw [string_contains_eq]
    simp only [show IndexSymbol.name (IndexSymbol.classSym locC c msC psC) = c
      from rfl]
    simpa using hnotnew

/-- The unqualified name of a two-component path. -/
theorem symbolPathName_pair (a m : SymbolName) : SymbolPath.name [a, m] = m := rfl

/-- Method-bucket insertions contributed by one added method symbol. -/
theorem mem_addMethodRefsOf_method {r : IndexFileRef} {k k' : MethodKind}
    {n : SymbolName} {loc : Point} {p : SymbolPath} {x : IndexSymbolRef} :
    x ∈ addMethodRefsOf r k n (.methodSym loc p k') ↔
      k' = k ∧ SymbolPath.name p = n ∧ x = ⟨r, p⟩ := by
  rw [addMethodRefsOf]
  by_cases h : k' = k ∧ SymbolPath.name p = n
  · rw [if_pos h]
    simp [h.1, h.2, eq_comm]
  · rw [if_neg h]
    simp only [List.not_mem_nil, false_iff]
    rintro ⟨h1, h2, _⟩
    exact h ⟨h1, h2⟩

/-- Method-bucket insertions contributed by one added class symbol. -/
theorem mem_addMethodRefsOf_cls {r : IndexFileRef} {k : MethodKind}
    {n b : SymbolName} {loc : Point} {ms ps : List IndexSymbol}
    {x : IndexSymbolRef} (hms : ∀ m ∈ ms, isMethodOfClassB b m = true) :
    x ∈ addMethodRefsOf r k n (.classSym loc b ms ps) ↔
      (∃ loc', IndexSymbol.methodSym loc' [b, n] k ∈ ms) ∧ x = ⟨r, [b, n]⟩ := by
  rw [addMethodRefsOf, List.mem_flatMap]
  constructor
  · rintro ⟨m, hm, hx⟩
    obtain ⟨loc', nm, k', hEq, hName⟩ := isMethodOfClassB_eq (hms m hm)
    subst hEq
    dsimp only at hx
    by_cases hc : k' = k ∧ SymbolPath.name [b, nm] = n
    · rw [if_pos hc] at hx
      have hxEq : x = ⟨r, [b, nm]⟩ := by simpa using hx
      have hnm : nm = n := by rw [← hc.2]; rfl
      subst hnm
      subst hxEq
      exact ⟨⟨loc', hc.1 ▸ hm⟩, rfl⟩
    · rw [if_neg hc] at hx
      cases hx
  · rintro ⟨⟨loc', hmem⟩, hxEq⟩
    subst hxEq
    refine ⟨IndexSymbol.methodSym loc' [b, n] k, hmem, ?_⟩
    dsimp only
    rw [if_pos ⟨rfl, rfl⟩]
    simp

/-- Method-path removals contributed by one removed method symbol. -/
theorem mem_remMethodPathsOf_method {k k' : MethodKind} {n : SymbolName}
    {loc : Point} {p q : SymbolPath} :
    q ∈ remMethodPathsOf k n (.methodSym loc p k') ↔
      k' = k ∧ SymbolPath.name p = n ∧ q = p := by
  rw [remMethodPathsOf]
  by_cases h : k' = k ∧ SymbolPath.name p = n
  · rw [if_pos h]
    simp [h.1, h.2]
  · rw [if_neg h]
    simp only [List.not_mem_nil, false_iff]
    rintro ⟨h1, h2, _⟩
    exact h ⟨h1, h2⟩

/-- Method-path removals contributed by one removed class symbol. -/
theorem mem_remMethodPathsOf_cls {k : MethodKind} {n b : SymbolName}
    {loc : Point} {ms ps : List IndexSymbol} {q : SymbolPath}
    (hms : ∀ m ∈ ms, isMethodOfClassB b m = true) :
    q ∈ remMethodPathsOf k n (.classSym loc b ms ps) ↔
      (∃ loc', IndexSymbol.methodSym loc' [b, n] k ∈ ms) ∧ q = [b, n] := by
  rw [remMethodPathsOf, List.mem_flatMap]
  constructor
  · rintro ⟨m, hm, hx⟩
    obtain ⟨loc', nm, k', hEq, hName⟩ := isMethodOfClassB_eq (hms m hm)
    subst hEq
    dsimp only at hx
    by_cases hc : k' = k ∧ SymbolPath.name [b, nm] = n
    · rw [if_pos hc] at hx
      have hq : q = [b, nm] := by simpa using hx
      have hnm : nm = n := by rw [← hc.2]; rfl
      subst hnm
      subst hq
      exact ⟨⟨loc', hc.1 ▸ hm⟩, rfl⟩
    · rw [if_neg hc] at hx
      cases hx
  · rintro ⟨⟨loc', hmem⟩, hqEq⟩
    subst hqEq
    refine ⟨IndexSymbol.methodSym loc' [b, n] k, hmem, ?_⟩
    dsimp only
    rw [if_pos ⟨rfl, rfl⟩]
    simp

/-- Property-bucket insertions contributed by one added property symbol. -/
theorem mem_addPropRefsOf_prop {r : IndexFileRef} {n : SymbolName}
    {loc : Point} {p : SymbolPath} {x : IndexSymbolRef} :
    x ∈ addPropRefsOf r n (.propertySym loc p) ↔
      SymbolPath.name p = n ∧ x = ⟨r, p⟩ := by
  rw [addPropRefsOf]
  by_cases h : SymbolPath.name p = n
  · rw [if_pos h]
    simp [h, eq_comm]
  · rw [if_neg h]
    simp only [List.not_mem_nil, false_iff]
    rintro ⟨h1, _⟩
    exact h h1

/-- Property-bucket insertions contributed by one added class symbol. -/
theorem mem_addPropRefsOf_cls {r : IndexFileRef} {n b : SymbolName}
    {loc : Point} {ms ps : List IndexSymbol} {x : IndexSymbolRef}
    (hps : ∀ m ∈ ps, isPropOfClassB b m = true) :
    x ∈ addPropRefsOf r n (.classSym loc b ms ps) ↔
      (∃ loc', IndexSymbol.propertySym loc' [b, n] ∈ ps) ∧ x = ⟨r, [b, n]⟩ := by
  rw [addPropRefsOf, List.mem_flatMap]
  constructor
  · rintro ⟨m, hm, hx⟩
    obtain ⟨loc', nm, hEq, hName⟩ := isPropOfClassB_eq (hps m hm)
    subst hEq
    dsimp only at hx
    by_cases hc : SymbolPath.name [b, nm] = n
    · rw [if_pos hc] at hx
      have hxEq : x = ⟨r, [b, nm]⟩ := by simpa using hx
      have hnm : nm = n := by rw [← hc]; rfl
      subst hnm
      subst hxEq
      exact ⟨⟨loc', hm⟩, rfl⟩
    · rw [if_neg hc] at hx
      cases hx
  · rintro ⟨⟨loc', hmem⟩, hxEq⟩
    subst hxEq
    refine ⟨IndexSymbol.propertySym loc' [b, n], hmem, ?_⟩
    dsimp only
    rw [if_pos (symbolPathName_pair b n)]
    simp

/-- Property-path removals contributed by one removed property symbol. -/
theorem mem_remPropPathsOf_prop {n : SymbolName} {loc : Point}
    {p q : SymbolPath} :
    q ∈ remPropPathsOf n (.propertySym loc p) ↔
      SymbolPath.name p = n ∧ q = p := by
  rw [remPropPathsOf]
  by_cases h : SymbolPath.name p = n
  · rw [if_pos h]
    simp [h]
  · rw [if_neg h]
    simp only [List.not_mem_nil, false_iff]
    rintro ⟨h1, _⟩
    exact h h1

/-- Property-path removals contributed by one removed class symbol. -/
theorem mem_remPropPathsOf_cls {n b : SymbolName} {loc : Point}
    {ms ps : List IndexSymbol} {q : SymbolPath}
    (hps : ∀ m ∈ ps, isPropOfClassB b m = true) :
    q ∈ remPropPathsOf n (.classSym loc b ms ps) ↔
      (∃ loc', IndexSymbol.propertySym loc' [b, n] ∈ ps) ∧ q = [b, n] := by
  rw [remPropPathsOf, List.mem_flatMap]
  constructor
  · rintro ⟨m, hm, hx⟩
    obtain ⟨loc', nm, hEq, hName⟩ := isPropOfClassB_eq (hps m hm)
    subst hEq
    dsimp only at hx
    by_cases hc : SymbolPath.name [b, nm] = n
    · rw [if_pos hc] at hx
      have hq : q = [b, nm] := by simpa using hx
      have hnm : nm = n := by rw [← hc]; rfl
      subst hnm
      subst hq
      exact ⟨⟨loc', hm⟩, rfl⟩
    · rw [if_neg hc] at hx
      cases hx
  · rintro ⟨⟨loc', hmem⟩, hqEq⟩
    subst hqEq
    refine ⟨IndexSymbol.propertySym loc' [b, n], hmem, ?_⟩
    dsimp only
    rw [if_pos (symbolPathName_pair b n)]
    simp

/-- Membership of the method insertions of a whole well-formed symbol
list: exactly the references of its kind-`k` methods named `n`. -/
theorem mem_addMethodRefs_wf {L : List IndexSymbol}
    (hL : ∀ s ∈ L, WFClassSym s = true) {r : IndexFileRef} {k : MethodKind}
    {n : SymbolName} {x : IndexSymbolRef} :
    x ∈ addMethodRefs L r k n ↔
      ∃ A, x = ⟨r, [A, n]⟩ ∧ HasMethod L A n k := by
  rw [addMethodRefs, List.mem_flatMap]
  constructor
  · rintro ⟨s, hs, hx⟩
    obtain ⟨loc, b, ms, ps, hEq, _, hms, hps, _, _⟩ := WFClassSym_eq (hL s hs)
    subst hEq
    rw [mem_addMethodRefsOf_cls hms] at hx
    obtain ⟨⟨loc', hmem⟩, hxEq⟩ := hx
    exact ⟨b, hxEq, loc, ms, ps, loc', hs, hmem⟩
  · rintro ⟨A, hxEq, loc, ms, ps, loc', hcls, hmem⟩
    have hwf := hL _ hcls
    simp only [WFClassSym, Bool.and_eq_true, List.all_eq_true] at hwf
    refine ⟨IndexSymbol.classSym loc A ms ps, hcls, ?_⟩
    rw [mem_addMethodRefsOf_cls hwf.1.1.1]
    exact ⟨⟨loc', hmem⟩, hxEq⟩

/-- Membership of the property insertions of a whole well-formed symbol
list. -/
theorem mem_addPropRefs_wf {L : List IndexSymbol}
    (hL : ∀ s ∈ L, WFClassSym s = true) {r : IndexFileRef}
    {n : SymbolName} {x : IndexSymbolRef} :
    x ∈ addPropRefs L r n ↔
      ∃ A, x = ⟨r, [A, n]⟩ ∧ HasProp L A n := by
  rw [addPropRefs, List.mem_flatMap]
  constructor
  · rintro ⟨s, hs, hx⟩
    obtain ⟨loc, b, ms, ps, hEq, _, hms, hps, _, _⟩ := WFClassSym_eq (hL s hs)
    subst hEq
    rw [mem_addPropRefsOf_cls hps] at hx
    obtain ⟨⟨loc', hmem⟩, hxEq⟩ := hx
    exact ⟨b, hxEq, loc, ms, ps, loc', hs, hmem⟩
  · rintro ⟨A, hxEq, loc, ms, ps, loc', hcls, hmem⟩
    have hwf := hL _ hcls
    simp only [WFClassSym, Bool.and_eq_true, List.all_eq_true] at hwf
    refine ⟨IndexSymbol.classSym loc A ms ps, hcls, ?_⟩
    rw [mem_addPropRefsOf_cls hwf.1.1.2]
    exact ⟨⟨loc', hmem⟩, hxEq⟩

/-- Membership of the method insertions of a well-formed diff: exactly the
new file's kind-`k` methods named `n` whose name is new to their class. -/
theorem mem_addMethodRefs_diff {oldL newL : List IndexSymbol}
    (hOld : ∀ s ∈ oldL, WFClassSym s = true)
    (hNew : ∀ s ∈ newL, WFClassSym s = true)
    (hOldN : (oldL.map IndexSymbol.name).Nodup)
    (hNewN : (newL.map IndexSymbol.name).Nodup)
    {r : IndexFileRef} {k : MethodKind} {n : SymbolName} {x : IndexSymbolRef} :
    x ∈ addMethodRefs (diffSymbols oldL newL).addedSymbols r k n ↔
      ∃ A, x = ⟨r, [A, n]⟩ ∧ HasMethod newL A n k ∧
        ¬ HasMethodNamed oldL A n := by
  rw [diffSymbols_top hOld hNew hOldN hNewN]
  rw [addMethodRefs, List.mem_flatMap]
  constructor
  · rintro ⟨s, hs, hx⟩
    obtain ⟨B, hB, hsB⟩ := List.mem_flatMap.1 hs
    obtain ⟨locB, b, msB, psB, hBEq, _, hBms, hBps, _, _⟩ :=
      WFClassSym_eq (hNew B hB)
    subst hBEq
    rw [topDiffAdded] at hsB
    cases hfind : oldL.find? (fun s => IndexSymbol.name s = b) with
    | some C =>
      have hCcl := List.mem_of_find?_eq_some hfind
      have hCb : IndexSymbol.name C = b := by simpa using List.find?_some hfind
      obtain ⟨locC, c, msC, psC, hCEq, hCName, hCms, hCps, _, _⟩ :=
        WFClassSym_eq (hOld C hCcl)
      subst hCEq
      have hcb : b = c := hCb.symm
      subst hcb
      rw [hfind] at hsB
      rcases List.mem_append.1 hsB with hsM | hsP
      · have hsInB : s ∈ msB := List.mem_of_mem_filter hsM
        have hkeep := List.of_mem_filter hsM
        obtain ⟨loc', nm, k', hEq, hName⟩ := isMethodOfClassB_eq (hBms s hsInB)
        subst hEq
        rw [mem_addMethodRefsOf_method] at hx
        obtain ⟨hk, hnm, hxEq⟩ := hx
        have hk2 : k = k' := hk.symm
        subst hk2
        have hnmn : n = nm := hnm.symm
        subst hnmn
        refine ⟨b, hxEq, ⟨locB, msB, psB, loc', hB, hsInB⟩, ?_⟩
        rintro ⟨loc2, ms2, ps2, mem, hcls2, hmem2, hmemName⟩
        have hceq : IndexSymbol.classSym loc2 b ms2 ps2 =
            IndexSymbol.classSym locC b msC psC := by
          apply List.inj_on_of_nodup_map hOldN hcls2 hCcl
          rfl
        have hms2 : ms2 = msC := by
          simp only [IndexSymbol.classSym.injEq] at hceq
          exact hceq.2.2.1
        rw [string_contains_eq,
          show IndexSymbol.name (IndexSymbol.methodSym loc' [b, n] k) = n
            from rfl] at hkeep
        have hnIn : n ∈ msC.map IndexSymbol.name := by
          rw [← hms2]
          exact hmemName ▸ List.mem_map_of_mem _ hmem2
        simp [hnIn] at hkeep
      · obtain ⟨loc', nm, hEq, _⟩ := isPropOfClassB_eq (hBps s hsP)
        subst hEq
        simp [addMethodRefsOf] at hx
    | none =>
      rw [hfind] at hsB
      have hsEq : s = IndexSymbol.classSym locB b msB psB := by simpa using hsB
      subst hsEq
      rw [mem_addMethodRefsOf_cls hBms] at hx
      obtain ⟨⟨loc', hmem⟩, hxEq⟩ := hx
      refine ⟨b, hxEq, ⟨locB, msB, psB, loc', hB, hmem⟩, ?_⟩
      rintro ⟨loc2, ms2, ps2, mem, hcls2, _, _⟩
      have := List.find?_eq_none.1 hfind _ hcls2
      simp [IndexSymbol.name] at this
  · rintro ⟨A, hxEq, ⟨locB, msB, psB, loc', hB, hmem⟩, hnotold⟩
    have hwfB := hNew _ hB
    simp only [WFClassSym, Bool.and_eq_true, List.all_eq_true] at hwfB
    have hBms := hwfB.1.1.1
    cases hfind : oldL.find? (fun s => IndexSymbol.name s = A) with
    | none =>
      refine ⟨IndexSymbol.classSym locB A msB psB, ?_, ?_⟩
      · apply List.mem_flatMap.2
        refine ⟨IndexSymbol.classSym locB A msB psB, hB, ?_⟩
        rw [topDiffAdded, hfind]
        simp
      · rw [mem_addMethodRefsOf_cls hBms]
        exact ⟨⟨loc', hmem⟩, hxEq⟩
    | some C =>
      have hCcl := List.mem_of_find?_eq_some hfind
      have hCb : IndexSymbol.name C = A := by simpa using List.find?_some hfind
      obtain ⟨locC, c, msC, psC, hCEq, hCName, hCms, hCps, _, _⟩ :=
        WFClassSym_eq (hOld C hCcl)
      subst hCEq
      have hcb : A = c := hCb.symm
      subst hcb
      have hnNotC : n ∉ msC.map IndexSymbol.name := by
        intro hnIn
        obtain ⟨mem, hmemC, hmemName⟩ := List.mem_map.1 hnIn
        exact hnotold ⟨locC, msC, psC, mem, hCcl, hmemC, hmemName⟩
      refine ⟨IndexSymbol.methodSym loc' [A, n] k, ?_, ?_⟩
      · apply List.mem_flatMap.2
        refine ⟨IndexSymbol.classSym locB A msB psB, hB, ?_⟩
        rw [topDiffAdded, hfind]
        apply List.mem_append.2
        left
        apply List.mem_filter.2
        refine ⟨hmem, ?_⟩
        rw [string_contains_eq,
          show IndexSymbol.name (IndexSymbol.methodSym loc' [A, n] k) = n
            from rfl]
        simpa using hnNotC
      · rw [mem_addMethodRefsOf_method]
        exact ⟨rfl, rfl, hxEq⟩

/-- Membership of the method removals of a well-formed diff: exactly the
old file's kind-`k` methods named `n` whose name vanished from their
class. -/
theorem mem_remMethodPaths_diff {oldL newL : List IndexSymbol}
    (hOld : ∀ s ∈ oldL, WFClassSym s = true)
    (hNew : ∀ s ∈ newL, WFClassSym s = true)
    (hOldN : (oldL.map IndexSymbol.name).Nodup)
    (hNewN : (newL.map IndexSymbol.name).Nodup)
    {k : MethodKind} {n : SymbolName} {q : SymbolPath} :
    q ∈ remMethodPaths (diffSymbols oldL newL).removedSymbols k n ↔
      ∃ A, q = [A, n] ∧ HasMethod oldL A n k ∧
        ¬ HasMethodNamed newL A n := by
  rw [diffSymbols_top hOld hNew hOldN hNewN]
  rw [remMethodPaths, List.flatMap_append, List.mem_append]
  constructor
  · rintro (hq | hq)
    · obtain ⟨s, hs, hx⟩ := List.mem_flatMap.1 hq
      obtain ⟨B, hB, hsB⟩ := List.mem_flatMap.1 hs
      obtain ⟨locB, b, msB, psB, hBEq, _, hBms, hBps, _, _⟩ :=
        WFClassSym_eq (hNew B hB)
      subst hBEq
      rw [topDiffRemovedInner] at hsB
      cases hfind : oldL.find? (fun s => IndexSymbol.name s = b) with
      | some C =>
        have hCcl := List.mem_of_find?_eq_some hfind
        have hCb : IndexSymbol.name C = b := by simpa using List.find?_some hfind
        obtain ⟨locC, c, msC, psC, hCEq, hCName, hCms, hCps, _, _⟩ :=
          WFClassSym_eq (hOld C hCcl)
        subst hCEq
        have hcb : b = c := hCb.symm
        subst hcb
        rw [hfind] at hsB
        rcases List.mem_append.1 hsB with hsM | hsP
        · have hsInC : s ∈ msC := List.mem_of_mem_filter hsM
          have hkeep := List.of_mem_filter hsM
          obtain ⟨loc', nm, k', hEq, hName⟩ := isMethodOfClassB_eq (hCms s hsInC)
          subst hEq
          rw [mem_remMethodPathsOf_method] at hx
          obtain ⟨hk, hnm, hqEq⟩ := hx
          have hk2 : k = k' := hk.symm
          subst hk2
          have hnmn : n = nm := hnm.symm
          subst hnmn
          refine ⟨b, hqEq, ⟨locC, msC, psC, loc', hCcl, hsInC⟩, ?_⟩
          rintro ⟨loc2, ms2, ps2, mem, hcls2, hmem2, hmemName⟩
          have hceq : IndexSymbol.classSym loc2 b ms2 ps2 =
              IndexSymbol.classSym locB b msB psB := by
            apply List.inj_on_of_nodup_map hNewN hcls2 hB
            rfl
          have hms2 : ms2 = msB := by
            simp only [IndexSymbol.classSym.injEq] at hceq
            exact hceq.2.2.1
          rw [string_contains_eq,
            show IndexSymbol.name (IndexSymbol.methodSym loc' [b, n] k) = n
              from rfl] at hkeep
          have hnIn : n ∈ msB.map IndexSymbol.name := by
            rw [← hms2]
            exact hmemName ▸ List.mem_map_of_mem _ hmem2
          simp [hnIn] at hkeep
        · obtain ⟨loc', nm, hEq, _⟩ := isPropOfClassB_eq (hCps s hsP)
          subst hEq
          simp [remMethodPathsOf] at hx
      | none =>
        rw [hfind] at hsB
        cases hsB
    · obtain ⟨s, hs, hx⟩ := List.mem_flatMap.1 hq
      have hsO : s ∈ oldL := List.mem_of_mem_filter hs
      have hkeep := List.of_mem_filter hs
      obtain ⟨locC, c, msC, psC, hCEq, hCName, hCms, hCps, _, _⟩ :=
        WFClassSym_eq (hOld s hsO)
      subst hCEq
      rw [mem_remMethodPathsOf_cls hCms] at hx
      obtain ⟨⟨loc', hmem⟩, hqEq⟩ := hx
      refine ⟨c, hqEq, ⟨locC, msC, psC, loc', hsO, hmem⟩, ?_⟩
      rintro ⟨loc2, ms2, ps2, mem, hcls2, hmem2, hmemName⟩
      rw [string_contains_eq,
        show IndexSymbol.name (IndexSymbol.classSym locC c msC psC) = c
          from rfl] at hkeep
      have hcIn : c ∈ newL.map IndexSymbol.name :=
        List.mem_map.2 ⟨_, hcls2, rfl⟩
      simp [hcIn] at hkeep
  · rintro ⟨A, hqEq, ⟨locC, msC, psC, loc', hC, hmem⟩, hnotnew⟩
    have hwfC := hOld _ hC
    simp only [WFClassSym, Bool.and_eq_true, List.all_eq_true] at hwfC
    have hCms := hwfC.1.1.1
    by_cases hAnew : A ∈ newL.map IndexSymbol.name
    · obtain ⟨B, hB, hBname⟩ := List.mem_map.1 hAnew
      obtain ⟨locB, b, msB, psB, hBEq, hBName, hBms, hBps, _, _⟩ :=
        WFClassSym_eq (hNew B hB)
      subst hBEq
      have hbA : A = b := hBname.symm
      subst hbA
      left
      apply List.mem_flatMap.2
      refine ⟨IndexSymbol.methodSym loc' [A, n] k, ?_, ?_⟩
      · apply List.mem_flatMap.2
        refine ⟨IndexSymbol.classSym locB A msB psB, hB, ?_⟩
        rw [topDiffRemovedInner,
          find?_name_eq_some hOldN hC
            (show IndexSymbol.name (IndexSymbol.classSym locC A msC psC) = A
              from rfl)]
        apply List.mem_append.2
        left
        apply List.mem_filter.2
        refine ⟨hmem, ?_⟩
        rw [string_contains_eq,
          show IndexSymbol.name (IndexSymbol.methodSym loc' [A, n] k) = n
            from rfl]
        have hnNotB : n ∉ msB.map IndexSymbol.name := by
          intro hnIn
          obtain ⟨mem, hmemB, hmemName⟩ := List.mem_map.1 hnIn
          exact hnotnew ⟨locB, msB, psB, mem, hB, hmemB, hmemName⟩
        simpa using hnNotB
      · rw [mem_remMethodPathsOf_method]
        exact ⟨rfl, rfl, hqEq⟩
    · right
      apply List.mem_flatMap.2
      refine ⟨IndexSymbol.classSym locC A msC psC, ?_, ?_⟩
      · apply List.mem_filter.2
        refine ⟨hC, ?_⟩
        rw [string_contains_eq,
          show IndexSymbol.name (IndexSymbol.classSym locC A msC psC) = A
            from rfl]
        simpa using hAnew
      · rw [mem_remMethodPathsOf_cls hCms]
        exact ⟨⟨loc', hmem⟩, hqEq⟩

/-- Membership of the property insertions of a well-formed diff: all of
the new file's properties named `n` (properties never match, so every one
is re-added). -/
theorem mem_addPropRefs_diff {oldL newL : List IndexSymbol}
    (hOld : ∀ s ∈ oldL, WFClassSym s = true)
    (hNew : ∀ s ∈ newL, WFClassSym s = true)
    (hOldN : (oldL.map IndexSymbol.name).Nodup)
    (hNewN : (newL.map IndexSymbol.name).Nodup)
    {r : IndexFileRef} {n : SymbolName} {x : IndexSymbolRef} :
    x ∈ addPropRefs (diffSymbols oldL newL).addedSymbols r n ↔
      ∃ A, x = ⟨r, [A, n]⟩ ∧ HasProp newL A n := by
  rw [diffSymbols_top hOld hNew hOldN hNewN]
  rw [addPropRefs, List.mem_flatMap]
  constructor
  · rintro ⟨s, hs, hx⟩
    obtain ⟨B, hB, hsB⟩ := List.mem_flatMap.1 hs
    obtain ⟨locB, b, msB, psB, hBEq, _, hBms, hBps, _, _⟩ :=
      WFClassSym_eq (hNew B hB)
    subst hBEq
    rw [topDiffAdded] at hsB
    cases hfind : oldL.find? (fun s => IndexSymbol.name s = b) with
    | some C =>
      have hCcl := List.mem_of_find?_eq_some hfind
      obtain ⟨locC, c, msC, psC, hCEq, _, hCms, hCps, _, _⟩ :=
        WFClassSym_eq (hOld C hCcl)
      subst hCEq
      rw [hfind] at hsB
      rcases List.mem_append.1 hsB with hsM | hsP
      · obtain ⟨loc', nm, k', hEq, _⟩ :=
          isMethodOfClassB_eq (hBms s (List.mem_of_mem_filter hsM))
        subst hEq
        simp [addPropRefsOf] at hx
      · obtain ⟨loc', nm, hEq, _⟩ := isPropOfClassB_eq (hBps s hsP)
        subst hEq
        rw [mem_addPropRefsOf_prop] at hx
        obtain ⟨hnm, hxEq⟩ := hx
        have hnmn : n = nm := hnm.symm
        subst hnmn
        exact ⟨b, hxEq, locB, msB, psB, loc', hB, hsP⟩
    | none =>
      rw [hfind] at hsB
      have hsEq : s = IndexSymbol.classSym locB b msB psB := by simpa using hsB
      subst hsEq
      rw [mem_addPropRefsOf_cls hBps] at hx
      obtain ⟨⟨loc', hmem⟩, hxEq⟩ := hx
      exact ⟨b, hxEq, locB, msB, psB, loc', hB, hmem⟩
  · rintro ⟨A, hxEq, locB, msB, psB, loc', hB, hmem⟩
    have hwfB := hNew _ hB
    simp only [WFClassSym, Bool.and_eq_true, List.all_eq_true] at hwfB
    have hBps := hwfB.1.1.2
    cases hfind : oldL.find? (fun s => IndexSymbol.name s = A) with
    | none =>
      refine ⟨IndexSymbol.classSym locB A msB psB, ?_, ?_⟩
      · apply List.mem_flatMap.2
        refine ⟨IndexSymbol.classSym locB A msB psB, hB, ?_⟩
        rw [topDiffAdded, hfind]
        simp
      · rw [mem_addPropRefsOf_cls hBps]
        exact ⟨⟨loc', hmem⟩, hxEq⟩
    | some C =>
      have hCcl := List.mem_of_find?_eq_some hfind
      obtain ⟨locC, c, msC, psC, hCEq, _, hCms, hCps, _, _⟩ :=
        WFClassSym_eq (hOld C hCcl)
      subst hCEq
      refine ⟨IndexSymbol.propertySym loc' [A, n], ?_, ?_⟩
      · apply List.mem_flatMap.2
        refine ⟨IndexSymbol.classSym locB A msB psB, hB, ?_⟩
        rw [topDiffAdded, hfind]
        exact List.mem_append.2 (Or.inr hmem)
      · rw [mem_addPropRefsOf_prop]
        exact ⟨rfl, hxEq⟩
  
/-- Membership of the property removals of a well-formed diff: all of the
old file's properties named `n`. -/
theorem mem_remPropPaths_diff {oldL newL : List IndexSymbol}
    (hOld : ∀ s ∈ oldL, WFClassSym s = true)
    (hNew : ∀ s ∈ newL, WFClassSym s = true)
    (hOldN : (oldL.map IndexSymbol.name).Nodup)
    (hNewN : (newL.map IndexSymbol.name).Nodup)
    {n : SymbolName} {q : SymbolPath} :
    q ∈ remPropPaths (diffSymbols oldL newL).removedSymbols n ↔
      ∃ A, q = [A, n] ∧ HasProp oldL A n := by
  rw [diffSymbols_top hOld hNew hOldN hNewN]
  rw [remPropPaths, List.flatMap_append, List.mem_append]
  constructor
  · rintro (hq | hq)
    · obtain ⟨s, hs, hx⟩ := List.mem_flatMap.1 hq
      obtain ⟨B, hB, hsB⟩ := List.mem_flatMap.1 hs
      obtain ⟨locB, b, msB, psB, hBEq, _, hBms, hBps, _, _⟩ :=
        WFClassSym_eq (hNew B hB)
      subst hBEq
      rw [topDiffRemovedInner] at hsB
      cases hfind : oldL.find? (fun s => IndexSymbol.name s = b) with
      | some C =>
        have hCcl := List.mem_of_find?_eq_some hfind
        have hCb : IndexSymbol.name C = b := by simpa using List.find?_some hfind
        obtain ⟨locC, c, msC, psC, hCEq, _, hCms, hCps, _, _⟩ :=
          WFClassSym_eq (hOld C hCcl)
        subst hCEq
        have hcb : b = c := hCb.symm
        subst hcb
        rw [hfind] at hsB
        rcases List.mem_append.1 hsB with hsM | hsP
        · obtain ⟨loc', nm, k', hEq, _⟩ :=
            isMethodOfClassB_eq (hCms s (List.mem_of_mem_filter hsM))
          subst hEq
          simp [remPropPathsOf] at hx
        · obtain ⟨loc', nm, hEq, _⟩ := isPropOfClassB_eq (hCps s hsP)
          subst hEq
          rw [mem_remPropPathsOf_prop] at hx
          obtain ⟨hnm, hqEq⟩ := hx
          have hnmn : n = nm := hnm.symm
          subst hnmn
          exact ⟨b, hqEq, locC, msC, psC, loc', hCcl, hsP⟩
      | none =>
        rw [hfind] at hsB
        cases hsB
    · obtain ⟨s, hs, hx⟩ := List.mem_flatMap.1 hq
      have hsO : s ∈ oldL := List.mem_of_mem_filter hs
      obtain ⟨locC, c, msC, psC, hCEq, _, hCms, hCps, _, _⟩ :=
        WFClassSym_eq (hOld s hsO)
      subst hCEq
      rw [mem_remPropPathsOf_cls hCps] at hx
      obtain ⟨⟨loc', hmem⟩, hqEq⟩ := hx
      exact ⟨c, hqEq, locC, msC, psC, loc', hsO, hmem⟩
  · rintro ⟨A, hqEq, locC, msC, psC, loc', hC, hmem⟩
    have hwfC := hOld _ hC
    simp only [WFClassSym, Bool.and_eq_true, List.all_eq_true] at hwfC
    have hCps := hwfC.1.1.2
    by_cases hAnew : A ∈ newL.map IndexSymbol.name
    · obtain ⟨B, hB, hBname⟩ := List.mem_map.1 hAnew
      obtain ⟨locB, b, msB, psB, hBEq, _, hBms, hBps, _, _⟩ :=
        WFClassSym_eq (hNew B hB)
      subst hBEq
      have hbA : A = b := hBname.symm
      subst hbA
      left
      apply List.mem_flatMap.2
      refine ⟨IndexSymbol.propertySym loc' [A, n], ?_, ?_⟩
      · apply List.mem_flatMap.2
        refine ⟨IndexSymbol.classSym locB A msB psB, hB, ?_⟩
        rw [topDiffRemovedInner,
          find?_name_eq_some hOldN hC
            (show IndexSymbol.name (IndexSymbol.classSym locC A msC psC) = A
              from rfl)]
        exact List.mem_append.2 (Or.inr hmem)
      · rw [mem_remPropPathsOf_prop]
        exact ⟨rfl, hqEq⟩
    · right
      apply List.mem_flatMap.2
      refine ⟨IndexSymbol.classSym locC A msC psC, ?_, ?_⟩
      · apply List.mem_filter.2
        refine ⟨hC, ?_⟩
        rw [string_contains_eq,
          show IndexSymbol.name (IndexSymbol.classSym locC A msC psC) = A
            from rfl]
        simpa using hAnew
      · rw [mem_remPropPathsOf_cls hCps]
        exact ⟨⟨loc', hmem⟩, hqEq⟩

/-- `Eqv` is reflexive. -/
theorem Eqv_refl (t : LookupTables) : t.Eqv t :=
  ⟨fun _ => rfl, fun _ _ _ => Iff.rfl, fun _ _ => Iff.rfl⟩

/-- `Eqv` is transitive. -/
theorem Eqv_trans {a b c : LookupTables} (h1 : a.Eqv b) (h2 : b.Eqv c) :
    a.Eqv c :=
  ⟨fun n => (h1.1 n).trans (h2.1 n),
   fun k n x => (h1.2.1 k n x).trans (h2.2.1 k n x),
   fun n x => (h1.2.2 n x).trans (h2.2.2 n x)⟩

/-- `LookupTables::update` preserves `Eqv` of the starting tables. -/
theorem Eqv_update_congr {t t' : LookupTables} (h : t.Eqv t')
    (d : SymbolsDiff) (r : IndexFileRef) :
    (t.update d r).Eqv (t'.update d r) := by
  refine ⟨fun n => ?_, fun k n x => ?_, fun n x => ?_⟩
  · rw [update_classTable, update_classTable, h.1]
  · rw [mem_update_method, mem_update_method, h.2.1]
  · rw [mem_update_prop, mem_update_prop, h.2.2]

/-- Unpacked well-formedness of an `IndexFile`. -/
theorem WFFile_elim {f : IndexFile} (h : WFFile f = true) :
    (∀ s ∈ f.symbols, WFClassSym s = true) ∧
      (f.symbols.map IndexSymbol.name).Nodup := by
  rw [WFFile, Bool.and_eq_true, List.all_eq_true] at h
  exact ⟨h.1, distinctStrings_iff_nodup.1 h.2⟩

/-- A stored method yields a method entry of the file. -/
theorem fileMethodEntries_mem {f : IndexFile} {A n : SymbolName}
    {k : MethodKind} {loc loc' : Point} {ms ps : List IndexSymbol}
    (hcls : IndexSymbol.classSym loc A ms ps ∈ f.symbols)
    (hm : IndexSymbol.methodSym loc' [A, n] k ∈ ms) :
    ([A, n], k) ∈ fileMethodEntries f := by
  rw [fileMethodEntries, List.mem_flatMap]
  refine ⟨_, hcls, ?_⟩
  dsimp only
  rw [List.mem_filterMap]
  exact ⟨_, hm, rfl⟩

/-- What `KindAgree` says of shared method paths. -/
theorem KindAgree_elim {oldF newF : IndexFile} (h : KindAgree oldF newF = true)
    {p : SymbolPath} {k k' : MethodKind}
    (h1 : (p, k) ∈ fileMethodEntries oldF)
    (h2 : (p, k') ∈ fileMethodEntries newF) : k = k' := by
  rw [KindAgree, List.all_eq_true] at h
  have ha := h _ h1
  rw [List.all_eq_true] at ha
  have hb := ha _ h2
  simpa using hb

/-- A method is in particular a named method member. -/
theorem hasMethodNamed_of_hasMethod {L : List IndexSymbol} {A n : SymbolName}
    {k : MethodKind} (h : HasMethod L A n k) : HasMethodNamed L A n := by
  obtain ⟨loc, ms, ps, loc', hcls, hm⟩ := h
  exact ⟨loc, ms, ps, _, hcls, hm, rfl⟩

/-- Over a well-formed file, a named method member is a method of some
kind. -/
theorem hasMethod_of_named {f : IndexFile} (hwf : WFFile f = true)
    {A n : SymbolName} (h : HasMethodNamed f.symbols A n) :
    ∃ k, HasMethod f.symbols A n k := by
  obtain ⟨loc, ms, ps, mem, hcls, hmem, hname⟩ := h
  have hwfc := (WFFile_elim hwf).1 _ hcls
  simp only [WFClassSym, Bool.and_eq_true, List.all_eq_true] at hwfc
  obtain ⟨loc', nm, k, hEq, hName⟩ := isMethodOfClassB_eq (hwfc.1.1.1 mem hmem)
  subst hEq
  have hnm : nm = n := by rw [← hname]; rfl
  subst hnm
  exact ⟨k, loc, ms, ps, loc', hcls, hmem⟩

/-- Transfer of a method across files that agree on kinds: if the new file
still has a method member of that name, it has the same kind. -/
theorem kindAgree_transfer {oldF newF : IndexFile}
    (hNew : WFFile newF = true) (hKA : KindAgree oldF newF = true)
    {A n : SymbolName} {k : MethodKind}
    (h1 : HasMethod oldF.symbols A n k)
    (h2 : HasMethodNamed newF.symbols A n) :
    HasMethod newF.symbols A n k := by
  obtain ⟨k2, hk2⟩ := hasMethod_of_named hNew h2
  obtain ⟨loc, ms, ps, loc', hcls, hm⟩ := h1
  obtain ⟨loc2, ms2, ps2, loc2', hcls2, hm2⟩ := hk2
  have hkk : k = k2 :=
    KindAgree_elim hKA (fileMethodEntries_mem hcls hm)
      (fileMethodEntries_mem hcls2 hm2)
  subst hkk
  exact ⟨loc2, ms2, ps2, loc2', hcls2, hm2⟩

/-- The step lemma of the rebuild equivalence: updating the canonical
tables of `F` with the diff against `F'` yields tables equivalent to the
canonical tables of `F'`, provided both files are well-formed and method
kinds agree on shared paths. -/
theorem step_canonical {F F' : IndexFile} {r : IndexFileRef}
    (hF : WFFile F = true) (hF' : WFFile F' = true)
    (hKA : KindAgree F F' = true) :
    ((canonicalTables F r).update (diffSymbols F.symbols F'.symbols) r).Eqv
      (canonicalTables F' r) := by
  obtain ⟨hFs, hFn⟩ := WFFile_elim hF
  obtain ⟨hF's, hF'n⟩ := WFFile_elim hF'
  refine ⟨fun n => ?_, fun k n x => ?_, fun n x => ?_⟩
  · rw [update_classTable, canonicalTables_classTable, canonicalTables_classTable,
      addHasClass_diff hFs hF's hFn hF'n, remHasClass_diff hFs hF's hFn hF'n]
    cases hN : addHasClass F'.symbols n <;>
      cases hO : addHasClass F.symbols n <;> simp
  · rw [mem_update_method, mem_canonicalTables_method, mem_canonicalTables_method,
      mem_addMethodRefs_wf hFs, mem_addMethodRefs_wf hF's,
      mem_remMethodPaths_diff hFs hF's hFn hF'n,
      mem_addMethodRefs_diff hFs hF's hFn hF'n]
    constructor
    · rintro (⟨⟨A, hxEq, hM⟩, hnot⟩ | ⟨A, hxEq, hM', _⟩)
      · subst hxEq
        by_cases hmn : HasMethodNamed F'.symbols A n
        · exact ⟨A, rfl, kindAgree_transfer hF' hKA hM hmn⟩
        · exact absurd ⟨A, rfl, hM, hmn⟩ hnot
      · exact ⟨A, hxEq, hM'⟩
    · rintro ⟨A, hxEq, hM'⟩
      subst hxEq
      by_cases hold : HasMethodNamed F.symbols A n
      · left
        obtain ⟨k2, hk2⟩ := hasMethod_of_named hF hold
        obtain ⟨loc, ms, ps, loc', hcls, hm⟩ := hk2
        obtain ⟨loc2, ms2, ps2, loc2', hcls2, hm2⟩ := hM'
        have hkk : k = k2 :=
          (KindAgree_elim hKA (fileMethodEntries_mem hcls hm)
            (fileMethodEntries_mem hcls2 hm2)).symm
        subst hkk
        refine ⟨⟨A, rfl, loc, ms, ps, loc', hcls, hm⟩, ?_⟩
        rintro ⟨A', hpath, hMF', hnotNew⟩
        have hA : A = A' := by simpa using hpath
        subst hA
        exact hnotNew
          (hasMethodNamed_of_hasMethod ⟨loc2, ms2, ps2, loc2', hcls2, hm2⟩)
      · right
        exact ⟨A, rfl, hM', hold⟩
  · rw [mem_update_prop, mem_canonicalTables_prop, mem_canonicalTables_prop,
      mem_addPropRefs_wf hFs, mem_addPropRefs_wf hF's,
      mem_remPropPaths_diff hFs hF's hFn hF'n,
      mem_addPropRefs_diff hFs hF's hFn hF'n]
    constructor
    · rintro (⟨⟨A, hxEq, hP⟩, hnot⟩ | ⟨A, hxEq, hP'⟩)
      · subst hxEq
        exact absurd ⟨A, rfl, hP⟩ hnot
      · exact ⟨A, hxEq, hP'⟩
    · rintro ⟨A, hxEq, hP'⟩
      exact Or.inr ⟨A, hxEq, hP'⟩

/-- The files map after `Index::update_file`. -/
theorem updateFile_files (idx : Index) (nm : String) (f : IndexFile)
    (r : IndexFileRef) :
    (idx.updateFile nm f).files r = if r = nm then some f else idx.files r := rfl

/-- The lookup tables after `Index::update_file`. -/
theorem updateFile_tables (idx : Index) (nm : String) (f : IndexFile) :
    (idx.updateFile nm f).lookupTables =
      idx.lookupTables.update (diffIndexFiles (idx.files nm) (some f)) nm := rfl

/-- One step of `commitAll`. -/
theorem commitAll_cons (idx : Index) (op : String × IndexFile)
    (ops : List (String × IndexFile)) :
    commitAll idx (op :: ops) = commitAll (idx.updateFile op.1 op.2) ops := rfl

/-- In a well-formed file, a method path determines its kind. -/
theorem hasMethod_unique {f : IndexFile} (hwf : WFFile f = true)
    {A n : SymbolName} {k k' : MethodKind}
    (h1 : HasMethod f.symbols A n k) (h2 : HasMethod f.symbols A n k') :
    k = k' := by
  obtain ⟨hWF, hN⟩ := WFFile_elim hwf
  obtain ⟨loc, ms, ps, loc', hcls, hm⟩ := h1
  obtain ⟨loc2, ms2, ps2, loc2', hcls2, hm2⟩ := h2
  have hceq : IndexSymbol.classSym loc A ms ps =
      IndexSymbol.classSym loc2 A ms2 ps2 :=
    List.inj_on_of_nodup_map hN hcls hcls2 rfl
  have hms : ms = ms2 := by
    simp only [IndexSymbol.classSym.injEq] at hceq
    exact hceq.2.2.1
  subst hms
  have hwfc := hWF _ hcls
  simp only [WFClassSym, Bool.and_eq_true, List.all_eq_true] at hwfc
  have hmsN := distinctStrings_iff_nodup.1 hwfc.1.2
  have hmeq : IndexSymbol.methodSym loc' [A, n] k =
      IndexSymbol.methodSym loc2' [A, n] k' :=
    List.inj_on_of_nodup_map hmsN hm hm2 rfl
  simp only [IndexSymbol.methodSym.injEq] at hmeq
  exact hmeq.2.2

/-- Shape of a method entry of a well-formed file. -/
theorem fileMethodEntries_shape {f : IndexFile} (hwf : WFFile f = true)
    {p : SymbolPath} {k : MethodKind} (h : (p, k) ∈ fileMethodEntries f) :
    ∃ A n, p = [A, n] ∧ HasMethod f.symbols A n k := by
  rw [fileMethodEntries, List.mem_flatMap] at h
  obtain ⟨s, hs, hp⟩ := h
  obtain ⟨loc, b, ms, ps, hEq, _, hms, _, _, _⟩ :=
    WFClassSym_eq ((WFFile_elim hwf).1 s hs)
  subst hEq
  dsimp only at hp
  rw [List.mem_filterMap] at hp
  obtain ⟨m, hm, hpm⟩ := hp
  obtain ⟨loc', nm, k', hEq, _⟩ := isMethodOfClassB_eq (hms m hm)
  subst hEq
  dsimp only at hpm
  have h2 := Option.some.inj hpm
  simp only [Prod.mk.injEq] at h2
  obtain ⟨hp2, hk2⟩ := h2
  subst hk2
  exact ⟨b, nm, hp2.symm, loc, ms, ps, loc', hs, hm⟩

/-- A well-formed file agrees with itself on method kinds. -/
theorem KindAgree_refl {f : IndexFile} (hwf : WFFile f = true) :
    KindAgree f f = true := by
  rw [KindAgree, List.all_eq_true]
  intro e he
  rw [List.all_eq_true]
  intro e' he'
  by_cases hp : e.1 = e'.1
  · have he2 : (e.1, e.2) ∈ fileMethodEntries f := he
    have he'2 : (e'.1, e'.2) ∈ fileMethodEntries f := he'
    obtain ⟨A, n, hpEq, hM⟩ := fileMethodEntries_shape hwf he2
    obtain ⟨A', n', hpEq', hM'⟩ := fileMethodEntries_shape hwf he'2
    rw [hp, hpEq'] at hpEq
    simp only [List.cons.injEq, and_true] at hpEq
    obtain ⟨hA, hn⟩ := hpEq
    subst hA
    subst hn
    have hkk : e.2 = e'.2 := hasMethod_unique hwf hM hM'
    simp [hkk]
  · simp [hp]

/-- Committing a valid chain of files under one reference keeps the lookup
tables equivalent to the canonical tables of the latest file. -/
theorem commitAll_canonical :
    ∀ (fs : List IndexFile) (F : IndexFile) (nm : String) (idx : Index),
      idx.files nm = some F →
      idx.lookupTables.Eqv (canonicalTables F nm) →
      WFFile F = true →
      WFChain (some F) fs = true →
      (commitAll idx (fs.map (fun f => (nm, f)))).lookupTables.Eqv
          (canonicalTables (fs.getLastD F) nm) ∧
        (commitAll idx (fs.map (fun f => (nm, f)))).files nm =
          some (fs.getLastD F) := by
  intro fs
  induction fs with
  | nil =>
    intro F nm idx hfiles htab hwf hchain
    exact ⟨htab, hfiles⟩
  | cons f fs ih =>
    intro F nm idx hfiles htab hwf hchain
    rw [WFChain] at hchain
    simp only [Bool.and_eq_true] at hchain
    obtain ⟨⟨hwf_f, hKA⟩, hchain'⟩ := hchain
    have hstep : ((idx.updateFile nm f).lookupTables).Eqv
        (canonicalTables f nm) := by
      rw [updateFile_tables, hfiles]
      rw [show diffIndexFiles (some F) (some f) =
        diffSymbols F.symbols f.symbols from rfl]
      exact Eqv_trans (Eqv_update_congr htab _ _)
        (step_canonical hwf hwf_f hKA)
    have hfiles' : (idx.updateFile nm f).files nm = some f := by
      rw [updateFile_files, if_pos rfl]
    have hrec := ih f nm (idx.updateFile nm f) hfiles' hstep hwf_f hchain'
    rw [List.map_cons, commitAll_cons]
    rw [List.getLastD_cons]
    exact hrec

/-- C1 (amended): the spec claims the lookup tables after committing a
file sequence to a fresh index equal the tables rebuilt from the last file
alone.  Verbatim table equality fails (see the counterexample), but under
the stated data-model invariants — every committed file well-formed and
method kinds stable across versions (`WFChain`) — the incremental tables
are extensionally equivalent to the rebuilt ones; and the concrete
class-rename scenario of the spec holds: after committing `cMyClass` and
then `cMyRenamedClass` under one path, the class table has the new name
and no longer has the old. -/
theorem c1_rebuild_equivalence_amended :
    (∀ (nm : String) (f : IndexFile) (fs : List IndexFile),
      WFChain none (f :: fs) = true →
      (commitAll Index.emptyIndex
          ((f :: fs).map (fun g => (nm, g)))).lookupTables.Eqv
        (commitAll Index.emptyIndex [(nm, fs.getLastD f)]).lookupTables) ∧
    (commitAll Index.emptyIndex
        [("test.pkg", c1FileA), ("test.pkg", c1FileB)]).lookupTables.classLookupTable
        "cMyRenamedClass" = some ⟨"test.pkg", ["cMyRenamedClass"]⟩ ∧
    (commitAll Index.emptyIndex
        [("test.pkg", c1FileA), ("test.pkg", c1FileB)]).lookupTables.classLookupTable
        "cMyClass" = none := by
  have hdiffAB : diffSymbols c1FileA.symbols c1FileB.symbols =
      ⟨[.classSym ⟨0, 6⟩ "cMyRenamedClass" [] []],
       [.classSym ⟨0, 6⟩ "cMyClass" [] []]⟩ := by
    simp [c1FileA, c1FileB, diffSymbols, diffAux, buildSymTable, symTableInsert,
      IndexSymbol.name, IndexSymbol.isMatching]
  have h2 : (commitAll Index.emptyIndex
      [("test.pkg", c1FileA), ("test.pkg", c1FileB)]).lookupTables =
      (canonicalTables c1FileA "test.pkg").update
        (diffSymbols c1FileA.symbols c1FileB.symbols) "test.pkg" := rfl
  refine ⟨?_, ?_, ?_⟩
  · intro nm f fs hchain
    rw [WFChain] at hchain
    simp only [Bool.and_eq_true] at hchain
    obtain ⟨⟨hwf_f, -⟩, hchain'⟩ := hchain
    rw [List.map_cons, commitAll_cons]
    have h0 : (Index.emptyIndex.updateFile nm f).lookupTables =
        canonicalTables f nm := rfl
    have hfiles0 : (Index.emptyIndex.updateFile nm f).files nm = some f := by
      rw [updateFile_files, if_pos rfl]
    have hmain := commitAll_canonical fs f nm (Index.emptyIndex.updateFile nm f)
      hfiles0 (by rw [h0]; exact Eqv_refl _) hwf_f hchain'
    have hR : (commitAll Index.emptyIndex [(nm, fs.getLastD f)]).lookupTables =
        canonicalTables (fs.getLastD f) nm := rfl
    rw [hR]
    exact hmain.1
  · rw [h2, hdiffAB]
    decide
  · rw [h2, hdiffAB]
    decide

/-- C1 witness: the amended rebuild equivalence applied to the spec's
rename scenario. -/
theorem c1_witness :
    WFChain none [c1FileA, c1FileB] = true ∧
    (commitAll Index.emptyIndex
        [("test.pkg", c1FileA), ("test.pkg", c1FileB)]).lookupTables.Eqv
      (commitAll Index.emptyIndex
        [("test.pkg", [c1FileB].getLastD c1FileA)]).lookupTables :=
  ⟨by decide,
   c1_rebuild_equivalence_amended.1 "test.pkg" c1FileA [c1FileB] (by decide)⟩

/-- C1 counterexample: committing a class whose method changes kind from
`Procedure` to `Function` leaves the incremental tables different from the
rebuilt ones — `is_matching` compares methods by path only, so the diff is
empty and the stale `Procedure` bucket entry survives, while a rebuild
files the method under `Function`. -/
theorem c1_counterexample :
    ¬ ((commitAll Index.emptyIndex
        [("test.pkg", c1KindFileP), ("test.pkg", c1KindFileF)]).lookupTables.Eqv
      (commitAll Index.emptyIndex [("test.pkg", c1KindFileF)]).lookupTables) := by
  have hdiff : diffSymbols c1KindFileP.symbols c1KindFileF.symbols =
      ⟨[], []⟩ := by
    simp [c1KindFileP, c1KindFileF, diffSymbols, diffAux, buildSymTable,
      symTableInsert, IndexSymbol.name, IndexSymbol.isMatching]
  have h2 : (commitAll Index.emptyIndex
      [("test.pkg", c1KindFileP), ("test.pkg", c1KindFileF)]).lookupTables =
      (canonicalTables c1KindFileP "test.pkg").update
        (diffSymbols c1KindFileP.symbols c1KindFileF.symbols) "test.pkg" := rfl
  intro h
  have hmem := (h.2.1 .procedure "testIt" ⟨"test.pkg", ["cA", "testIt"]⟩).1
  rw [h2, hdiff] at hmem
  have h3 := hmem (by decide)
  revert h3
  decide

/-- The empty index satisfies the strong invariant. -/
theorem strongInv_empty : StrongInv Index.emptyIndex := by
  refine ⟨?_, ?_, ?_, ?_⟩
  · intro r f h
    cases h
  · intro n x h
    cases h
  · intro k n x h
    cases h
  · intro n x h
    cases h

/-- Path descent succeeds on a stored class of a well-formed file. -/
theorem resolve_isSome_class {f : IndexFile} (hwf : WFFile f = true)
    {n : SymbolName} (h : addHasClass f.symbols n = true) :
    (f.resolve [n]).isSome = true := by
  obtain ⟨hWF, hN⟩ := WFFile_elim hwf
  rw [addHasClass_iff_mem hWF] at h
  obtain ⟨s, hs, hname⟩ := List.mem_map.1 h
  have hchild : f.child n = some s := by
    rw [IndexFile.child]
    exact find?_name_eq_some hN hs hname
  rw [IndexFile.resolve, hchild]
  simp [IndexSymbol.resolve]

/-- Path descent succeeds on a stored member of a class of a well-formed
file. -/
theorem resolve_isSome_of_member {f : IndexFile} (hwf : WFFile f = true)
    {A n : SymbolName} {loc : Point} {ms ps : List IndexSymbol}
    (hcls : IndexSymbol.classSym loc A ms ps ∈ f.symbols)
    (hmem : ∃ mem ∈ ms ++ ps, IndexSymbol.name mem = n) :
    (f.resolve [A, n]).isSome = true := by
  obtain ⟨hWF, hN⟩ := WFFile_elim hwf
  have hchild : f.child A = some (IndexSymbol.classSym loc A ms ps) := by
    rw [IndexFile.child]
    exact find?_name_eq_some hN hcls rfl
  rw [IndexFile.resolve, hchild]
  obtain ⟨mem, hmm, hmn⟩ := hmem
  cases hfind : (ms ++ ps).find? (fun c => IndexSymbol.name c = n) with
  | none =>
    exfalso
    have := List.find?_eq_none.1 hfind mem hmm
    simp [hmn] at this
  | some c =>
    simp [IndexSymbol.resolve, IndexSymbol.child, hfind]

/-- The strong invariant gives claim C2's conclusion: every lookup entry
re-resolves through the files map. -/
theorem indexResolves_of_strongInv {idx : Index} (h : StrongInv idx) :
    IndexResolves idx := by
  obtain ⟨hFiles, hCls, hMeth, hProp⟩ := h
  refine ⟨?_, ?_, ?_⟩
  · intro n x hx
    obtain ⟨hpath, g, hg, hgcls⟩ := hCls n x hx
    refine ⟨g, hg, ?_⟩
    rw [hpath]
    exact resolve_isSome_class (hFiles _ _ hg) hgcls
  · intro k n x hx
    obtain ⟨A, hpath, g, hg, hgM⟩ := hMeth k n x hx
    obtain ⟨loc, ms, ps, loc', hcls, hm⟩ := hgM
    refine ⟨g, hg, ?_⟩
    rw [hpath]
    exact resolve_isSome_of_member (hFiles _ _ hg) hcls
      ⟨_, List.mem_append.2 (Or.inl hm), rfl⟩
  · intro n x hx
    obtain ⟨A, hpath, g, hg, hgP⟩ := hProp n x hx
    obtain ⟨loc, ms, ps, loc', hcls, hm⟩ := hgP
    refine ⟨g, hg, ?_⟩
    rw [hpath]
    exact resolve_isSome_of_member (hFiles _ _ hg) hcls
      ⟨_, List.mem_append.2 (Or.inr hm), rfl⟩

/-- `Index::update_file` preserves the strong invariant when the committed
file is well-formed and agrees on kinds with the file it replaces. -/
theorem strongInv_update {idx : Index} {nm : String} {f : IndexFile}
    (hInv : StrongInv idx) (hwf : WFFile f = true)
    (hKA : ∀ old, idx.files nm = some old → KindAgree old f = true) :
    StrongInv (idx.updateFile nm f) := by
  obtain ⟨hFiles, hCls, hMeth, hProp⟩ := hInv
  obtain ⟨hfs, hfn⟩ := WFFile_elim hwf
  refine ⟨?_, ?_, ?_, ?_⟩
  · intro r g hg
    rw [updateFile_files] at hg
    by_cases hr : r = nm
    · rw [if_pos hr] at hg
      have hge : f = g := Option.some.inj hg
      subst hge
      exact hwf
    · rw [if_neg hr] at hg
      exact hFiles r g hg
  · intro n x hx
    rw [updateFile_tables] at hx
    cases hold : idx.files nm with
    | none =>
      rw [hold, show diffIndexFiles none (some f) =
        (⟨f.symbols, []⟩ : SymbolsDiff) from rfl, update_classTable] at hx
      by_cases hadd : addHasClass f.symbols n = true
      · rw [if_pos hadd] at hx
        have hxe : (⟨nm, [n]⟩ : IndexSymbolRef) = x := Option.some.inj hx
        subst hxe
        exact ⟨rfl, f, by rw [updateFile_files, if_pos rfl], hadd⟩
      · rw [if_neg hadd, show remHasClass [] n = false from rfl,
          if_neg (by simp)] at hx
        obtain ⟨hpath, g, hg, hgcls⟩ := hCls n x hx
        refine ⟨hpath, g, ?_, hgcls⟩
        rw [updateFile_files]
        by_cases hr : x.fileRef = nm
        · rw [hr, hold] at hg
          cases hg
        · rw [if_neg hr]
          exact hg
    | some old =>
      have hKAo := hKA old hold
      have hwfOld := hFiles nm old hold
      obtain ⟨hos, hon⟩ := WFFile_elim hwfOld
      rw [hold, show diffIndexFiles (some old) (some f) =
        diffSymbols old.symbols f.symbols from rfl, update_classTable,
        addHasClass_diff hos hfs hon hfn, remHasClass_diff hos hfs hon hfn] at hx
      by_cases h1 : (addHasClass f.symbols n && !(addHasClass old.symbols n)) = true
      · rw [if_pos h1] at hx
        have hxe : (⟨nm, [n]⟩ : IndexSymbolRef) = x := Option.some.inj hx
        subst hxe
        have h1' := h1
        simp only [Bool.and_eq_true] at h1'
        exact ⟨rfl, f, by rw [updateFile_files, if_pos rfl], h1'.1⟩
      · rw [if_neg h1] at hx
        by_cases h2 : (addHasClass old.symbols n && !(addHasClass f.symbols n)) = true
        · rw [if_pos h2] at hx
          cases hx
        · rw [if_neg h2] at hx
          obtain ⟨hpath, g, hg, hgcls⟩ := hCls n x hx
          refine ⟨hpath, ?_⟩
          by_cases hr : x.fileRef = nm
          · rw [hr, hold] at hg
            have hgo : old = g := Option.some.inj hg
            subst hgo
            have hfn2 : addHasClass f.symbols n = true := by
              by_contra hno
              apply h2
              rw [hgcls]
              simp [hno]
            exact ⟨f, by rw [updateFile_files, hr, if_pos rfl], hfn2⟩
          · exact ⟨g, by rw [updateFile_files, if_neg hr]; exact hg, hgcls⟩
  · intro k n x hx
    rw [updateFile_tables] at hx
    cases hold : idx.files nm with
    | none =>
      rw [hold, show diffIndexFiles none (some f) =
        (⟨f.symbols, []⟩ : SymbolsDiff) from rfl, mem_update_method] at hx
      rcases hx with ⟨hmem, -⟩ | hadd
      · obtain ⟨A, hpath, g, hg, hgM⟩ := hMeth k n x hmem
        refine ⟨A, hpath, g, ?_, hgM⟩
        rw [updateFile_files]
        by_cases hr : x.fileRef = nm
        · rw [hr, hold] at hg
          cases hg
        · rw [if_neg hr]
          exact hg
      · rw [mem_addMethodRefs_wf hfs] at hadd
        obtain ⟨A, hxEq, hM⟩ := hadd
        subst hxEq
        exact ⟨A, rfl, f, by rw [updateFile_files, if_pos rfl], hM⟩
    | some old =>
      have hKAo := hKA old hold
      have hwfOld := hFiles nm old hold
      obtain ⟨hos, hon⟩ := WFFile_elim hwfOld
      rw [hold, show diffIndexFiles (some old) (some f) =
        diffSymbols old.symbols f.symbols from rfl, mem_update_method] at hx
      rcases hx with ⟨hmem, hnotrem⟩ | hadd
      · obtain ⟨A, hpath, g, hg, hgM⟩ := hMeth k n x hmem
        by_cases hr : x.fileRef = nm
        · rw [hr, hold] at hg
          have hgo : old = g := Option.some.inj hg
          subst hgo
          rw [mem_remMethodPaths_diff hos hfs hon hfn] at hnotrem
          by_cases hmn : HasMethodNamed f.symbols A n
          · have hfM := kindAgree_transfer hwf hKAo hgM hmn
            exact ⟨A, hpath, f, by rw [updateFile_files, hr, if_pos rfl], hfM⟩
          · exact absurd ⟨A, hpath, hgM, hmn⟩ hnotrem
        · exact ⟨A, hpath, g, by rw [updateFile_files, if_neg hr]; exact hg, hgM⟩
      · rw [mem_addMethodRefs_diff hos hfs hon hfn] at hadd
        obtain ⟨A, hxEq, hM, -⟩ := hadd
        subst hxEq
        exact ⟨A, rfl, f, by rw [updateFile_files, if_pos rfl], hM⟩
  · intro n x hx
    rw [updateFile_tables] at hx
    cases hold : idx.files nm with
    | none =>
      rw [hold, show diffIndexFiles none (some f) =
        (⟨f.symbols, []⟩ : SymbolsDiff) from rfl, mem_update_prop] at hx
      rcases hx with ⟨hmem, -⟩ | hadd
      · obtain ⟨A, hpath, g, hg, hgP⟩ := hProp n x hmem
        refine ⟨A, hpath, g, ?_, hgP⟩
        rw [updateFile_files]
        by_cases hr : x.fileRef = nm
        · rw [hr, hold] at hg
          cases hg
        · rw [if_neg hr]
          exact hg
      · rw [mem_addPropRefs_wf hfs] at hadd
        obtain ⟨A, hxEq, hP⟩ := hadd
        subst hxEq
        exact ⟨A, rfl, f, by rw [updateFile_files, if_pos rfl], hP⟩
    | some old =>
      have hwfOld := hFiles nm old hold
      obtain ⟨hos, hon⟩ := WFFile_elim hwfOld
      rw [hold, show diffIndexFiles (some old) (some f) =
        diffSymbols old.symbols f.symbols from rfl, mem_update_prop] at hx
      rcases hx with ⟨hmem, hnotrem⟩ | hadd
      · obtain ⟨A, hpath, g, hg, hgP⟩ := hProp n x hmem
        by_cases hr : x.fileRef = nm
        · rw [hr, hold] at hg
          have hgo : old = g := Option.some.inj hg
          subst hgo
          rw [mem_remPropPaths_diff hos hfs hon hfn] at hnotrem
          exact absurd ⟨A, hpath, hgP⟩ hnotrem
        · exact ⟨A, hpath, g, by rw [updateFile_files, if_neg hr]; exact hg, hgP⟩
      · rw [mem_addPropRefs_diff hos hfs hon hfn] at hadd
        obtain ⟨A, hxEq, hP⟩ := hadd
        subst hxEq
        exact ⟨A, rfl, f, by rw [updateFile_files, if_pos rfl], hP⟩

/-- Every valid commit sequence preserves the strong invariant. -/
theorem strongInv_commit :
    ∀ (ops : List (String × IndexFile)) (idx : Index),
      StrongInv idx → ValidOps idx ops = true →
      StrongInv (commitAll idx ops) := by
  intro ops
  induction ops with
  | nil =>
    intro idx h _
    exact h
  | cons op ops ih =>
    intro idx h hv
    obtain ⟨nm, f⟩ := op
    rw [ValidOps] at hv
    simp only [Bool.and_eq_true] at hv
    obtain ⟨⟨hwf, hmatch⟩, hrest⟩ := hv
    rw [commitAll_cons]
    apply ih
    · apply strongInv_update h hwf
      intro old hold
      rw [hold] at hmatch
      exact hmatch
    · exact hrest

/-- C2 (amended): the spec claims every lookup entry resolves through the
current files map to a live symbol.  This fails verbatim for files the
indexer can emit with duplicate class names (see the counterexample), but
holds for every commit sequence of well-formed, kind-stable files: each
entry's file reference names a present `IndexFile` and path descent inside
it succeeds. -/
theorem c2_lookup_entries_resolve_amended :
    ∀ ops : List (String × IndexFile),
      ValidOps Index.emptyIndex ops = true →
      IndexResolves (commitAll Index.emptyIndex ops) :=
  fun ops hv =>
    indexResolves_of_strongInv (strongInv_commit ops _ strongInv_empty hv)

/-- C2 witness: a concrete one-file commit whose entries all resolve. -/
theorem c2_witness :
    ValidOps Index.emptyIndex [("w.pkg", c2WitnessFile)] = true ∧
    IndexResolves (commitAll Index.emptyIndex [("w.pkg", c2WitnessFile)]) :=
  ⟨by decide,
   c2_lookup_entries_resolve_amended [("w.pkg", c2WitnessFile)] (by decide)⟩

/-- C2 counterexample: a file with two classes both named `cA` (the first
with method `m1`, the second with `m2`) produces a lookup entry for `m2`
whose path descent fails — `IndexFile::resolve` finds the first `cA`,
which has no member `m2` — so the entry does not resolve to a live
symbol. -/
theorem c2_counterexample :
    (⟨"a.pkg", ["cA", "m2"]⟩ : IndexSymbolRef) ∈
        c2DupIndex.lookupTables.methodLookupTables .procedure "m2" ∧
      ¬ EntryLive c2DupIndex ⟨"a.pkg", ["cA", "m2"]⟩ := by
  constructor
  · decide
  · rintro ⟨f, hf, hres⟩
    have hfe : c2DupIndex.files "a.pkg" = some c2DupFile := rfl
    rw [hfe] at hf
    have hfd : f = c2DupFile := (Option.some.inj hf).symm
    subst hfd
    have hres' : (c2DupFile.resolve ["cA", "m2"]).isSome = true := hres
    have hno : (c2DupFile.resolve ["cA", "m2"]).isSome = false := rfl
    exact Bool.noConfusion (hno.symm.trans hres')

/-- C7 (amended): `LookupTables::update` is not idempotent on raw diffs
(see the counterexample), but the end-to-end pipeline is: re-committing
the identical well-formed file through `Index::update_file` leaves the
lookup tables extensionally equivalent, because the diff removes exactly
the property paths it re-adds and leaves matched methods untouched. -/
theorem c7_update_idempotent_amended :
    (∀ (nm : String) (F : IndexFile), WFFile F = true →
      (commitAll Index.emptyIndex [(nm, F), (nm, F)]).lookupTables.Eqv
        (commitAll Index.emptyIndex [(nm, F)]).lookupTables) ∧
    (∀ ops : List (String × IndexFile),
      ValidOps Index.emptyIndex ops = true →
      (∀ n x, (commitAll Index.emptyIndex ops).lookupTables.classLookupTable n =
          some x →
        ∃ f, (commitAll Index.emptyIndex ops).files x.fileRef = some f) ∧
      (∀ k n x,
          x ∈ (commitAll Index.emptyIndex ops).lookupTables.methodLookupTables k n →
        ∃ f, (commitAll Index.emptyIndex ops).files x.fileRef = some f) ∧
      (∀ n x,
          x ∈ (commitAll Index.emptyIndex ops).lookupTables.propertyLookupTable n →
        ∃ f, (commitAll Index.emptyIndex ops).files x.fileRef = some f)) := by
  constructor
  case right =>
    intro ops hv
    obtain ⟨-, hCls, hMeth, hProp⟩ := strongInv_commit ops _ strongInv_empty hv
    refine ⟨?_, ?_, ?_⟩
    · intro n x hx
      obtain ⟨-, f, hf, -⟩ := hCls n x hx
      exact ⟨f, hf⟩
    · intro k n x hx
      obtain ⟨A, -, f, hf, -⟩ := hMeth k n x hx
      exact ⟨f, hf⟩
    · intro n x hx
      obtain ⟨A, -, f, hf, -⟩ := hProp n x hx
      exact ⟨f, hf⟩
  case left =>
  intro nm F hwf
  have h1 : (commitAll Index.emptyIndex [(nm, F), (nm, F)]).lookupTables =
      (Index.emptyIndex.updateFile nm F).lookupTables.update
        (diffIndexFiles ((Index.emptyIndex.updateFile nm F).files nm) (some F))
        nm := rfl
  have h0 : (Index.emptyIndex.updateFile nm F).lookupTables =
      canonicalTables F nm := rfl
  have hf0 : (Index.emptyIndex.updateFile nm F).files nm = some F := by
    rw [updateFile_files, if_pos rfl]
  have hR : (commitAll Index.emptyIndex [(nm, F)]).lookupTables =
      canonicalTables F nm := rfl
  rw [h1, h0, hf0, hR,
    show diffIndexFiles (some F) (some F) = diffSymbols F.symbols F.symbols
      from rfl]
  exact step_canonical hwf hwf (KindAgree_refl hwf)

/-- C7 witness: re-committing a concrete well-formed file is idempotent up
to table equivalence. -/
theorem c7_witness :
    WFFile c2WitnessFile = true ∧
    (commitAll Index.emptyIndex
        [("w.pkg", c2WitnessFile), ("w.pkg", c2WitnessFile)]).lookupTables.Eqv
      (commitAll Index.emptyIndex [("w.pkg", c2WitnessFile)]).lookupTables :=
  ⟨by decide, c7_update_idempotent_amended.1 "w.pkg" c2WitnessFile (by decide)⟩
